import Mathlib

/-!
# ZipSync: a verification model of the archive pack/unpack controllers

This file gives a shallow embedding of the ZipSync repository
(`src/controller/zip_creator_controller.rs`, `src/controller/zip_reader_controller.rs`,
`src/model/{config,copy_task,sync_task}.rs`) and proves properties of it.

Modelling conventions:
* Rust `String` values are modelled as `List Char` (`Str`); all the string
  operations the code uses (`ends_with('/')`, `starts_with("/")`, `format!`,
  slicing `[1..]`) become list operations.
* `std::path::Path` operations (`file_name`, `parent`, `extension`,
  `file_stem`, `join`) are modelled for Unix path semantics.
* The filesystem is a rose tree (`FsTree`); host paths are resolved against it.
* The zip container is modelled as the list of its entries in writing order;
  the binary encoding of the container is produced and parsed by the external
  `zip` crate and is not modelled.
-/

namespace ZipSync

/-- Rust strings, modelled as lists of characters. -/
abbrev Str := List Char

/-- File contents. -/
abbrev Bytes := List Nat

/-! ## Rust `std::path` model (Unix semantics) -/

/-- Split a character list at every occurrence of `sep`
(the splitting underlying `Path` component parsing). -/
def splitOnChar (sep : Char) : Str → List Str
  | [] => [[]]
  | c :: rest =>
    if c = sep then [] :: splitOnChar sep rest
    else
      match splitOnChar sep rest with
      | [] => [[c]]
      | h :: t => (c :: h) :: t

/-- Join a list of pieces with a separating character (inverse of `splitOnChar`). -/
def joinWithChar (sep : Char) : List Str → Str
  | [] => []
  | [x] => x
  | x :: y :: t => x ++ sep :: joinWithChar sep (y :: t)

/-- `splitOnChar '/'`. -/
def splitSlash : Str → List Str := splitOnChar '/'

/-- `joinWithChar '/'`. -/
def joinSlash : List Str → Str := joinWithChar '/'

/-- Does the string end with `'/'` (Rust `str::ends_with('/')`). -/
def endsSlash (s : Str) : Bool := s.getLast? = some '/'

/-- A component of a Rust `Path`, following `std::path::Component`. -/
inductive PComp where
  | rootDir
  | curDir
  | parentDir
  | normal (s : Str)
deriving DecidableEq, Repr

/-- The text of a single component (`rootDir` is rendered by `renderComponents`). -/
def compStr : PComp → Str
  | PComp.rootDir => []
  | PComp.curDir => ['.']
  | PComp.parentDir => ['.', '.']
  | PComp.normal s => s

/-- Keep a raw piece as a path component? Empty pieces and interior `"."`
pieces are dropped by Rust's component parser. -/
def keepComp (c : Str) : Bool := ¬(c = [] ∨ c = ['.'])

/-- The piece-to-component mapper of the component parser. -/
def pieceComp (c : Str) : PComp :=
  if c = ['.', '.'] then PComp.parentDir else PComp.normal c

/-- Rust `Path::components()` on a Unix path string: a leading `/` yields
`rootDir`; a leading `"."` (not after a root) yields `curDir`; empty and
interior `"."` pieces are dropped; `".."` pieces are `parentDir`. -/
def parseComponents (s : Str) : List PComp :=
  let hasRoot : Bool := s.head? = some '/'
  let parts := (splitSlash s).filter keepComp
  let incCur : Bool := ¬hasRoot ∧ (s = ['.'] ∨ s.take 2 = ['.', '/'])
  (if hasRoot then [PComp.rootDir] else []) ++
    (if incCur then [PComp.curDir] else []) ++
    parts.map pieceComp

/-- Render a component list back to a path string (Rust `Components::as_path`). -/
def renderComponents : List PComp → Str
  | PComp.rootDir :: rest => '/' :: joinSlash (rest.map compStr)
  | cs => joinSlash (cs.map compStr)

/-- Rust `Path::file_name()`: the last component if it is a normal one. -/
def rustFileName (s : Str) : Option Str :=
  match (parseComponents s).getLast? with
  | some (PComp.normal n) => some n
  | _ => none

/-- Rust `Path::extension()`: the part of the file name after its last dot;
none when there is no dot, or when the only dot is the leading one. -/
def rustExtension (s : Str) : Option Str :=
  match rustFileName s with
  | none => none
  | some f =>
    match splitOnChar '.' f with
    | [] => none
    | [_] => none
    | [x, y] => if x = [] then none else some y
    | ps => ps.getLast?

/-- Rust `Path::file_stem()`: the file name up to its last dot (the whole
name when there is no dot or only a leading dot). -/
def rustFileStem (s : Str) : Option Str :=
  match rustFileName s with
  | none => none
  | some f =>
    match splitOnChar '.' f with
    | [] => some f
    | [_] => some f
    | [x, _] => if x = [] then some f else some x
    | ps => some (joinWithChar '.' ps.dropLast)

/-- Rust `Path::parent()`: the path without its final component. -/
def rustParent (s : Str) : Option Str :=
  if parseComponents s = [] then none
  else if parseComponents s = [PComp.rootDir] then none
  else some (renderComponents (parseComponents s).dropLast)

/-- Rust `Path::join`: appending a relative path (an absolute right operand
replaces the left one, a separator is inserted when needed). -/
def rustJoin (a b : Str) : Str :=
  if b.head? = some '/' then b
  else if a = [] then b
  else if endsSlash a then a ++ b
  else a ++ '/' :: b

/-- Resolve an absolute path string to its canonical component list, the way
the operating system resolves the string when the path is accessed: empty and
`"."` pieces disappear, `".."` pops one component. Relative strings are not
resolvable in this model (every host path the controllers touch is absolute
once the modelled preconditions hold). -/
def strResolve (s : Str) : Option (List Str) :=
  if s.head? = some '/' then
    some ((splitSlash s).foldl
      (fun acc c =>
        if c = [] ∨ c = ['.'] then acc
        else if c = ['.', '.'] then acc.dropLast
        else acc ++ [c]) [])
  else none

/-! ## Data model (`src/model`) -/

/-- `model/copy_task.rs`: a configured copy task. -/
structure CopyTask where
  source : Str
  description : Str
  target : Str
deriving DecidableEq, Repr

/-- `model/sync_task.rs`: a reverse-sync task. -/
structure SyncTask where
  zip_path : Str
  extract_path : Str
  zip_date : Option Int
  extract_date : Option Int
deriving DecidableEq, Repr

/-- `model/config.rs`: the configuration object. -/
structure Config where
  zip_path : Str
  direction : Str
  confirm_new : Str
  confirm_overwrite : Str
  confirm_delete : Str
  copy_tasks : List CopyTask
deriving DecidableEq, Repr

/-- `Config::clean`: remove a leading slash from each task's target. -/
def Config.clean (c : Config) : Config :=
  { c with
    copy_tasks := c.copy_tasks.map fun task =>
      if task.target.head? = some '/' then { task with target := task.target.drop 1 }
      else task }

/-! ## Path mapping (`zip_creator_controller.rs`) -/

/-- `ZipCreatorController::get_target_file_path`: the archive path of a file. -/
def get_target_file_path (filename : Str) (task : CopyTask) : Str :=
  if task.target = [] then filename
  else if endsSlash task.target then task.target ++ filename
  else if (rustExtension task.target).isNone then task.target ++ '/' :: filename
  else task.target

/-! ## Sync-task construction (`zip_reader_controller.rs`) -/

/-- `ZipReaderController::get_last_path_component`. -/
def get_last_path_component (path_str : Str) : Option Str :=
  let normalized_path :=
    if endsSlash path_str ∧ 1 < path_str.length then path_str.dropLast else path_str
  (rustFileName normalized_path).map fun s =>
    if endsSlash path_str then s ++ ['/'] else s

/-- `ZipReaderController::remove_last_path_component`. -/
def remove_last_path_component (path_str : Str) : Option Str :=
  let clean_path :=
    if endsSlash path_str ∧ 1 < path_str.length then path_str.dropLast else path_str
  (rustParent clean_path).map fun p => if endsSlash p then p else p ++ ['/']

/-- The body of the loop of `ZipReaderController::create_sync_tasks_from_config`,
building one `SyncTask` from one `CopyTask`. -/
def create_sync_task (task : CopyTask) : SyncTask :=
  let extract_path₀ : Str := task.source
  let zipExtract :=
    if task.target = [] then
      let zp := (get_last_path_component extract_path₀).getD ("default_path".toList)
      let ep :=
        if endsSlash extract_path₀ then
          (remove_last_path_component extract_path₀).getD ("default_path".toList)
        else extract_path₀
      (zp, ep)
    else (task.target, extract_path₀)
  let zip_path₁ :=
    if zipExtract.1.head? = some '/' then zipExtract.1.drop 1 else zipExtract.1
  let zip_path₂ :=
    if endsSlash zip_path₁ ∧ ¬endsSlash zipExtract.2 then
      match rustFileName zipExtract.2 with
      | some n => zip_path₁ ++ n
      | none => zip_path₁
    else zip_path₁
  { zip_path := zip_path₂, extract_path := zipExtract.2,
    zip_date := none, extract_date := none }

/-- `ZipReaderController::create_sync_tasks_from_config`. -/
def create_sync_tasks_from_config (cfg : Config) : List SyncTask :=
  cfg.copy_tasks.map create_sync_task

/-! ## Filesystem model

A rose tree of named nodes. `other` stands for a path that is neither a
regular file nor a directory (symlink, device, ...). -/

/-- A filesystem node. -/
inductive FsTree where
  | file (content : Bytes)
  | dir (children : List (Str × FsTree))
  | other

instance FsTree.instNonempty : Nonempty FsTree := ⟨FsTree.other⟩

/-- Look a name up among the children of a directory. -/
def lookupChild (cs : List (Str × FsTree)) (n : Str) : Option FsTree :=
  (cs.find? fun p => p.1 = n).map (·.2)

/-- Replace the binding of `n` (or append it) among directory children,
keeping the order of the remaining bindings. -/
def assocSet (cs : List (Str × FsTree)) (n : Str) (v : FsTree) : List (Str × FsTree) :=
  match cs with
  | [] => [(n, v)]
  | (m, w) :: rest => if m = n then (n, v) :: rest else (m, w) :: assocSet rest n v

/-- Follow a canonical component path down the tree. -/
def lookupNode : FsTree → List Str → Option FsTree
  | t, [] => some t
  | FsTree.dir cs, n :: rest =>
    match lookupChild cs n with
    | some c => lookupNode c rest
    | none => none
  | _, _ :: _ => none

/-- The bytes of the file at a canonical path, if there is one. -/
def readFile (t : FsTree) (p : List Str) : Option Bytes :=
  match lookupNode t p with
  | some (FsTree.file b) => some b
  | _ => none

/-- `fs::File::create` followed by writing `b`: the parent directories must
already exist, and the target must be a regular file or absent. -/
def writeFileAt : FsTree → List Str → Bytes → Option FsTree
  | _, [], _ => none
  | FsTree.dir cs, [n], b =>
    match lookupChild cs n with
    | some (FsTree.dir _) => none
    | some FsTree.other => none
    | _ => some (FsTree.dir (assocSet cs n (FsTree.file b)))
  | FsTree.dir cs, n :: rest, b =>
    match lookupChild cs n with
    | some c => (writeFileAt c rest b).map fun c' => FsTree.dir (assocSet cs n c')
    | none => none
  | _, _ :: _, _ => none

/-- `fs::create_dir_all`: create every missing directory on the path; fails
when an existing node on the path is not a directory. -/
def createDirAll : FsTree → List Str → Option FsTree
  | FsTree.dir cs, [] => some (FsTree.dir cs)
  | FsTree.dir cs, n :: rest =>
    match lookupChild cs n with
    | some c => (createDirAll c rest).map fun c' => FsTree.dir (assocSet cs n c')
    | none => (createDirAll (FsTree.dir []) rest).map fun c' => FsTree.dir (assocSet cs n c')
  | _, _ => none

/-- The node a path string designates, before the trailing-separator check. -/
def nodeAtStr (fs : FsTree) (s : Str) : Option FsTree :=
  (strResolve s).bind (lookupNode fs)

/-- `fs::metadata` / `stat`: resolves the string against the tree; a path
string with a trailing separator only designates a directory. -/
def statNode (fs : FsTree) (s : Str) : Option FsTree :=
  match nodeAtStr fs s with
  | some (FsTree.dir cs) => some (FsTree.dir cs)
  | some n => if endsSlash s then none else some n
  | none => none

/-- Rust `Path::exists()`. -/
def pathExists (fs : FsTree) (s : Str) : Bool := (statNode fs s).isSome

/-- Rust `Path::is_file()`. -/
def pathIsFile (fs : FsTree) (s : Str) : Bool :=
  match statNode fs s with
  | some (FsTree.file _) => true
  | _ => false

/-- Rust `Path::is_dir()`. -/
def pathIsDir (fs : FsTree) (s : Str) : Bool :=
  match statNode fs s with
  | some (FsTree.dir _) => true
  | _ => false

/-! ## Ambient I/O outcomes

Failures of the surrounding machinery that are not determined by the
filesystem tree: creation/finalization of the archive stream, and
per-path metadata or read failures (for instance permission errors). -/

/-- Injectable I/O failures. -/
structure Env where
  createFails : Bool
  finishFails : Bool
  metaFails : Str → Bool
  readFails : Str → Bool

/-- The environment in which no ambient I/O failure occurs. -/
def honestEnv : Env := ⟨false, false, fun _ => false, fun _ => false⟩

/-! ## The zip container model -/

/-- One entry of the archive, in writing order. `isDir` entries are the
explicit `name/` directory markers and carry no content. -/
structure ZipEntry where
  name : Str
  isDir : Bool
  content : Bytes
deriving DecidableEq, Repr

/-- The binary encoding of the container is produced by the external `zip`
crate and never inspected by the controllers; it is opaque here. -/
def zipBytes (_ : List ZipEntry) : Bytes := []

/-! ## Archive builder (`ZipCreatorController`) -/

/-- The per-task error kinds of `zip_creator_controller.rs`. -/
inductive TaskError where
  | PathNotFound
  | MetadataError
  | PathNotFileOrFolder
  | FileCopyError
  | FolderCopyError
deriving DecidableEq, Repr

/-- The `missing_items` map: `HashMap<String, String>` keyed by source. -/
abbrev MissingMap := List (Str × Str)

/-- `HashMap::insert`: replace the binding of `k`, or append it. -/
def mapInsert (m : MissingMap) (k v : Str) : MissingMap :=
  match m with
  | [] => [(k, v)]
  | (k', v') :: rest => if k' = k then (k, v) :: rest else (k', v') :: mapInsert rest k v

/-- `HashMap::contains_key`. -/
def mapContains (m : MissingMap) (k : Str) : Bool := m.any fun p => p.1 = k

/-- `HashMap::get`-style lookup of the stored target. -/
def mapGet (m : MissingMap) (k : Str) : Option Str :=
  (m.find? fun p => p.1 = k).map (·.2)

/-- `ZipCreatorController::store_missing`: record the task in the
missing-items map (the error kind only drives the printed message). -/
def store_missing (missing : MissingMap) (task : CopyTask) (_error_type : TaskError) :
    MissingMap :=
  mapInsert missing task.source task.target

/-- `ZipCreatorController::add_file_to_zip`: write the parent directory entry
when there is one, then read the file and write its entry. The boolean is
false when reading the file fails; entries already written stay written. -/
def add_file_to_zip (env : Env) (fs : FsTree) (file_path : Str) (zip_path : Str) :
    List ZipEntry × Bool :=
  let dirEntries : List ZipEntry :=
    match rustParent zip_path with
    | some dir => if dir = [] then [] else [⟨dir ++ ['/'], true, []⟩]
    | none => []
  if env.readFails file_path then (dirEntries, false)
  else
    match statNode fs file_path with
    | some (FsTree.file b) => (dirEntries ++ [⟨zip_path, false, b⟩], true)
    | _ => (dirEntries, false)

/-- The loop body of `ZipCreatorController::add_directory_recursively` over the
listed children of a directory: directories get an explicit `name/` entry and
are descended into, files are read and written, anything else is skipped.
A failure stops the walk; entries already written stay written. -/
def adrChildren (env : Env) : List (Str × FsTree) → Str → Str → List ZipEntry × Bool
  | [], _, _ => ([], true)
  | (name, child) :: rest, base_path, zip_base =>
    let path := rustJoin base_path name
    let zip_path := if endsSlash zip_base then zip_base ++ name else zip_base ++ '/' :: name
    match child with
    | FsTree.dir ccs =>
      let inner := adrChildren env ccs path zip_path
      if inner.2 then
        let outer := adrChildren env rest base_path zip_base
        (ZipEntry.mk (zip_path ++ ['/']) true [] :: inner.1 ++ outer.1, outer.2)
      else
        (ZipEntry.mk (zip_path ++ ['/']) true [] :: inner.1, false)
    | FsTree.file b =>
      if env.readFails path then ([], false)
      else
        let outer := adrChildren env rest base_path zip_base
        (ZipEntry.mk zip_path false b :: outer.1, outer.2)
    | FsTree.other => adrChildren env rest base_path zip_base

/-- `ZipCreatorController::add_directory`: the explicit base directory entry,
then the recursive walk of the source directory. -/
def add_directory (env : Env) (fs : FsTree) (dir_path : Str) (targetPref : Str) :
    List ZipEntry × Bool :=
  let dir_name := (rustFileName dir_path).getD dir_path
  let target_dir_name := if targetPref = [] then dir_name else targetPref
  let headEntry : ZipEntry := ⟨target_dir_name ++ ['/'], true, []⟩
  match statNode fs dir_path with
  | some (FsTree.dir cs) =>
    let walked := adrChildren env cs dir_path target_dir_name
    (headEntry :: walked.1, walked.2)
  | _ => ([headEntry], false)

/-- `ZipCreatorController::add_item_to_zip`. Returns the updated missing map,
the entries written, and whether the body ran to completion (`false` models
the `file_name().unwrap()` panic). In the source the directory case branches
on `task.target.is_empty()` only to choose the log message; both branches call
`add_directory` with the task's target. -/
def add_item_to_zip (env : Env) (fs : FsTree) (missing : MissingMap) (task : CopyTask)
    (metadata : FsTree) : MissingMap × List ZipEntry × Bool :=
  match metadata with
  | FsTree.file _ =>
    match rustFileName task.source with
    | none => (missing, [], false)
    | some filename =>
      let target_path := get_target_file_path filename task
      let copied := add_file_to_zip env fs task.source target_path
      ((if copied.2 then missing else store_missing missing task TaskError.FileCopyError),
        copied.1, true)
  | FsTree.dir _ =>
    let copied := add_directory env fs task.source task.target
    ((if copied.2 then missing else store_missing missing task TaskError.FolderCopyError),
      copied.1, true)
  | FsTree.other =>
    (store_missing missing task TaskError.PathNotFileOrFolder, [], true)

/-- The builder's running state over the task loop of `create_zip`. -/
structure BuildSt where
  missing : MissingMap
  entries : List ZipEntry
  panicked : Bool

/-- One iteration of the task loop of `ZipCreatorController::create_zip`. -/
def createStep (env : Env) (fs : FsTree) (st : BuildSt) (task : CopyTask) : BuildSt :=
  if st.panicked then st
  else if ¬pathExists fs task.source then
    { st with missing := store_missing st.missing task TaskError.PathNotFound }
  else if env.metaFails task.source then
    { st with missing := store_missing st.missing task TaskError.MetadataError }
  else
    match statNode fs task.source with
    | none => { st with missing := store_missing st.missing task TaskError.MetadataError }
    | some meta =>
      let r := add_item_to_zip env fs st.missing task meta
      { missing := r.1, entries := st.entries ++ r.2.1, panicked := !r.2.2 }

/-- The outcome of `create_zip`: a fatal error (`Err` from stream creation or
finalization), a panic inside the task loop, or success with the resulting
filesystem, missing map and archive listing. -/
inductive CreateResult where
  | fatal (msg : Str) (fs : FsTree) (missing : MissingMap)
  | aborted (fs : FsTree) (missing : MissingMap)
  | ok (fs : FsTree) (missing : MissingMap) (archive : List ZipEntry)

/-- The `File::create(&zip_file_path)` step of `create_zip`: an empty file
appears at the archive path (truncating an existing file); `none` when the
ambient creation failure is injected or the location cannot take a file. -/
def stubFs (env : Env) (fs₀ : FsTree) (cfg : Config) : Option FsTree :=
  if env.createFails then none
  else (strResolve cfg.zip_path).bind fun p => writeFileAt fs₀ p []

/-- `ZipCreatorController::create_zip`: create the archive file (fatal on
failure), loop over the tasks recording per-task failures, finalize the
stream (fatal on failure). -/
def create_zip (env : Env) (fs₀ : FsTree) (cfg : Config) : CreateResult :=
  match stubFs env fs₀ cfg with
  | none => CreateResult.fatal "stream creation".toList fs₀ []
  | some fs₁ =>
    let st := cfg.copy_tasks.foldl (createStep env fs₁) ⟨[], [], false⟩
    if st.panicked then CreateResult.aborted fs₁ st.missing
    else if env.finishFails then CreateResult.fatal "finalize".toList fs₁ st.missing
    else
      let fs₂ := ((strResolve cfg.zip_path).bind fun p =>
        writeFileAt fs₁ p (zipBytes st.entries)).getD fs₁
      CreateResult.ok fs₂ st.missing st.entries

/-- Does the builder's task loop record this task as missing (one of the five
per-task error kinds), evaluated against the filesystem the loop sees? -/
def taskFails (env : Env) (fs : FsTree) (t : CopyTask) : Bool :=
  match statNode fs t.source with
  | none => true
  | some meta =>
    if env.metaFails t.source then true
    else
      match meta with
      | FsTree.file _ =>
        match rustFileName t.source with
        | none => false
        | some filename =>
          !(add_file_to_zip env fs t.source (get_target_file_path filename t)).2
      | FsTree.dir _ => !(add_directory env fs t.source t.target).2
      | FsTree.other => true

/-! ## Completeness verifier (`ZipCreatorController::check_zip` and helpers) -/

/-- Fuel bound for the ancestor-walking loop: the component count of the path. -/
def reconFuel (s : Str) : Nat := (parseComponents s).length

/-- The `while let Some(parent) = current.parent()` loop of
`add_reconstructed_dirs_to_file_list`: walk up the parents of `current`,
stopping at a root, at an empty rendering, or at a parent already collected. -/
def collectAncestors : Nat → List Str → Str → List Str
  | 0, acc, _ => acc
  | fuel + 1, acc, current =>
    match rustParent current with
    | none => acc
    | some parent =>
      if parent = [] ∨ parent ∈ acc then acc
      else collectAncestors fuel (acc ++ [parent]) parent

/-- `ZipCreatorController::add_reconstructed_dirs_to_file_list`: extend the
entry-name set with every ancestor directory of every path in it. -/
def add_reconstructed_dirs_to_file_list (zip_files : List Str) : List Str :=
  zip_files ++ zip_files.foldl (fun acc p => collectAncestors (reconFuel p) acc p) []

/-- The proper-ancestor chain of a path: the iterated `Path::parent` values,
stopping before a missing parent or an empty rendering. -/
def ancChainF : Nat → Str → List Str
  | 0, _ => []
  | fuel + 1, p =>
    match rustParent p with
    | none => []
    | some q => if q = [] then [] else q :: ancChainF fuel q

/-- The proper-ancestor chain of a path. -/
def ancChain (p : Str) : List Str := ancChainF (reconFuel p) p

/-- A set of paths closed under taking ancestors. -/
def ancClosed (l : List Str) : Prop := ∀ x ∈ l, ∀ a ∈ ancChain x, a ∈ l

/-- `ZipCreatorController::get_file_list_from_zip`: the entry names of the
archive (a `HashSet`, modelled as a list used only through membership),
extended with the reconstructed directories. -/
def get_file_list_from_zip (archive : List ZipEntry) : List Str :=
  add_reconstructed_dirs_to_file_list (archive.map (·.name))

/-- `ZipCreatorController::check_missing`: was the task marked missing during
creation (keyed by source; the target only feeds the printed message)? -/
def check_missing (missing : MissingMap) (task_source : Str) (_task_target : Str) : Bool :=
  mapContains missing task_source

/-- `ZipCreatorController::check_if_file_in_zip`: `some true` when the
expected archive path is NOT in the set; `none` models the
`file_name().unwrap()` panic. -/
def check_if_file_in_zip (zip_files : List Str) (task : CopyTask) (path : Str) :
    Option Bool :=
  match rustFileName path with
  | none => none
  | some filename => some (!(zip_files.contains (get_target_file_path filename task)))

/-- The expected directory entry computed by `check_if_directory_in_zip`. -/
def expectedDirOf (task : CopyTask) (path : Str) : Str :=
  if task.target = [] then ((rustFileName path).getD path) ++ ['/']
  else if endsSlash task.target then task.target
  else task.target ++ ['/']

/-- The `dir_exists` test of `check_if_directory_in_zip`: the exact entry is
present, or some path in the set starts with it. -/
def dirExistsIn (zip_files : List Str) (expected_dir : Str) : Bool :=
  zip_files.contains expected_dir || zip_files.any fun p => expected_dir.isPrefixOf p

/-- `ZipCreatorController::check_if_directory_in_zip`: `true` when the
expected directory is NOT judged present. -/
def check_if_directory_in_zip (zip_files : List Str) (task : CopyTask) (path : Str) :
    Bool :=
  !(dirExistsIn zip_files (expectedDirOf task path))

/-- The outcome of `check_zip` (`none`-like `panicked` models the unwrap in
`check_if_file_in_zip`; otherwise `Ok(b)`). -/
inductive CheckResult where
  | panicked
  | result (b : Bool)
deriving DecidableEq, Repr

/-- The task loop of `ZipCreatorController::check_zip`: skip tasks marked
missing, then check each remaining task's expected path, returning `Ok(false)`
at the first failure. -/
def check_zip (fs : FsTree) (missing : MissingMap) (zip_files : List Str) :
    List CopyTask → CheckResult
  | [] => CheckResult.result true
  | task :: rest =>
    if check_missing missing task.source task.target then
      check_zip fs missing zip_files rest
    else if pathIsFile fs task.source then
      match check_if_file_in_zip zip_files task task.source with
      | none => CheckResult.panicked
      | some true => CheckResult.result false
      | some false => check_zip fs missing zip_files rest
    else if pathIsDir fs task.source then
      if check_if_directory_in_zip zip_files task task.source then CheckResult.result false
      else check_zip fs missing zip_files rest
    else CheckResult.result false

/-! ## Extractor (`ZipReaderController::extract_zip_to_folder`) -/

/-- The outcome of extraction: failure (with the filesystem as mutated so
far) or success with the output folder. -/
inductive ExtractResult where
  | exfail (fs : FsTree)
  | exok (fs : FsTree) (outputfolder : Str)

/-- One entry of the extraction loop: directory entries (the `zip` crate
treats a name ending in `/` as a directory) become `create_dir_all`; file
entries get their parent directories created and are written unconditionally. -/
def extractEntry (output_folder : Str) (fs : FsTree) (e : ZipEntry) : Option FsTree :=
  let out_path := rustJoin output_folder e.name
  match strResolve out_path with
  | none => none
  | some p =>
    if endsSlash e.name then createDirAll fs p
    else
      match createDirAll fs p.dropLast with
      | none => none
      | some fs₁ => writeFileAt fs₁ p e.content

/-- `ZipReaderController::extract_zip_to_folder`: check the archive file
exists, create the sibling output folder named after the archive's stem, and
materialize every entry in order. The entry listing decoded by the external
`zip` crate is passed by value. -/
def extract_zip_to_folder (fs : FsTree) (zip_path : Str) (archive : List ZipEntry) :
    ExtractResult :=
  if !(pathExists fs zip_path && pathIsFile fs zip_path) then ExtractResult.exfail fs
  else
    let output_folder := rustJoin ((rustParent zip_path).getD ['.'])
                                  ((rustFileStem zip_path).getD [])
    let start :=
      if pathExists fs output_folder then some fs
      else (strResolve output_folder).bind (createDirAll fs)
    match start with
    | none => ExtractResult.exfail fs
    | some fs₁ =>
      let run := archive.foldl
        (fun acc e =>
          match acc with
          | Except.error f => Except.error f
          | Except.ok f =>
            match extractEntry output_folder f e with
            | none => Except.error f
            | some f' => Except.ok f')
        (Except.ok fs₁)
      match run with
      | Except.error f => ExtractResult.exfail f
      | Except.ok f => ExtractResult.exok f output_folder

/-! ## Reverse syncer (`ZipReaderController::sync_files`) -/

/-- The recursive directory copy of the external `fs_extra` crate as the
specification contracts it for this call site (overwrite on, `copy_inside`
on, destination already created): the source directory's contents are copied
into the destination, merging with what is already there; a failing copy step
makes the whole call fail (the caller then panics through `expect`). -/
def copyMergeChildren : List (Str × FsTree) → FsTree → List Str → Option FsTree
  | [], fs, _ => some fs
  | (n, FsTree.file b) :: rest, fs, dest =>
    match writeFileAt fs (dest ++ [n]) b with
    | none => none
    | some fs₁ => copyMergeChildren rest fs₁ dest
  | (n, FsTree.dir ccs) :: rest, fs, dest =>
    match createDirAll fs (dest ++ [n]) with
    | none => none
    | some fs₁ =>
      match copyMergeChildren ccs fs₁ (dest ++ [n]) with
      | none => none
      | some fs₂ => copyMergeChildren rest fs₂ dest
  | (_, FsTree.other) :: rest, fs, dest => copyMergeChildren rest fs dest

/-- The loop body of `ZipReaderController::sync_files` for one sync task:
skip when the staging path does not exist; copy a staged file onto the
original location (appending the file name when the destination is an
existing directory); merge a staged directory into the original location.
`none` models the panics of the `expect` calls. -/
def syncOne (outputfolder : Str) (fs : FsTree) (t : SyncTask) : Option FsTree :=
  let zip_path := rustJoin outputfolder t.zip_path
  if !pathExists fs zip_path then some fs
  else if pathIsFile fs zip_path then
    let extract_path :=
      if pathExists fs t.extract_path && pathIsDir fs t.extract_path then
        match rustFileName zip_path with
        | some n => rustJoin t.extract_path n
        | none => t.extract_path
      else t.extract_path
    let afterMk : Option FsTree :=
      match rustParent extract_path with
      | some parent =>
        if parent = [] then some fs
        else (strResolve parent).bind (createDirAll fs)
      | none => some fs
    match afterMk with
    | none => none
    | some fs₁ =>
      match nodeAtStr fs₁ zip_path with
      | some (FsTree.file b) =>
        (strResolve extract_path).bind fun dp => writeFileAt fs₁ dp b
      | _ => none
  else if pathIsDir fs zip_path then
    match strResolve t.extract_path with
    | none => none
    | some dp =>
      match createDirAll fs dp with
      | none => none
      | some fs₁ =>
        match nodeAtStr fs₁ zip_path with
        | some (FsTree.dir cs) => copyMergeChildren cs fs₁ dp
        | _ => none
  else some fs

/-- `ZipReaderController::sync_files`: run every sync task in order. The
boolean is false when an `expect` panicked, which aborts the remaining
tasks; the filesystem is as mutated up to that point. -/
def sync_files (fs : FsTree) (outputfolder : Str) (tasks : List SyncTask) :
    FsTree × Bool :=
  tasks.foldl
    (fun st t =>
      if st.2 then
        match syncOne outputfolder st.1 t with
        | some f => (f, true)
        | none => (st.1, false)
      else st)
    (fs, true)

/-! ## The round-trip pipeline -/

/-- The files a task covers in the initial filesystem, with their bytes:
paths relative to a node, paired with contents. -/
def relFilesChildren : List (Str × FsTree) → List (List Str × Bytes)
  | [] => []
  | (n, FsTree.file b) :: rest => ([n], b) :: relFilesChildren rest
  | (n, FsTree.dir cs) :: rest =>
    (relFilesChildren cs).map (fun rb => (n :: rb.1, rb.2)) ++ relFilesChildren rest
  | (_, FsTree.other) :: rest => relFilesChildren rest

/-- All files below a node, as relative canonical paths with contents. -/
def relFiles : FsTree → List (List Str × Bytes)
  | FsTree.file b => [([], b)]
  | FsTree.dir cs => relFilesChildren cs
  | FsTree.other => []

/-- The files present under a task's source in a filesystem, at their
absolute canonical paths. -/
def coveredFiles (fs : FsTree) (t : CopyTask) : List (List Str × Bytes) :=
  match strResolve t.source with
  | none => []
  | some p =>
    match lookupNode fs p with
    | some n => (relFiles n).map fun rb => (p ++ rb.1, rb.2)
    | none => []

/-- The full round trip of the two controllers: build the archive
(`create_zip`), extract it (`extract_zip_to_folder`), reverse-sync the
staging tree (`create_sync_tasks_from_config` + `sync_files`). Whatever
stage stops the run, the result is the filesystem at that point. -/
def runPipeline (env : Env) (fs₀ : FsTree) (cfg : Config) : FsTree :=
  match create_zip env fs₀ cfg with
  | CreateResult.fatal _ f _ => f
  | CreateResult.aborted f _ => f
  | CreateResult.ok f _ archive =>
    match extract_zip_to_folder f cfg.zip_path archive with
    | ExtractResult.exfail f₂ => f₂
    | ExtractResult.exok f₂ outf =>
      (sync_files f₂ outf (create_sync_tasks_from_config cfg)).1

/-! ## Well-formed component lists (the shape of every `parseComponents` output) -/

/-- A well-formed normal-component name: nonempty, not a dot form, no slash. -/
def okCompName (n : Str) : Prop := n ≠ [] ∧ n ≠ ['.'] ∧ n ≠ ['.', '.'] ∧ '/' ∉ n

/-- Well-formedness of one parsed component. -/
def wfComp : PComp → Prop
  | PComp.normal n => okCompName n
  | _ => True

/-- Components allowed after the first position. -/
def wfTail : PComp → Prop
  | PComp.rootDir => False
  | PComp.curDir => False
  | _ => True

/-- The shape every `parseComponents` output has: well-formed names, and the
root / current-directory markers only in front. -/
def WFComps (cs : List PComp) : Prop :=
  (∀ c ∈ cs, wfComp c) ∧ ∀ c ∈ cs.tail, wfTail c

/-! ## Canonical relative components and cleanliness predicates -/

/-- The nonempty pieces of a slash-separated string: on dot-free strings this
is the canonical component list the operating system resolves. -/
def relComps (s : Str) : List Str := (splitSlash s).filter fun c => decide (¬c = [])

/-- No piece of the string is `"."` or `".."`. -/
def dotFreeB (s : Str) : Bool :=
  (splitSlash s).all fun c => decide (¬c = ['.']) && decide (¬c = ['.', '.'])

/-- The name-joining step of the archive walk (`format!("{}/{}", ..)` unless
the base already ends in a separator). -/
def nameJoin (zb n : Str) : Str := if endsSlash zb then zb ++ n else zb ++ '/' :: n

/-- An archive entry name that stays inside the staging folder when joined
under it: nonempty, relative, dot-free. -/
def RelSafe (s : Str) : Prop := s ≠ [] ∧ s.head? ≠ some '/' ∧ dotFreeB s = true

/-- A clean absolute path string: absolute, dot-free, no trailing separator,
at least one component. -/
def CleanSrc (s : Str) : Prop :=
  s.head? = some '/' ∧ dotFreeB s = true ∧ endsSlash s = false ∧ relComps s ≠ []

/-- The canonical component path of the staging folder (the sibling of the
archive file named after the archive's stem). -/
def Scomps (cfg : Config) : List Str :=
  (relComps cfg.zip_path).dropLast ++ [(rustFileStem cfg.zip_path).getD []]

/-- The kind of a node: regular file with its bytes, directory, or other. -/
inductive NodeKind where
  | fileK (b : Bytes)
  | dirK
  | otherK
deriving DecidableEq, Repr

/-- The kind of one node. -/
def kindOf : FsTree → NodeKind
  | FsTree.file b => NodeKind.fileK b
  | FsTree.dir _ => NodeKind.dirK
  | FsTree.other => NodeKind.otherK

/-- The kind of the node at a canonical path. -/
def kindAt (fs : FsTree) (p : List Str) : Option NodeKind := (lookupNode fs p).map kindOf

/-- Is the name unused among these children? -/
def nameFresh (n : Str) : List (Str × FsTree) → Bool
  | [] => true
  | (m, _) :: rest => if m = n then false else nameFresh n rest

instance okCompName.decidable (n : Str) : Decidable (okCompName n) := by
  unfold okCompName; infer_instance

/-- Well-formed directory children: component-safe pairwise-distinct names and
recursively well-formed subtrees (every real filesystem satisfies this). -/
def wfChildren : List (Str × FsTree) → Bool
  | [] => true
  | (n, FsTree.dir cs) :: rest =>
    decide (okCompName n) && wfChildren cs && nameFresh n rest && wfChildren rest
  | (n, _) :: rest => decide (okCompName n) && nameFresh n rest && wfChildren rest

/-- Well-formedness of a filesystem tree. -/
def wfTree : FsTree → Bool
  | FsTree.dir cs => wfChildren cs
  | _ => true

/-- Is the path at or below one of the given roots? -/
def underAny (srcs : List (List Str)) (p : List Str) : Prop := ∃ u ∈ srcs, u <+: p

/-- The source-preservation invariant: every node of the initial tree lying
below one of the roots keeps its kind (hence every file keeps its bytes). -/
def Inv (fs₀ : FsTree) (srcs : List (List Str)) (fs : FsTree) : Prop :=
  ∀ p k, underAny srcs p → kindAt fs₀ p = some k → kindAt fs p = some k

/-- A write is safe for the roots: writing these bytes at this path cannot
change the bytes of an initial file below a root. -/
def SafeWrite (fs₀ : FsTree) (srcs : List (List Str)) (q : List Str) (c : Bytes) : Prop :=
  underAny srcs q → ∀ b₀, kindAt fs₀ q = some (NodeKind.fileK b₀) → b₀ = c

/-- Incomparable with every root: lookups at such paths are untouched by the
syncer, whose operations all target a root's chain or subtree. -/
def SInc (srcs : List (List Str)) (p : List Str) : Prop :=
  ∀ u ∈ srcs, ¬(u <+: p) ∧ ¬(p <+: u)

/-- The archive listing produced by a successful build (empty otherwise). -/
def builtArchive (env : Env) (fs₀ : FsTree) (cfg : Config) : List ZipEntry :=
  match create_zip env fs₀ cfg with
  | CreateResult.ok _ _ archive => archive
  | _ => []

/-- A clean task target: relative and dot-free. -/
def CleanTgt (s : Str) : Prop := s.head? ≠ some '/' ∧ dotFreeB s = true

/-- The output-folder string the extractor derives from the archive path
(the archive's parent joined with its stem). -/
def outFStr (zp : Str) : Str :=
  rustJoin ((rustParent zp).getD ['.']) ((rustFileStem zp).getD [])

/-- One step of the extraction loop's fold (named for the lemmas below). -/
def exStep (outF : Str) (acc : Except FsTree FsTree) (e : ZipEntry) : Except FsTree FsTree :=
  match acc with
  | Except.error f => Except.error f
  | Except.ok f =>
    match extractEntry outF f e with
    | none => Except.error f
    | some f' => Except.ok f'

/-- The archive base name chosen by `add_directory` for a directory task. -/
def tdnOf (t : CopyTask) : Str :=
  if t.target = [] then (rustFileName t.source).getD t.source else t.target

/-- The entries the honest builder writes for one task (the concatenation of
these lists over the task list is the archive listing). -/
def taskEntries (fs : FsTree) (t : CopyTask) : List ZipEntry :=
  match statNode fs t.source with
  | some (FsTree.file _) =>
    (add_file_to_zip honestEnv fs t.source
      (get_target_file_path ((rustFileName t.source).getD []) t)).1
  | some (FsTree.dir _) => (add_directory honestEnv fs t.source t.target).1
  | _ => []

instance CleanSrc.decidable (s : Str) : Decidable (CleanSrc s) := by
  unfold CleanSrc
  infer_instance

instance CleanTgt.decidable (s : Str) : Decidable (CleanTgt s) := by
  unfold CleanTgt
  infer_instance

/-- Round-trip counterexample filesystem: two distinct one-byte files and a
directory to hold the archive. -/
def c1fs : FsTree :=
  FsTree.dir [(['a'], FsTree.file [1]), (['b'], FsTree.file [2]),
              (['t'], FsTree.dir [])]

/-- Round-trip counterexample configuration: two file tasks whose archive
paths collide on `s.txt`. -/
def c1cfg : Config :=
  { zip_path := ['/', 't', '/', 'z', '.', 'z', 'i', 'p'], direction := [],
    confirm_new := [], confirm_overwrite := [], confirm_delete := [],
    copy_tasks := [⟨['/', 'a'], [], ['s', '.', 't', 'x', 't']⟩,
                   ⟨['/', 'b'], [], ['s', '.', 't', 'x', 't']⟩] }

/-- Round-trip witness filesystem: two distinct one-byte files and a
directory to hold the archive. -/
def c1wfs : FsTree :=
  FsTree.dir [(['a'], FsTree.file [1]), (['b'], FsTree.file [2]),
              (['t'], FsTree.dir [])]

/-- Round-trip witness configuration: two clean file tasks mapped to distinct
archive paths. -/
def c1wcfg : Config :=
  { zip_path := ['/', 't', '/', 'z', '.', 'z', 'i', 'p'], direction := [],
    confirm_new := [], confirm_overwrite := [], confirm_delete := [],
    copy_tasks := [⟨['/', 'a'], [], ['x', '.', 't', 'x', 't']⟩,
                   ⟨['/', 'b'], [], ['y', '.', 't', 'x', 't']⟩] }

/-! ## Lemmas: splitting and joining on a separator -/

theorem splitOnChar_ne_nil (sep : Char) (s : Str) : splitOnChar sep s ≠ [] := by
  induction s with
  | nil => simp [splitOnChar]
  | cons c rest ih =>
    simp only [splitOnChar]
    split
    · simp
    · cases h : splitOnChar sep rest with
      | nil => simp
      | cons h t => simp

theorem not_mem_of_mem_splitOnChar (sep : Char) (s : Str) :
    ∀ piece ∈ splitOnChar sep s, sep ∉ piece := by
  induction s with
  | nil =>
    intro piece hp
    simp [splitOnChar] at hp
    simp [hp]
  | cons c rest ih =>
    intro piece hp
    simp only [splitOnChar] at hp
    split at hp
    · rcases (List.mem_cons).1 hp with h | h
      · simp [h]
      · exact ih piece h
    · rename_i hcs
      cases hsp : splitOnChar sep rest with
      | nil => exact absurd hsp (splitOnChar_ne_nil sep rest)
      | cons h t =>
        rw [hsp] at hp
        rcases (List.mem_cons).1 hp with h1 | h1
        · subst h1
          intro hmem
          rcases (List.mem_cons).1 hmem with h2 | h2
          · exact hcs h2.symm
          · exact ih h (by simp [hsp]) h2
        · exact ih piece (by simp [hsp, h1])

theorem splitOnChar_of_not_mem (sep : Char) (s : Str) (h : sep ∉ s) :
    splitOnChar sep s = [s] := by
  induction s with
  | nil => simp [splitOnChar]
  | cons c rest ih =>
    simp only [splitOnChar]
    have hc : ¬c = sep := by
      intro hc
      exact h (by simp [hc])
    rw [if_neg hc, ih (fun hm => h (List.mem_cons_of_mem _ hm))]

theorem splitOnChar_append_sep (sep : Char) (x r : Str) (h : sep ∉ x) :
    splitOnChar sep (x ++ sep :: r) = x :: splitOnChar sep r := by
  induction x with
  | nil => simp [splitOnChar]
  | cons c rest ih =>
    have hc : ¬c = sep := by
      intro hc
      exact h (by simp [hc])
    have hrest : sep ∉ rest := fun hm => h (List.mem_cons_of_mem _ hm)
    simp only [List.cons_append, splitOnChar, if_neg hc, List.append_eq]
    rw [ih hrest]

theorem splitOnChar_joinWithChar (sep : Char) (l : List Str) (hne : l ≠ [])
    (hfree : ∀ piece ∈ l, sep ∉ piece) :
    splitOnChar sep (joinWithChar sep l) = l := by
  induction l with
  | nil => exact absurd rfl hne
  | cons x xs ih =>
    cases xs with
    | nil =>
      simp only [joinWithChar]
      exact splitOnChar_of_not_mem sep x (hfree x (by simp))
    | cons y t =>
      simp only [joinWithChar]
      rw [splitOnChar_append_sep sep x _ (hfree x (by simp))]
      rw [ih (by simp) (fun p hp => hfree p (List.mem_cons_of_mem _ hp))]

theorem joinWithChar_head (sep : Char) (x : Str) (xs : List Str) (hx : x ≠ []) :
    (joinWithChar sep (x :: xs)).head? = x.head? := by
  cases xs with
  | nil => rfl
  | cons y t =>
    show (x ++ sep :: joinWithChar sep (y :: t)).head? = x.head?
    cases x with
    | nil => exact absurd rfl hx
    | cons a b => rfl

theorem joinSlash_ne_dotforms (x : Str) (xs : List Str) (hx : x ≠ [])
    (hxd : x ≠ ['.']) (hslash : '/' ∉ x) :
    joinSlash (x :: xs) ≠ ['.'] ∧ (joinSlash (x :: xs)).take 2 ≠ ['.', '/'] := by
  obtain ⟨c1, r1, rfl⟩ : ∃ c r, x = c :: r := by
    cases x with
    | nil => exact absurd rfl hx
    | cons a b => exact ⟨a, b, rfl⟩
  have hc1 : c1 ≠ '/' := fun h => hslash (by simp [h])
  cases r1 with
  | nil =>
    have hcd : c1 ≠ '.' := fun h => hxd (by simp [h])
    cases xs with
    | nil =>
      constructor
      · simpa [joinSlash, joinWithChar] using hcd
      · simp only [joinSlash, joinWithChar]
        intro h
        exact absurd (congrArg List.length h) (by simp)
    | cons y t =>
      constructor
      · simp [joinSlash, joinWithChar]
      · simp only [joinSlash, joinWithChar, List.singleton_append, List.take]
        intro h
        rw [List.cons.injEq] at h
        exact hcd h.1
  | cons c2 r2 =>
    have hc2 : c2 ≠ '/' := fun h => hslash (by simp [h])
    cases xs with
    | nil =>
      constructor
      · simp only [joinSlash, joinWithChar]
        intro h
        exact absurd (congrArg List.length h) (by simp)
      · simp only [joinSlash, joinWithChar, List.take]
        intro h
        rw [List.cons.injEq, List.cons.injEq] at h
        exact hc2 h.2.1
    | cons y t =>
      constructor
      · simp only [joinSlash, joinWithChar, List.cons_append]
        intro h
        exact absurd (congrArg List.length h) (by simp)
      · simp only [joinSlash, joinWithChar, List.cons_append, List.take]
        intro h
        rw [List.cons.injEq, List.cons.injEq] at h
        exact hc2 h.2.1

/-! ## Lemmas: the component parser and renderer -/

theorem parse_of_root (s : Str) (hroot : s.head? = some '/') :
    parseComponents s =
      PComp.rootDir :: ((splitSlash s).filter keepComp).map pieceComp := by
  unfold parseComponents
  simp [hroot]

theorem parse_of_cur (s : Str) (hroot : ¬s.head? = some '/')
    (h : s = ['.'] ∨ s.take 2 = ['.', '/']) :
    parseComponents s =
      PComp.curDir :: ((splitSlash s).filter keepComp).map pieceComp := by
  unfold parseComponents
  rcases h with h | h <;> simp [hroot, h]

theorem parse_of_plain (s : Str) (hroot : ¬s.head? = some '/')
    (hdot : s ≠ ['.']) (htake : s.take 2 ≠ ['.', '/']) :
    parseComponents s = ((splitSlash s).filter keepComp).map pieceComp := by
  unfold parseComponents
  simp [hroot, hdot, htake]

theorem mapped_wf (s : Str) :
    ∀ c ∈ ((splitSlash s).filter keepComp).map pieceComp, wfComp c ∧ wfTail c := by
  intro c hc
  rcases List.mem_map.1 hc with ⟨p, hp, rfl⟩
  have hmem := (List.mem_filter.1 hp).1
  have hkeep := (List.mem_filter.1 hp).2
  have hfree : '/' ∉ p := not_mem_of_mem_splitOnChar '/' s p hmem
  have hno : ¬(p = [] ∨ p = ['.']) := by simpa [keepComp] using hkeep
  push_neg at hno
  unfold pieceComp
  split
  · exact ⟨trivial, trivial⟩
  · rename_i hdd
    exact ⟨⟨hno.1, hno.2, hdd, hfree⟩, trivial⟩

theorem parse_wf (s : Str) : WFComps (parseComponents s) := by
  by_cases hroot : s.head? = some '/'
  · rw [parse_of_root s hroot]
    constructor
    · intro c hc
      rcases (List.mem_cons).1 hc with h | h
      · subst h
        trivial
      · exact (mapped_wf s c h).1
    · intro c hc
      exact (mapped_wf s c hc).2
  · by_cases hcur : s = ['.'] ∨ s.take 2 = ['.', '/']
    · rw [parse_of_cur s hroot hcur]
      constructor
      · intro c hc
        rcases (List.mem_cons).1 hc with h | h
        · subst h
          trivial
        · exact (mapped_wf s c h).1
      · intro c hc
        exact (mapped_wf s c hc).2
    · push_neg at hcur
      rw [parse_of_plain s hroot hcur.1 hcur.2]
      constructor
      · intro c hc
        exact (mapped_wf s c hc).1
      · intro c hc
        exact (mapped_wf s c (List.mem_of_mem_tail hc)).2

theorem compStr_fact (c : PComp) (h1 : wfComp c) (h2 : wfTail c) :
    compStr c ≠ [] ∧ compStr c ≠ ['.'] ∧ '/' ∉ compStr c ∧ pieceComp (compStr c) = c := by
  cases c with
  | rootDir => cases h2
  | curDir => cases h2
  | parentDir =>
    refine ⟨by decide, by decide, by decide, by decide⟩
  | normal n =>
    have hok : okCompName n := h1
    refine ⟨hok.1, hok.2.1, hok.2.2.2, ?_⟩
    simp [pieceComp, compStr, hok.2.2.1]

theorem split_join_items (items : List PComp) (hne : items ≠ [])
    (h1 : ∀ c ∈ items, wfComp c) (h2 : ∀ c ∈ items, wfTail c) :
    splitSlash (joinSlash (items.map compStr)) = items.map compStr := by
  apply splitOnChar_joinWithChar
  · simpa using hne
  · intro p hp
    rcases List.mem_map.1 hp with ⟨c, hc, rfl⟩
    exact (compStr_fact c (h1 c hc) (h2 c hc)).2.2.1

theorem filter_map_items (items : List PComp)
    (h1 : ∀ c ∈ items, wfComp c) (h2 : ∀ c ∈ items, wfTail c) :
    ((items.map compStr).filter keepComp).map pieceComp = items := by
  induction items with
  | nil => rfl
  | cons c t ih =>
    have hc := compStr_fact c (h1 c (by simp)) (h2 c (by simp))
    have hkeep : keepComp (compStr c) = true := by
      simp [keepComp, hc.1, hc.2.1]
    rw [List.map_cons, List.filter_cons_of_pos hkeep, List.map_cons, hc.2.2.2]
    rw [ih (fun x hx => h1 x (by simp [hx])) (fun x hx => h2 x (by simp [hx]))]

theorem parse_render (cs : List PComp) (h : WFComps cs) :
    parseComponents (renderComponents cs) = cs := by
  obtain ⟨hall, htail⟩ := h
  cases cs with
  | nil => decide
  | cons c t =>
    have ht1 : ∀ x ∈ t, wfComp x := fun x hx => hall x (by simp [hx])
    have ht2 : ∀ x ∈ t, wfTail x := fun x hx => htail x (by simpa using hx)
    cases c with
    | rootDir =>
      show parseComponents ('/' :: joinSlash (t.map compStr)) = PComp.rootDir :: t
      cases t with
      | nil => decide
      | cons i t' =>
        rw [parse_of_root _ (by simp)]
        congr 1
        have hsplit : splitSlash ('/' :: joinSlash ((i :: t').map compStr)) =
            [] :: splitSlash (joinSlash ((i :: t').map compStr)) := by
          simp [splitSlash, splitOnChar]
        rw [hsplit, split_join_items (i :: t') (by simp) ht1 ht2]
        rw [List.filter_cons_of_neg (by simp [keepComp])]
        exact filter_map_items (i :: t') ht1 ht2
    | curDir =>
      show parseComponents (joinSlash (['.'] :: t.map compStr)) = PComp.curDir :: t
      cases t with
      | nil => decide
      | cons i t' =>
        have hpieces : ∀ p ∈ (i :: t').map compStr, '/' ∉ p := by
          intro p hp
          rcases List.mem_map.1 hp with ⟨x, hx, rfl⟩
          exact (compStr_fact x (ht1 x hx) (ht2 x hx)).2.2.1
        have hjoin : joinSlash (['.'] :: (i :: t').map compStr) =
            ['.'] ++ '/' :: joinSlash ((i :: t').map compStr) := by
          simp [joinSlash, joinWithChar]
        rw [hjoin]
        rw [parse_of_cur _ (by simp) (Or.inr (by simp))]
        congr 1
        have hsplit : splitSlash (['.'] ++ '/' :: joinSlash ((i :: t').map compStr)) =
            ['.'] :: splitSlash (joinSlash ((i :: t').map compStr)) :=
          splitOnChar_append_sep '/' ['.'] _ (by decide)
        rw [hsplit, split_join_items (i :: t') (by simp) ht1 ht2]
        rw [List.filter_cons_of_neg (by simp [keepComp])]
        exact filter_map_items (i :: t') ht1 ht2
    | parentDir =>
      show parseComponents (joinSlash (compStr PComp.parentDir :: t.map compStr)) =
        PComp.parentDir :: t
      have hfact := compStr_fact PComp.parentDir trivial trivial
      have hd := joinSlash_ne_dotforms (compStr PComp.parentDir) (t.map compStr)
        hfact.1 hfact.2.1 hfact.2.2.1
      have hhead : (joinSlash (compStr PComp.parentDir :: t.map compStr)).head? ≠
          some '/' := by
        rw [show joinSlash (compStr PComp.parentDir :: t.map compStr) =
          joinWithChar '/' (compStr PComp.parentDir :: t.map compStr) from rfl]
        rw [joinWithChar_head '/' _ _ hfact.1]
        decide
      rw [parse_of_plain _ hhead hd.1 hd.2]
      have hsplit : splitSlash (joinSlash ((PComp.parentDir :: t).map compStr)) =
          (PComp.parentDir :: t).map compStr :=
        split_join_items _ (by simp)
          (fun x hx => by
            rcases (List.mem_cons).1 hx with h | h
            · subst h
              trivial
            · exact ht1 x h)
          (fun x hx => by
            rcases (List.mem_cons).1 hx with h | h
            · subst h
              trivial
            · exact ht2 x h)
      rw [show joinSlash (compStr PComp.parentDir :: t.map compStr) =
        joinSlash ((PComp.parentDir :: t).map compStr) from rfl]
      rw [hsplit]
      exact filter_map_items (PComp.parentDir :: t)
        (fun x hx => by
          rcases (List.mem_cons).1 hx with h | h
          · subst h
            trivial
          · exact ht1 x h)
        (fun x hx => by
          rcases (List.mem_cons).1 hx with h | h
          · subst h
            trivial
          · exact ht2 x h)
    | normal n =>
      have hokn : okCompName n := hall (PComp.normal n) (by simp)
      show parseComponents (joinSlash (compStr (PComp.normal n) :: t.map compStr)) =
        PComp.normal n :: t
      have hfact := compStr_fact (PComp.normal n) hokn trivial
      have hd := joinSlash_ne_dotforms (compStr (PComp.normal n)) (t.map compStr)
        hfact.1 hfact.2.1 hfact.2.2.1
      have hhead : (joinSlash (compStr (PComp.normal n) :: t.map compStr)).head? ≠
          some '/' := by
        rw [show joinSlash (compStr (PComp.normal n) :: t.map compStr) =
          joinWithChar '/' (compStr (PComp.normal n) :: t.map compStr) from rfl]
        rw [joinWithChar_head '/' _ _ hfact.1]
        intro hcontra
        have : '/' ∈ compStr (PComp.normal n) := by
          cases hn : compStr (PComp.normal n) with
          | nil => simp [hn] at hcontra
          | cons a b =>
            rw [hn] at hcontra
            simp at hcontra
            simp [hn, hcontra]
        exact hfact.2.2.1 this
      rw [parse_of_plain _ hhead hd.1 hd.2]
      have hw1 : ∀ x ∈ PComp.normal n :: t, wfComp x := by
        intro x hx
        rcases (List.mem_cons).1 hx with h | h
        · subst h
          exact hokn
        · exact ht1 x h
      have hw2 : ∀ x ∈ PComp.normal n :: t, wfTail x := by
        intro x hx
        rcases (List.mem_cons).1 hx with h | h
        · subst h
          trivial
        · exact ht2 x h
      have hsplit : splitSlash (joinSlash ((PComp.normal n :: t).map compStr)) =
          (PComp.normal n :: t).map compStr :=
        split_join_items _ (by simp) hw1 hw2
      rw [show joinSlash (compStr (PComp.normal n) :: t.map compStr) =
        joinSlash ((PComp.normal n :: t).map compStr) from rfl]
      rw [hsplit]
      exact filter_map_items (PComp.normal n :: t) hw1 hw2

/-! ## Lemmas: `Path::parent` chains -/

theorem tail_dropLast_comm (l : List PComp) : l.dropLast.tail = l.tail.dropLast := by
  cases l with
  | nil => rfl
  | cons a t =>
    cases t with
    | nil => rfl
    | cons b t' => rfl

theorem WFComps_dropLast (cs : List PComp) (h : WFComps cs) : WFComps cs.dropLast := by
  obtain ⟨h1, h2⟩ := h
  refine ⟨fun c hc => h1 c (List.mem_of_mem_dropLast hc), fun c hc => ?_⟩
  rw [tail_dropLast_comm] at hc
  exact h2 c (List.mem_of_mem_dropLast hc)

theorem rustParent_some (s q : Str) (h : rustParent s = some q) :
    parseComponents s ≠ [] ∧ q = renderComponents (parseComponents s).dropLast := by
  unfold rustParent at h
  split at h
  · cases h
  · split at h
    · cases h
    · rename_i h1 h2
      cases h
      exact ⟨h1, rfl⟩

theorem rustParent_parse (s q : Str) (h : rustParent s = some q) :
    parseComponents q = (parseComponents s).dropLast := by
  obtain ⟨hne, hq⟩ := rustParent_some s q h
  rw [hq]
  exact parse_render _ (WFComps_dropLast _ (parse_wf s))

theorem reconFuel_parent (s q : Str) (h : rustParent s = some q) :
    reconFuel s = reconFuel q + 1 := by
  obtain ⟨hne, _⟩ := rustParent_some s q h
  have hq := rustParent_parse s q h
  unfold reconFuel
  rw [hq, List.length_dropLast]
  have : 0 < (parseComponents s).length := List.length_pos.2 hne
  omega

theorem ancChain_step (p q : Str) (hpar : rustParent p = some q) (hq : q ≠ []) :
    ancChain p = q :: ancChain q := by
  unfold ancChain
  rw [reconFuel_parent p q hpar]
  rw [show ancChainF (reconFuel q + 1) p =
    (match rustParent p with
     | none => []
     | some r => if r = [] then [] else r :: ancChainF (reconFuel q) r) from rfl]
  rw [hpar]
  simp [hq]

theorem ancChain_stop (p : Str)
    (h : rustParent p = none ∨ rustParent p = some []) : ancChain p = [] := by
  unfold ancChain
  cases hf : reconFuel p with
  | zero => rfl
  | succ n =>
    show ancChainF (n + 1) p = []
    unfold ancChainF
    rcases h with h | h
    · rw [h]
    · rw [h]
      simp

theorem collectAncestors_spec (fuel : Nat) :
    ∀ (current : Str) (acc₀ added : List Str),
      fuel = reconFuel current →
      ancClosed acc₀ →
      (∀ x ∈ added, reconFuel current ≤ reconFuel x) →
      (∀ x ∈ added, ∀ a ∈ ancChain x, a ∈ acc₀ ++ added ∨ a ∈ ancChain current) →
      (∀ y ∈ acc₀ ++ added, y ∈ collectAncestors fuel (acc₀ ++ added) current) ∧
      (∀ a ∈ ancChain current, a ∈ collectAncestors fuel (acc₀ ++ added) current) ∧
      ancClosed (collectAncestors fuel (acc₀ ++ added) current) := by
  induction fuel with
  | zero =>
    intro current acc₀ added hfuel hc hlen hK
    have hchain : ancChain current = [] := by
      unfold ancChain
      rw [← hfuel]
      rfl
    refine ⟨fun y hy => by simpa [collectAncestors] using hy,
      fun a ha => by simp [hchain] at ha, ?_⟩
    intro x hx a ha
    simp only [collectAncestors]
    rcases List.mem_append.1 hx with h | h
    · exact List.mem_append.2 (Or.inl (hc x h a ha))
    · rcases hK x h a ha with h2 | h2
      · exact h2
      · rw [hchain] at h2
        cases h2
  | succ n ih =>
    intro current acc₀ added hfuel hc hlen hK
    cases hpar : rustParent current with
    | none =>
      have hres : collectAncestors (n + 1) (acc₀ ++ added) current = acc₀ ++ added := by
        unfold collectAncestors
        rw [hpar]
      have hchain : ancChain current = [] := ancChain_stop current (Or.inl hpar)
      rw [hres]
      refine ⟨fun y hy => hy, fun a ha => by simp [hchain] at ha, ?_⟩
      intro x hx a ha
      rcases List.mem_append.1 hx with h | h
      · exact List.mem_append.2 (Or.inl (hc x h a ha))
      · rcases hK x h a ha with h2 | h2
        · exact h2
        · rw [hchain] at h2
          cases h2
    | some q =>
      have hstep : reconFuel q = n := by
        have := reconFuel_parent current q hpar
        omega
      have hmatch : collectAncestors (n + 1) (acc₀ ++ added) current =
          (if q = [] ∨ q ∈ acc₀ ++ added then acc₀ ++ added
           else collectAncestors n ((acc₀ ++ added) ++ [q]) q) := by
        rw [show collectAncestors (n + 1) (acc₀ ++ added) current =
          (match rustParent current with
           | none => acc₀ ++ added
           | some parent =>
             if parent = [] ∨ parent ∈ acc₀ ++ added then acc₀ ++ added
             else collectAncestors n ((acc₀ ++ added) ++ [parent]) parent) from rfl]
        rw [hpar]
      by_cases hq0 : q = []
      · subst hq0
        have hres : collectAncestors (n + 1) (acc₀ ++ added) current = acc₀ ++ added := by
          rw [hmatch]
          simp
        have hchain : ancChain current = [] := ancChain_stop current (Or.inr hpar)
        rw [hres]
        refine ⟨fun y hy => hy, fun a ha => by simp [hchain] at ha, ?_⟩
        intro x hx a ha
        rcases List.mem_append.1 hx with h | h
        · exact List.mem_append.2 (Or.inl (hc x h a ha))
        · rcases hK x h a ha with h2 | h2
          · exact h2
          · rw [hchain] at h2
            cases h2
      · have hchain : ancChain current = q :: ancChain q := ancChain_step current q hpar hq0
        by_cases hqin : q ∈ acc₀ ++ added
        · have hres : collectAncestors (n + 1) (acc₀ ++ added) current = acc₀ ++ added := by
            rw [hmatch]
            rw [if_pos (Or.inr hqin)]
          have hq₀ : q ∈ acc₀ := by
            rcases List.mem_append.1 hqin with h | h
            · exact h
            · exact absurd (hlen q h) (by omega)
          have hqsub : ∀ a ∈ ancChain q, a ∈ acc₀ := fun a ha => hc q hq₀ a ha
          rw [hres]
          refine ⟨fun y hy => hy, ?_, ?_⟩
          · intro a ha
            rw [hchain] at ha
            rcases (List.mem_cons).1 ha with h | h
            · subst h
              exact hqin
            · exact List.mem_append.2 (Or.inl (hqsub a h))
          · intro x hx a ha
            rcases List.mem_append.1 hx with h | h
            · exact List.mem_append.2 (Or.inl (hc x h a ha))
            · rcases hK x h a ha with h2 | h2
              · exact h2
              · rw [hchain] at h2
                rcases (List.mem_cons).1 h2 with h3 | h3
                · subst h3
                  exact hqin
                · exact List.mem_append.2 (Or.inl (hqsub a h3))
        · have hres : collectAncestors (n + 1) (acc₀ ++ added) current =
              collectAncestors n ((acc₀ ++ added) ++ [q]) q := by
            rw [hmatch]
            rw [if_neg (by
              push_neg
              exact ⟨hq0, hqin⟩)]
          rw [hres]
          have happ : (acc₀ ++ added) ++ [q] = acc₀ ++ (added ++ [q]) := by
            rw [List.append_assoc]
          rw [happ]
          have hlen' : ∀ x ∈ added ++ [q], reconFuel q ≤ reconFuel x := by
            intro x hx
            rcases List.mem_append.1 hx with h | h
            · have := hlen x h
              omega
            · rw [List.mem_singleton.1 h]
          have hK' : ∀ x ∈ added ++ [q], ∀ a ∈ ancChain x,
              a ∈ acc₀ ++ (added ++ [q]) ∨ a ∈ ancChain q := by
            intro x hx a ha
            rcases List.mem_append.1 hx with h | h
            · rcases hK x h a ha with h2 | h2
              · left
                rcases List.mem_append.1 h2 with h3 | h3
                · exact List.mem_append.2 (Or.inl h3)
                · exact List.mem_append.2 (Or.inr (List.mem_append.2 (Or.inl h3)))
              · rw [hchain] at h2
                rcases (List.mem_cons).1 h2 with h3 | h3
                · subst h3
                  left
                  exact List.mem_append.2 (Or.inr (List.mem_append.2 (Or.inr (by simp))))
                · right
                  exact h3
            · have hxq := List.mem_singleton.1 h
              subst hxq
              right
              exact ha
          obtain ⟨r1, r2, r3⟩ := ih q acc₀ (added ++ [q]) hstep.symm hc hlen' hK'
          refine ⟨?_, ?_, r3⟩
          · intro y hy
            apply r1
            rcases List.mem_append.1 hy with h | h
            · exact List.mem_append.2 (Or.inl h)
            · exact List.mem_append.2 (Or.inr (List.mem_append.2 (Or.inl h)))
          · intro a ha
            rw [hchain] at ha
            rcases (List.mem_cons).1 ha with h | h
            · subst h
              apply r1
              exact List.mem_append.2 (Or.inr (List.mem_append.2 (Or.inr (by simp))))
            · exact r2 a h

theorem recon_fold_spec (files : List Str) :
    ∀ acc, ancClosed acc →
      (∀ y ∈ acc, y ∈ files.foldl (fun a p => collectAncestors (reconFuel p) a p) acc) ∧
      ancClosed (files.foldl (fun a p => collectAncestors (reconFuel p) a p) acc) ∧
      (∀ p ∈ files, ∀ a ∈ ancChain p,
        a ∈ files.foldl (fun a p => collectAncestors (reconFuel p) a p) acc) := by
  induction files with
  | nil => exact fun acc hacc => ⟨fun y hy => hy, hacc, by simp⟩
  | cons p rest ih =>
    intro acc hacc
    have hspec := collectAncestors_spec (reconFuel p) p acc [] rfl hacc
      (by simp) (by simp)
    simp only [List.append_nil] at hspec
    obtain ⟨s1, s2, s3⟩ := hspec
    obtain ⟨r1, r2, r3⟩ := ih (collectAncestors (reconFuel p) acc p) s3
    refine ⟨fun y hy => r1 y (s1 y hy), r2, ?_⟩
    intro x hx a ha
    rcases (List.mem_cons).1 hx with h | h
    · subst h
      exact r1 a (s2 a ha)
    · exact r3 x h a ha

/-! ## Lemmas: the missing map and the verifier loop -/

theorem mapGet_mapInsert (m : MissingMap) (k v : Str) :
    mapGet (mapInsert m k v) k = some v := by
  induction m with
  | nil => simp [mapInsert, mapGet, List.find?]
  | cons p rest ih =>
    unfold mapInsert
    by_cases h : p.1 = k
    · rw [if_pos h]
      simp [mapGet, List.find?]
    · rw [if_neg h]
      unfold mapGet at ih ⊢
      rw [show List.find? (fun q => decide (q.1 = k)) ((p.1, p.2) :: mapInsert rest k v) =
        List.find? (fun q => decide (q.1 = k)) (mapInsert rest k v) from by
          rw [List.find?_cons_of_neg]
          simp [h]]
      exact ih

theorem mapContains_mapInsert (m : MissingMap) (k v : Str) :
    mapContains (mapInsert m k v) k = true := by
  induction m with
  | nil => simp [mapInsert, mapContains]
  | cons p rest ih =>
    unfold mapInsert
    by_cases h : p.1 = k
    · rw [if_pos h]
      simp [mapContains]
    · rw [if_neg h]
      unfold mapContains at ih ⊢
      simp only [List.any_cons, Bool.or_eq_true]
      exact Or.inr (by simpa using ih)

theorem check_zip_cons (fs : FsTree) (missing : MissingMap) (zip_files : List Str)
    (a : CopyTask) (rest : List CopyTask) :
    check_zip fs missing zip_files (a :: rest) =
      (if check_missing missing a.source a.target then
        check_zip fs missing zip_files rest
      else if pathIsFile fs a.source then
        match check_if_file_in_zip zip_files a a.source with
        | none => CheckResult.panicked
        | some true => CheckResult.result false
        | some false => check_zip fs missing zip_files rest
      else if pathIsDir fs a.source then
        if check_if_directory_in_zip zip_files a a.source then CheckResult.result false
        else check_zip fs missing zip_files rest
      else CheckResult.result false) := rfl

/-! ## The claims -/

/-- C2: the forward file mapping `get_target_file_path` follows the spec's
table: an empty target maps to the bare filename; a target ending in a
separator gets the filename appended; a target without a file-extension
segment is treated as a directory (`target ++ "/" ++ filename`); any other
target is used verbatim (rename semantics). -/
theorem C2_forward_file_mapping (filename : Str) (task : CopyTask) :
    (task.target = [] → get_target_file_path filename task = filename) ∧
    (task.target ≠ [] → endsSlash task.target = true →
      get_target_file_path filename task = task.target ++ filename) ∧
    (task.target ≠ [] → endsSlash task.target = false →
      rustExtension task.target = none →
      get_target_file_path filename task = task.target ++ '/' :: filename) ∧
    (task.target ≠ [] → endsSlash task.target = false →
      (rustExtension task.target).isSome = true →
      get_target_file_path filename task = task.target) := by
  unfold get_target_file_path
  refine ⟨fun h => by rw [if_pos h], fun h1 h2 => ?_, fun h1 h2 h3 => ?_, fun h1 h2 h3 => ?_⟩
  · rw [if_neg h1, if_pos h2]
  · rw [if_neg h1, if_neg (by simp [h2]), if_pos (by simp [h3])]
  · rw [if_neg h1, if_neg (by simp [h2]), if_neg (by
      simp only [Option.isNone_iff_eq_none]
      intro hnone
      rw [hnone] at h3
      cases h3)]

/-- C2 witness: the four rows of the mapping table at concrete inputs. -/
theorem C2_forward_file_mapping_witness :
    get_target_file_path "f.txt".toList ⟨"/d/f.txt".toList, [], []⟩ = "f.txt".toList ∧
    get_target_file_path "f.txt".toList ⟨"/d/f.txt".toList, [], "a/".toList⟩ =
      "a/".toList ++ "f.txt".toList ∧
    get_target_file_path "f.txt".toList ⟨"/d/f.txt".toList, [], "a".toList⟩ =
      "a".toList ++ '/' :: "f.txt".toList ∧
    get_target_file_path "f.txt".toList ⟨"/d/f.txt".toList, [], "a.txt".toList⟩ =
      "a.txt".toList :=
  ⟨(C2_forward_file_mapping "f.txt".toList ⟨"/d/f.txt".toList, [], []⟩).1 rfl,
   (C2_forward_file_mapping "f.txt".toList ⟨"/d/f.txt".toList, [], "a/".toList⟩).2.1
     (by decide) (by decide),
   (C2_forward_file_mapping "f.txt".toList ⟨"/d/f.txt".toList, [], "a".toList⟩).2.2.1
     (by decide) (by decide) (by decide),
   (C2_forward_file_mapping "f.txt".toList ⟨"/d/f.txt".toList, [], "a.txt".toList⟩).2.2.2
     (by decide) (by decide) (by decide)⟩

/-- C3: the reconstruction step adds every proper ancestor directory of every
entry path to the present-set, and for an archive containing only the entry
`a/b/file.txt` the reconstructed set contains the ancestors `a/b` and `a` and
the verifier's presence test reports both `a/` and `a/b/` as present. -/
theorem C3_directory_reconstruction (zip_files : List Str) :
    (∀ p ∈ zip_files, ∀ a ∈ ancChain p,
      a ∈ add_reconstructed_dirs_to_file_list zip_files) ∧
    ("a/b".toList ∈ add_reconstructed_dirs_to_file_list ["a/b/file.txt".toList] ∧
     "a".toList ∈ add_reconstructed_dirs_to_file_list ["a/b/file.txt".toList] ∧
     dirExistsIn (add_reconstructed_dirs_to_file_list ["a/b/file.txt".toList])
       "a/".toList = true ∧
     dirExistsIn (add_reconstructed_dirs_to_file_list ["a/b/file.txt".toList])
       "a/b/".toList = true) := by
  constructor
  · intro p hp a ha
    unfold add_reconstructed_dirs_to_file_list
    refine List.mem_append.2 (Or.inr ?_)
    exact (recon_fold_spec zip_files [] (fun x hx => absurd hx (List.not_mem_nil x))).2.2
      p hp a ha
  · exact ⟨by decide, by decide, by decide, by decide⟩

/-- C3 witness: the ancestor `a` of the entry `a/b/file.txt` is in the
reconstructed set, by the universally quantified part of the claim. -/
theorem C3_directory_reconstruction_witness :
    "a".toList ∈ add_reconstructed_dirs_to_file_list ["a/b/file.txt".toList] :=
  (C3_directory_reconstruction ["a/b/file.txt".toList]).1
    "a/b/file.txt".toList (by decide) "a".toList (by decide)

/-- C4: a task whose source is recorded in the missing map is skipped by the
verifier: deleting it from the task list does not change the outcome of
`check_zip`, whatever the archive listing contains (in particular it never
makes `check_zip` return false). -/
theorem C4_missing_suppression (fs : FsTree) (missing : MissingMap)
    (zip_files : List Str) (pre post : List CopyTask) (task : CopyTask)
    (h : mapContains missing task.source = true) :
    check_zip fs missing zip_files (pre ++ task :: post) =
      check_zip fs missing zip_files (pre ++ post) := by
  induction pre with
  | nil =>
    rw [List.nil_append, List.nil_append, check_zip_cons]
    rw [if_pos (show check_missing missing task.source task.target = true from h)]
  | cons a pre ih =>
    rw [List.cons_append, List.cons_append, check_zip_cons, check_zip_cons, ih]

/-- C4 witness: a missing-marked task whose expected archive path is absent
from an empty listing still leaves the verdict unchanged. -/
theorem C4_missing_suppression_witness :
    check_zip (FsTree.dir []) [("/s".toList, "x.txt".toList)] []
        ([] ++ ⟨"/s".toList, [], "x.txt".toList⟩ :: []) =
      check_zip (FsTree.dir []) [("/s".toList, "x.txt".toList)] [] ([] ++ []) :=
  C4_missing_suppression (FsTree.dir []) [("/s".toList, "x.txt".toList)] [] [] []
    ⟨"/s".toList, [], "x.txt".toList⟩ (by decide)

/-- C6: the verifier's expected directory entry is the last component of the
source (trailing separator appended) when the target is empty, and the target
with a trailing separator ensured otherwise; and the directory is judged
present exactly when the present-set contains the entry verbatim or contains
some path extending it. -/
theorem C6_directory_presence (zip_files : List Str) (task : CopyTask) (path : Str) :
    (task.target = [] → ∀ n, rustFileName path = some n →
      expectedDirOf task path = n ++ ['/']) ∧
    (task.target ≠ [] →
      expectedDirOf task path =
        (if endsSlash task.target then task.target else task.target ++ ['/'])) ∧
    (check_if_directory_in_zip zip_files task path = false ↔
      expectedDirOf task path ∈ zip_files ∨
        ∃ p ∈ zip_files, expectedDirOf task path <+: p) := by
  refine ⟨fun h n hn => ?_, fun h => ?_, ?_⟩
  · unfold expectedDirOf
    rw [if_pos h, hn]
    rfl
  · unfold expectedDirOf
    rw [if_neg h]
  · unfold check_if_directory_in_zip dirExistsIn
    simp only [Bool.not_eq_false', Bool.or_eq_true, List.any_eq_true,
      List.isPrefixOf_iff_prefix]
    constructor
    · rintro (h | ⟨p, hp, hpre⟩)
      · exact Or.inl (by simpa using h)
      · exact Or.inr ⟨p, hp, hpre⟩
    · rintro (h | ⟨p, hp, hpre⟩)
      · exact Or.inl (by simpa using h)
      · exact Or.inr ⟨p, hp, hpre⟩

/-- C6 witness: a directory task with target `media/` against a listing
holding only `media/img.png` is judged present through the prefix rule. -/
theorem C6_directory_presence_witness :
    check_if_directory_in_zip ["media/img.png".toList]
        ⟨"/photos".toList, [], "media/".toList⟩ "/photos".toList = false ∧
    expectedDirOf ⟨"/photos".toList, [], "media/".toList⟩ "/photos".toList =
      "media/".toList :=
  ⟨(C6_directory_presence ["media/img.png".toList]
      ⟨"/photos".toList, [], "media/".toList⟩ "/photos".toList).2.2.2
      (Or.inr ⟨"media/img.png".toList, by decide, by decide⟩),
   (C6_directory_presence ["media/img.png".toList]
      ⟨"/photos".toList, [], "media/".toList⟩ "/photos".toList).2.1 (by decide)⟩

/-- C10: the missing-item map is keyed by the source string alone, later
insertions overwriting the stored target; consequently, once a task with a
given source fails, the verifier skips every task with that source,
whatever the archive listing contains. -/
theorem C10_missing_keyed_by_source (m : MissingMap) (t1 t2 : CopyTask)
    (e : TaskError) (hsrc : t1.source = t2.source) :
    mapGet (store_missing m t1 e) t2.source = some t1.target ∧
    check_missing (store_missing m t1 e) t2.source t2.target = true ∧
    ∀ fs zip_files rest,
      check_zip fs (store_missing m t1 e) zip_files (t2 :: rest) =
        check_zip fs (store_missing m t1 e) zip_files rest := by
  refine ⟨?_, ?_, ?_⟩
  · rw [← hsrc]
    exact mapGet_mapInsert m t1.source t1.target
  · unfold check_missing
    rw [← hsrc]
    exact mapContains_mapInsert m t1.source t1.target
  · intro fs zip_files rest
    rw [check_zip_cons]
    rw [if_pos (show check_missing (store_missing m t1 e) t2.source t2.target = true
      from by
        unfold check_missing
        rw [← hsrc]
        exact mapContains_mapInsert m t1.source t1.target)]

/-- C10 witness: two tasks sharing the source `/s`; after the first fails,
the verifier skips the second even against an empty listing. -/
theorem C10_missing_keyed_by_source_witness :
    mapGet (store_missing [] ⟨"/s".toList, [], "a.txt".toList⟩ TaskError.PathNotFound)
        "/s".toList = some "a.txt".toList ∧
    check_missing
        (store_missing [] ⟨"/s".toList, [], "a.txt".toList⟩ TaskError.PathNotFound)
        "/s".toList "b.txt".toList = true ∧
    ∀ fs zip_files rest,
      check_zip fs
          (store_missing [] ⟨"/s".toList, [], "a.txt".toList⟩ TaskError.PathNotFound)
          zip_files (⟨"/s".toList, [], "b.txt".toList⟩ :: rest) =
        check_zip fs
          (store_missing [] ⟨"/s".toList, [], "a.txt".toList⟩ TaskError.PathNotFound)
          zip_files rest :=
  C10_missing_keyed_by_source [] ⟨"/s".toList, [], "a.txt".toList⟩
    ⟨"/s".toList, [], "b.txt".toList⟩ TaskError.PathNotFound rfl

/-- C8 counterexample: `Config::clean` removes only one leading separator, so
a target `//x` still begins with a separator after cleaning. -/
theorem C8_counterexample :
    ¬ (∀ t ∈ (Config.clean ⟨[], [], [], [], [],
        [⟨"/s".toList, [], "//x".toList⟩]⟩).copy_tasks,
        ¬ t.target.head? = some '/') := by decide

/-- C8 amended: `Config::clean` strips one leading separator from each task's
target, so provided no configured target begins with a doubled separator,
no cleaned target begins with a separator. -/
theorem C8_target_normalization (cfg : Config)
    (h : ∀ t ∈ cfg.copy_tasks, t.target.take 2 ≠ ['/', '/']) :
    ∀ t ∈ (Config.clean cfg).copy_tasks, ¬ t.target.head? = some '/' := by
  intro t ht
  unfold Config.clean at ht
  rcases List.mem_map.1 ht with ⟨t0, ht0, rfl⟩
  by_cases hh : t0.target.head? = some '/'
  · rw [if_pos hh]
    cases htgt : t0.target with
    | nil => simp [htgt] at hh
    | cons c rest =>
      rw [htgt] at hh
      simp only [List.head?_cons, Option.some.injEq] at hh
      subst hh
      have h2 := h t0 ht0
      rw [htgt] at h2
      cases rest with
      | nil => simp
      | cons c2 r2 =>
        simp only [List.drop_one, List.tail_cons, List.head?_cons, Option.some.injEq]
        intro hc2
        subst hc2
        exact h2 (by simp [List.take])
  · rw [if_neg hh]
    exact hh

/-- C8 witness: a target `/x` is cleaned to `x`, which has no leading
separator. -/
theorem C8_target_normalization_witness :
    ¬ (⟨"/s".toList, [], "x".toList⟩ : CopyTask).target.head? = some '/' :=
  C8_target_normalization ⟨[], [], [], [], [], [⟨"/s".toList, [], "/x".toList⟩]⟩
    (by decide) ⟨"/s".toList, [], "x".toList⟩ (by decide)

/-- C9: for a single-file task whose mapped archive path has a non-empty
parent, the builder writes the explicit parent directory entry (trailing
separator) immediately before the file entry itself. -/
theorem C9_parent_dir_entry (env : Env) (fs : FsTree) (missing : MissingMap)
    (task : CopyTask) (b : Bytes) (filename par : Str)
    (hname : rustFileName task.source = some filename)
    (hpar : rustParent (get_target_file_path filename task) = some par)
    (hne : par ≠ [])
    (hread : env.readFails task.source = false)
    (hnode : statNode fs task.source = some (FsTree.file b)) :
    add_item_to_zip env fs missing task (FsTree.file b) =
      (missing,
       [⟨par ++ ['/'], true, []⟩, ⟨get_target_file_path filename task, false, b⟩],
       true) := by
  unfold add_item_to_zip add_file_to_zip
  rw [hname]
  simp only [hpar, hread, hnode, if_neg hne, Bool.false_eq_true, if_false, if_true,
    List.singleton_append]

/-- The name returned by `Path::file_name` is a well-formed component. -/
theorem rustFileName_ok (s n : Str) (h : rustFileName s = some n) : okCompName n := by
  unfold rustFileName at h
  cases hl : (parseComponents s).getLast? with
  | none =>
    rw [hl] at h
    cases h
  | some c =>
    rw [hl] at h
    cases c with
    | normal m =>
      have hmn : m = n := by simpa using h
      subst hmn
      exact (parse_wf s).1 (PComp.normal m) (List.mem_of_getLast?_eq_some hl)
    | rootDir => cases h
    | curDir => cases h
    | parentDir => cases h

/-- A well-formed component neither starts nor ends with a separator. -/
theorem okCompName_slash_free (n : Str) (h : okCompName n) :
    ¬n.head? = some '/' ∧ endsSlash n = false := by
  obtain ⟨hne, _, _, hfree⟩ := h
  constructor
  · intro hcontra
    cases n with
    | nil => cases hcontra
    | cons a b =>
      simp only [List.head?_cons, Option.some.injEq] at hcontra
      exact hfree (by simp [hcontra])
  · unfold endsSlash
    simp only [decide_eq_false_iff_not]
    intro hcontra
    exact hfree (List.mem_of_getLast?_eq_some hcontra)

/-- If `file_name` of a path is defined, so is its `parent`. -/
theorem rustParent_isSome_of_fileName (s n : Str) (h : rustFileName s = some n) :
    ∃ p, rustParent s = some p := by
  unfold rustFileName at h
  unfold rustParent
  cases hl : (parseComponents s).getLast? with
  | none =>
    rw [hl] at h
    cases h
  | some c =>
    rw [hl] at h
    have hne : parseComponents s ≠ [] := by
      intro hcontra
      rw [hcontra] at hl
      cases hl
    have hnroot : parseComponents s ≠ [PComp.rootDir] := by
      intro hcontra
      rw [hcontra] at hl
      cases c with
      | normal m => cases hl
      | rootDir => cases h
      | curDir => cases h
      | parentDir => cases h
    rw [if_neg hne, if_neg hnroot]
    exact ⟨_, rfl⟩

/-- `remove_last_path_component` always produces a path ending in a separator. -/
theorem remove_last_endsSlash (s p : Str) (h : remove_last_path_component s = some p) :
    endsSlash p = true := by
  replace h : Option.map (fun q => if endsSlash q = true then q else q ++ ['/'])
      (rustParent (if endsSlash s = true ∧ 1 < s.length then s.dropLast else s)) =
      some p := h
  rcases Option.map_eq_some'.1 h with ⟨q, hq, rfl⟩
  by_cases he : endsSlash q = true
  · rw [if_pos he]
    exact he
  · rw [if_neg he]
    unfold endsSlash
    simp

/-- `get_last_path_component` of a path without a trailing separator is the
plain `file_name`. -/
theorem get_last_of_not_endsSlash (s : Str) (h : endsSlash s = false) :
    get_last_path_component s = rustFileName s := by
  unfold get_last_path_component
  rw [if_neg (by simp [h])]
  show Option.map (fun n => if endsSlash s = true then n ++ ['/'] else n)
    (rustFileName s) = rustFileName s
  rw [h]
  cases rustFileName s <;> simp

/-- `get_last_path_component` of a longer path with a trailing separator:
the `file_name` of the shortened path, with the separator restored. -/
theorem get_last_of_endsSlash (s : Str) (h : endsSlash s = true) (hlen : 1 < s.length) :
    get_last_path_component s = (rustFileName s.dropLast).map (fun n => n ++ ['/']) := by
  unfold get_last_path_component
  rw [if_pos ⟨h, hlen⟩]
  show Option.map (fun n => if endsSlash s = true then n ++ ['/'] else n)
    (rustFileName s.dropLast) = _
  rw [h]
  cases rustFileName s.dropLast <;> simp

theorem head?_append_left (n t : Str) (h : n ≠ []) : (n ++ t).head? = n.head? := by
  cases n with
  | nil => exact absurd rfl h
  | cons a b => rfl

/-- C7 counterexample: for the empty-target task with source `/aa/bb/cc`
(no trailing separator) the construction keeps the local extract path
`/aa/bb/cc`; it does not strip the trailing component as the claim states. -/
theorem C7_counterexample :
    (create_sync_task ⟨"/aa/bb/cc".toList, [], []⟩).extract_path =
      "/aa/bb/cc".toList ∧
    (remove_last_path_component "/aa/bb/cc".toList).getD [] = "/aa/bb/".toList ∧
    (create_sync_task ⟨"/aa/bb/cc".toList, [], []⟩).extract_path ≠
      "/aa/bb/".toList := by
  refine ⟨by decide, by decide, by decide⟩

/-- C7 amended: sync-task construction. For a non-empty target the
staging-relative path is the target with a single leading separator removed
and the local extract path is the source unchanged; for an empty target the
staging-relative path is the last path component of the source, and the
trailing component is stripped from the local extract path only when the
source ends with a separator; when the computed staging-relative path ends
with a separator and the local extract path does not, the source's file name
is appended. -/
theorem C7_inverse_mapping (task : CopyTask) :
    (task.target ≠ [] →
      (create_sync_task task).extract_path = task.source ∧
      (create_sync_task task).zip_path =
        (let z := if task.target.head? = some '/' then task.target.drop 1
                  else task.target;
         if endsSlash z = true ∧ ¬endsSlash task.source = true then
           (match rustFileName task.source with
            | some n => z ++ n
            | none => z)
         else z)) ∧
    (task.target = [] → endsSlash task.source = false →
      (create_sync_task task).extract_path = task.source ∧
      (create_sync_task task).zip_path =
        (get_last_path_component task.source).getD "default_path".toList) ∧
    (task.target = [] → endsSlash task.source = true →
      (create_sync_task task).extract_path =
        (remove_last_path_component task.source).getD "default_path".toList ∧
      (create_sync_task task).zip_path =
        (get_last_path_component task.source).getD "default_path".toList) := by
  refine ⟨fun h => ?_, fun h h2 => ?_, fun h h2 => ?_⟩
  · unfold create_sync_task
    simp only [if_neg h]
    exact ⟨trivial, trivial⟩
  · have hg : get_last_path_component task.source = rustFileName task.source :=
      get_last_of_not_endsSlash task.source h2
    unfold create_sync_task
    simp only [if_pos h, h2, Bool.false_eq_true, if_false, hg]
    refine ⟨trivial, ?_⟩
    cases hn : rustFileName task.source with
    | none =>
      simp only [Option.getD_none, not_false_iff, and_true]
      rw [if_neg (by decide : ¬List.head? ("default_path".toList : Str) = some '/')]
      rw [if_neg (by decide : ¬endsSlash ("default_path".toList : Str) = true)]
    | some n =>
      have hok := rustFileName_ok task.source n hn
      obtain ⟨hhead, hends⟩ := okCompName_slash_free n hok
      simp only [Option.getD_some, not_false_iff, and_true]
      rw [if_neg hhead]
      rw [if_neg (by simp [hends])]
  · unfold create_sync_task
    simp only [if_pos h, h2, if_true]
    refine ⟨trivial, ?_⟩
    cases hg : get_last_path_component task.source with
    | none =>
      simp only [Option.getD_none]
      rw [if_neg (by decide : ¬List.head? ("default_path".toList : Str) = some '/')]
      rw [if_neg (fun hc => absurd hc.1
        (by decide : ¬endsSlash ("default_path".toList : Str) = true))]
    | some m =>
      by_cases hlen : 1 < task.source.length
      · rw [get_last_of_endsSlash task.source h2 hlen] at hg
        rcases Option.map_eq_some'.1 hg with ⟨n, hn, rfl⟩
        have hok := rustFileName_ok _ n hn
        obtain ⟨hhead, _⟩ := okCompName_slash_free n hok
        obtain ⟨par, hpar⟩ := rustParent_isSome_of_fileName _ n hn
        have hrl : remove_last_path_component task.source =
            some (if endsSlash par = true then par else par ++ ['/']) := by
          unfold remove_last_path_component
          rw [if_pos ⟨h2, hlen⟩]
          show Option.map (fun p => if endsSlash p = true then p else p ++ ['/'])
            (rustParent task.source.dropLast) = _
          rw [hpar]
          rfl
        have hrlends := remove_last_endsSlash task.source _ hrl
        have hheadm : ¬List.head? (n ++ ['/']) = some '/' := by
          rw [head?_append_left n ['/'] hok.1]
          exact hhead
        rw [hrl]
        simp only [Option.getD_some]
        rw [if_neg hheadm]
        rw [if_neg (fun hc => hc.2 hrlends)]
      · have hne : task.source ≠ [] := by
          intro hc
          rw [hc] at h2
          exact absurd h2 (by decide)
        have hlen1 : task.source.length = 1 := by
          have := List.length_pos.2 hne
          omega
        obtain ⟨c, hc⟩ := List.length_eq_one.1 hlen1
        have hcs : c = '/' := by
          rw [hc] at h2
          simpa [endsSlash] using h2
        have hnone : get_last_path_component ['/'] = none := by decide
        rw [hc, hcs, hnone] at hg
        cases hg

/-- C7 witness: the empty-target task with source `/aa/bb/` (trailing
separator) strips the trailing component from the extract path and takes
`bb/` as the staging-relative path. -/
theorem C7_inverse_mapping_witness :
    (create_sync_task ⟨"/aa/bb/".toList, [], []⟩).extract_path =
      (remove_last_path_component "/aa/bb/".toList).getD "default_path".toList ∧
    (create_sync_task ⟨"/aa/bb/".toList, [], []⟩).zip_path =
      (get_last_path_component "/aa/bb/".toList).getD "default_path".toList :=
  (C7_inverse_mapping ⟨"/aa/bb/".toList, [], []⟩).2.2 rfl (by decide)

/-! ## Lemmas: the builder's task loop -/

theorem mapContains_mapInsert_iff (m : MissingMap) (k v s : Str) :
    mapContains (mapInsert m k v) s = true ↔
      (mapContains m s = true ∨ k = s) := by
  induction m with
  | nil => simp [mapInsert, mapContains]
  | cons p rest ih =>
    obtain ⟨pk, pv⟩ := p
    unfold mapInsert
    by_cases h : pk = k
    · subst h
      rw [if_pos rfl]
      simp only [mapContains, List.any_cons, Bool.or_eq_true, decide_eq_true_eq]
      tauto
    · rw [if_neg h]
      simp only [mapContains, List.any_cons, Bool.or_eq_true, decide_eq_true_eq] at ih ⊢
      rw [show (List.any (mapInsert rest k v) fun p => decide (p.1 = s)) = true ↔
        (List.any rest fun p => decide (p.1 = s)) = true ∨ k = s from ih]
      tauto

/-- `createStep` on a missing source records `PathNotFound`. -/
theorem createStep_not_found (env : Env) (fs : FsTree) (st : BuildSt) (task : CopyTask)
    (hex : ¬pathExists fs task.source = true) (hp : st.panicked = false) :
    createStep env fs st task =
      { st with missing := store_missing st.missing task TaskError.PathNotFound } := by
  unfold createStep
  rw [hp]
  simp only [Bool.false_eq_true, if_false]
  rw [if_pos (by simpa using hex)]

/-- `createStep` on a metadata failure records `MetadataError`. -/
theorem createStep_meta_fail (env : Env) (fs : FsTree) (st : BuildSt) (task : CopyTask)
    (hex : pathExists fs task.source = true) (hmf : env.metaFails task.source = true)
    (hp : st.panicked = false) :
    createStep env fs st task =
      { st with missing := store_missing st.missing task TaskError.MetadataError } := by
  unfold createStep
  rw [hp]
  simp only [Bool.false_eq_true, if_false]
  rw [if_neg (by simp [hex]), if_pos hmf]

/-- `createStep` with readable metadata hands the task to `add_item_to_zip`. -/
theorem createStep_of_some (env : Env) (fs : FsTree) (st : BuildSt) (task : CopyTask)
    (meta : FsTree) (hp : st.panicked = false) (hex : pathExists fs task.source = true)
    (hmf : env.metaFails task.source = false)
    (hmeta : statNode fs task.source = some meta) :
    createStep env fs st task =
      { missing := (add_item_to_zip env fs st.missing task meta).1,
        entries := st.entries ++ (add_item_to_zip env fs st.missing task meta).2.1,
        panicked := !(add_item_to_zip env fs st.missing task meta).2.2 } := by
  unfold createStep
  rw [hp]
  simp only [Bool.false_eq_true, if_false]
  rw [if_neg (by simp [hex]), if_neg (by simp [hmf]), hmeta]

/-- `add_item_to_zip` on a file with a file name copies through
`add_file_to_zip`. -/
theorem add_item_file (env : Env) (fs : FsTree) (missing : MissingMap)
    (task : CopyTask) (b : Bytes) (filename : Str)
    (hfn : rustFileName task.source = some filename) :
    add_item_to_zip env fs missing task (FsTree.file b) =
      ((if (add_file_to_zip env fs task.source
            (get_target_file_path filename task)).2 = true then missing
        else store_missing missing task TaskError.FileCopyError),
       (add_file_to_zip env fs task.source (get_target_file_path filename task)).1,
       true) := by
  unfold add_item_to_zip
  rw [hfn]

/-- One step of the builder's loop: the step never panics when the source has
a file name, and the resulting missing map contains a source exactly when it
already did, or this task has that source and fails. -/
theorem createStep_missing (env : Env) (fs : FsTree) (st : BuildSt) (task : CopyTask)
    (hname : (rustFileName task.source).isSome = true) (hp : st.panicked = false) :
    (createStep env fs st task).panicked = false ∧
    ∀ s, mapContains (createStep env fs st task).missing s = true ↔
      (mapContains st.missing s = true ∨
        (task.source = s ∧ taskFails env fs task = true)) := by
  by_cases hex : pathExists fs task.source = true
  · have hnode : ∃ meta, statNode fs task.source = some meta := by
      unfold pathExists at hex
      cases hs : statNode fs task.source with
      | none =>
        rw [hs] at hex
        cases hex
      | some meta => exact ⟨meta, rfl⟩
    obtain ⟨meta, hmeta⟩ := hnode
    by_cases hmf : env.metaFails task.source = true
    · rw [createStep_meta_fail env fs st task hex hmf hp]
      have htf : taskFails env fs task = true := by
        simp only [taskFails, hmeta, if_pos hmf]
      refine ⟨hp, fun s => ?_⟩
      unfold store_missing
      rw [mapContains_mapInsert_iff, htf]
      simp only [and_true]
    · have hmf' : env.metaFails task.source = false := by simpa using hmf
      rw [createStep_of_some env fs st task meta hp hex hmf' hmeta]
      cases meta with
      | file b =>
        cases hfn : rustFileName task.source with
        | none =>
          rw [hfn] at hname
          cases hname
        | some filename =>
          rw [add_item_file env fs st.missing task b filename hfn]
          have htf : taskFails env fs task =
              !(add_file_to_zip env fs task.source
                (get_target_file_path filename task)).2 := by
            simp only [taskFails, hmeta, if_neg hmf, hfn]
          refine ⟨rfl, fun s => ?_⟩
          rw [htf]
          by_cases hcp : (add_file_to_zip env fs task.source
              (get_target_file_path filename task)).2 = true
          · simp only [if_pos hcp]
            simp only [hcp, Bool.not_true, Bool.false_eq_true, and_false, or_false]
          · simp only [if_neg hcp]
            unfold store_missing
            rw [mapContains_mapInsert_iff]
            simp only [Bool.not_eq_true] at hcp
            simp only [hcp, Bool.not_false, and_true]
      | dir cs =>
        have htf : taskFails env fs task =
            !(add_directory env fs task.source task.target).2 := by
          simp only [taskFails, hmeta, if_neg hmf]
        refine ⟨?_, fun s => ?_⟩
        · show (!(add_item_to_zip env fs st.missing task (FsTree.dir cs)).2.2) = false
          rfl
        · show mapContains
            (add_item_to_zip env fs st.missing task (FsTree.dir cs)).1 s = true ↔ _
          rw [htf]
          show mapContains (if (add_directory env fs task.source task.target).2 = true
            then st.missing
            else store_missing st.missing task TaskError.FolderCopyError) s = true ↔ _
          by_cases hcp : (add_directory env fs task.source task.target).2 = true
          · simp only [if_pos hcp]
            simp only [hcp, Bool.not_true, Bool.false_eq_true, and_false, or_false]
          · simp only [if_neg hcp]
            unfold store_missing
            rw [mapContains_mapInsert_iff]
            simp only [Bool.not_eq_true] at hcp
            simp only [hcp, Bool.not_false, and_true]
      | other =>
        have htf : taskFails env fs task = true := by
          simp only [taskFails, hmeta, if_neg hmf]
        refine ⟨rfl, fun s => ?_⟩
        rw [htf]
        show mapContains
          (store_missing st.missing task TaskError.PathNotFileOrFolder) s = true ↔ _
        unfold store_missing
        rw [mapContains_mapInsert_iff]
        simp only [and_true]
  · rw [createStep_not_found env fs st task hex hp]
    have hnode : statNode fs task.source = none := by
      unfold pathExists at hex
      cases hs : statNode fs task.source with
      | none => rfl
      | some meta =>
        rw [hs] at hex
        exact absurd rfl hex
    have htf : taskFails env fs task = true := by
      simp only [taskFails, hnode]
    refine ⟨hp, fun s => ?_⟩
    unfold store_missing
    rw [mapContains_mapInsert_iff, htf]
    simp only [and_true]

/-- The whole task loop: with no panics, the missing map of the fold
contains a source exactly when some task with that source fails. -/
theorem createFold_spec (env : Env) (fs : FsTree) (tasks : List CopyTask) :
    ∀ st : BuildSt,
      (∀ t ∈ tasks, (rustFileName t.source).isSome = true) →
      st.panicked = false →
      (tasks.foldl (createStep env fs) st).panicked = false ∧
      (∀ s, mapContains (tasks.foldl (createStep env fs) st).missing s = true ↔
        (mapContains st.missing s = true ∨
          ∃ t ∈ tasks, t.source = s ∧ taskFails env fs t = true)) := by
  induction tasks with
  | nil =>
    intro st _ hp
    exact ⟨hp, fun s => by simp⟩
  | cons t rest ih =>
    intro st hname hp
    obtain ⟨hp1, hm1⟩ := createStep_missing env fs st t (hname t (by simp)) hp
    obtain ⟨hp2, hm2⟩ := ih (createStep env fs st t)
      (fun x hx => hname x (by simp [hx])) hp1
    refine ⟨hp2, fun s => ?_⟩
    rw [List.foldl_cons]
    rw [hm2 s, hm1 s]
    constructor
    · rintro ((h | h) | ⟨x, hx, hs⟩)
      · exact Or.inl h
      · exact Or.inr ⟨t, by simp, h⟩
      · exact Or.inr ⟨x, by simp [hx], hs⟩
    · rintro (h | ⟨x, hx, hs⟩)
      · exact Or.inl (Or.inl h)
      · rcases (List.mem_cons).1 hx with h1 | h1
        · subst h1
          exact Or.inl (Or.inr hs)
        · exact Or.inr ⟨x, h1, hs⟩

/-- C5: two error channels in the builder. With every task's source bearing a
file name (so the loop's `unwrap` cannot panic), `create_zip` returns a
fatal error exactly when archive-stream creation or finalization fails;
the loop records exactly the failing tasks' sources in the missing map and
runs to the end; and per-task failures never produce the fatal error:
when the stream operations succeed, `create_zip` returns `Ok` with that
missing map, whatever the per-task outcomes were. -/
theorem C5_two_error_channels (env : Env) (fs₀ : FsTree) (cfg : Config)
    (hname : ∀ t ∈ cfg.copy_tasks, (rustFileName t.source).isSome = true) :
    ((∃ msg f m, create_zip env fs₀ cfg = CreateResult.fatal msg f m) ↔
      (stubFs env fs₀ cfg = none ∨ env.finishFails = true)) ∧
    (∀ fs₁, stubFs env fs₀ cfg = some fs₁ →
      ∀ s, mapContains (cfg.copy_tasks.foldl (createStep env fs₁)
          ⟨[], [], false⟩).missing s = true ↔
        ∃ t ∈ cfg.copy_tasks, t.source = s ∧ taskFails env fs₁ t = true) ∧
    (∀ fs₁, stubFs env fs₀ cfg = some fs₁ → env.finishFails = false →
      ∃ f a, create_zip env fs₀ cfg = CreateResult.ok f
        (cfg.copy_tasks.foldl (createStep env fs₁) ⟨[], [], false⟩).missing a) := by
  refine ⟨?_, ?_, ?_⟩
  · cases hstub : stubFs env fs₀ cfg with
    | none =>
      constructor
      · intro _
        exact Or.inl rfl
      · intro _
        refine ⟨"stream creation".toList, fs₀, [], ?_⟩
        unfold create_zip
        rw [hstub]
    | some fs₁ =>
      obtain ⟨hpan, _⟩ := createFold_spec env fs₁ cfg.copy_tasks ⟨[], [], false⟩
        hname rfl
      constructor
      · rintro ⟨msg, f, m, hfat⟩
        unfold create_zip at hfat
        rw [hstub] at hfat
        simp only [hpan, Bool.false_eq_true, if_false] at hfat
        by_cases hfin : env.finishFails = true
        · exact Or.inr hfin
        · rw [if_neg hfin] at hfat
          cases hfat
      · rintro (h | h)
        · cases h
        · refine ⟨"finalize".toList, fs₁,
            (cfg.copy_tasks.foldl (createStep env fs₁) ⟨[], [], false⟩).missing, ?_⟩
          unfold create_zip
          rw [hstub]
          simp only [hpan, Bool.false_eq_true, if_false]
          rw [if_pos h]
  · intro fs₁ hstub s
    obtain ⟨_, hmiss⟩ := createFold_spec env fs₁ cfg.copy_tasks ⟨[], [], false⟩
      hname rfl
    rw [hmiss s]
    simp [mapContains]
  · intro fs₁ hstub hfin
    obtain ⟨hpan, _⟩ := createFold_spec env fs₁ cfg.copy_tasks ⟨[], [], false⟩
      hname rfl
    refine ⟨((strResolve cfg.zip_path).bind fun p =>
        writeFileAt fs₁ p (zipBytes (cfg.copy_tasks.foldl (createStep env fs₁)
          ⟨[], [], false⟩).entries)).getD fs₁,
      (cfg.copy_tasks.foldl (createStep env fs₁) ⟨[], [], false⟩).entries, ?_⟩
    unfold create_zip
    rw [hstub]
    simp only [hpan, Bool.false_eq_true, if_false]
    rw [if_neg (by simp [hfin])]

/-- C5 witness: one absent source `/s` (recorded, loop continues) and one
present file `/a`; the stream succeeds, so no fatal error, and the loop's
missing map holds exactly the source `/s`. -/
theorem C5_two_error_channels_witness :
    (¬∃ msg f m, create_zip honestEnv
      (FsTree.dir [("a".toList, FsTree.file [1]), ("t".toList, FsTree.dir [])])
      ⟨"/t/z.zip".toList, [], [], [], [],
        [⟨"/s".toList, [], []⟩, ⟨"/a".toList, [], "a.txt".toList⟩]⟩ =
      CreateResult.fatal msg f m) ∧
    (∀ s, mapContains (([⟨"/s".toList, [], []⟩,
        (⟨"/a".toList, [], "a.txt".toList⟩ : CopyTask)] : List CopyTask).foldl
          (createStep honestEnv
            (FsTree.dir [("a".toList, FsTree.file [1]),
              ("t".toList, FsTree.dir [("z.zip".toList, FsTree.file [])])]))
          ⟨[], [], false⟩).missing s = true ↔
      ∃ t ∈ ([⟨"/s".toList, [], []⟩,
        (⟨"/a".toList, [], "a.txt".toList⟩ : CopyTask)] : List CopyTask),
        t.source = s ∧ taskFails honestEnv
          (FsTree.dir [("a".toList, FsTree.file [1]),
            ("t".toList, FsTree.dir [("z.zip".toList, FsTree.file [])])]) t = true) := by
  constructor
  · intro hcontra
    rcases (C5_two_error_channels honestEnv
      (FsTree.dir [("a".toList, FsTree.file [1]), ("t".toList, FsTree.dir [])])
      ⟨"/t/z.zip".toList, [], [], [], [],
        [⟨"/s".toList, [], []⟩, ⟨"/a".toList, [], "a.txt".toList⟩]⟩
      (by decide)).1.1 hcontra with h | h
    · have hsome : (stubFs honestEnv
        (FsTree.dir [("a".toList, FsTree.file [1]), ("t".toList, FsTree.dir [])])
        ⟨"/t/z.zip".toList, [], [], [], [],
          [⟨"/s".toList, [], []⟩, ⟨"/a".toList, [], "a.txt".toList⟩]⟩).isSome = true := by
        rfl
      rw [h] at hsome
      cases hsome
    · exact absurd h (by decide)
  · intro s
    exact (C5_two_error_channels honestEnv
      (FsTree.dir [("a".toList, FsTree.file [1]), ("t".toList, FsTree.dir [])])
      ⟨"/t/z.zip".toList, [], [], [], [],
        [⟨"/s".toList, [], []⟩, ⟨"/a".toList, [], "a.txt".toList⟩]⟩
      (by decide)).2.1
      (FsTree.dir [("a".toList, FsTree.file [1]),
        ("t".toList, FsTree.dir [("z.zip".toList, FsTree.file [])])])
      rfl s

/-- C9 witness: the task `/d/f.txt → x/y.txt` yields the entries
`x/` then `x/y.txt`. -/
theorem C9_parent_dir_entry_witness :
    add_item_to_zip honestEnv
        (FsTree.dir [("d".toList, FsTree.dir [("f.txt".toList, FsTree.file [7])])])
        [] ⟨"/d/f.txt".toList, [], "x/y.txt".toList⟩ (FsTree.file [7]) =
      ([],
       [⟨"x".toList ++ ['/'], true, []⟩,
        ⟨get_target_file_path "f.txt".toList ⟨"/d/f.txt".toList, [], "x/y.txt".toList⟩,
          false, [7]⟩],
       true) :=
  C9_parent_dir_entry honestEnv
    (FsTree.dir [("d".toList, FsTree.dir [("f.txt".toList, FsTree.file [7])])])
    [] ⟨"/d/f.txt".toList, [], "x/y.txt".toList⟩ [7] "f.txt".toList "x".toList
    (by decide) (by decide) (by decide) rfl (by rfl)

/-! ## Lemmas: the split of a concatenation -/

theorem getLast?_cons_ne_nil {α} (a : α) (l : List α) (h : l ≠ []) :
    (a :: l).getLast? = l.getLast? := by
  cases l with
  | nil => exact absurd rfl h
  | cons b t => simp [List.getLast?_cons_cons]

theorem dropLast_cons_ne_nil {α} (a : α) (l : List α) (h : l ≠ []) :
    (a :: l).dropLast = a :: l.dropLast := by
  cases l with
  | nil => exact absurd rfl h
  | cons b t => rfl

theorem dropLast_append_getLastD (l : List Str) (h : l ≠ []) :
    l.dropLast ++ [l.getLast?.getD []] = l := by
  induction l with
  | nil => exact absurd rfl h
  | cons a t ih =>
    cases t with
    | nil => rfl
    | cons b t₂ =>
      rw [dropLast_cons_ne_nil a (b :: t₂) (by simp), getLast?_cons_ne_nil a (b :: t₂) (by simp)]
      simpa using ih (by simp)

theorem splitOnChar_append (sep : Char) (x y : Str) :
    splitOnChar sep (x ++ y) =
      (splitOnChar sep x).dropLast ++
        ((splitOnChar sep x).getLast?.getD [] ++ (splitOnChar sep y).head?.getD []) ::
          (splitOnChar sep y).tail := by
  induction x with
  | nil =>
    have hne := splitOnChar_ne_nil sep y
    cases h : splitOnChar sep y with
    | nil => exact absurd h hne
    | cons a t => simp [splitOnChar, h]
  | cons c x ih =>
    have hne := splitOnChar_ne_nil sep x
    by_cases hc : c = sep
    · rw [List.cons_append,
        show splitOnChar sep (c :: (x ++ y)) = [] :: splitOnChar sep (x ++ y) from by
          simp [splitOnChar, hc],
        ih,
        show splitOnChar sep (c :: x) = [] :: splitOnChar sep x from by simp [splitOnChar, hc]]
      cases h : splitOnChar sep x with
      | nil => exact absurd h hne
      | cons a t =>
        rw [dropLast_cons_ne_nil [] (a :: t) (by simp), getLast?_cons_ne_nil [] (a :: t) (by simp)]
        simp
    · have hstep : ∀ r : Str, splitOnChar sep (c :: r) =
          (c :: (splitOnChar sep r).head?.getD []) :: (splitOnChar sep r).tail := by
        intro r
        have hner := splitOnChar_ne_nil sep r
        cases hr : splitOnChar sep r with
        | nil => exact absurd hr hner
        | cons a₂ t₂ => simp [splitOnChar, hc, hr]
      cases h : splitOnChar sep x with
      | nil => exact absurd h hne
      | cons a t =>
        rw [List.cons_append, hstep (x ++ y), ih, hstep x, h]
        cases t with
        | nil =>
          have hy := splitOnChar_ne_nil sep y
          cases hys : splitOnChar sep y with
          | nil => exact absurd hys hy
          | cons b u => simp [hys]
        | cons a₂ t₂ =>
          rw [dropLast_cons_ne_nil a (a₂ :: t₂) (by simp),
            getLast?_cons_ne_nil a (a₂ :: t₂) (by simp)]
          simp [dropLast_cons_ne_nil (c :: a) (a₂ :: t₂) (by simp),
            getLast?_cons_ne_nil (c :: a) (a₂ :: t₂) (by simp)]

theorem splitSlash_append (x y : Str) :
    splitSlash (x ++ y) =
      (splitSlash x).dropLast ++
        ((splitSlash x).getLast?.getD [] ++ (splitSlash y).head?.getD []) ::
          (splitSlash y).tail :=
  splitOnChar_append '/' x y

/-! ## Lemmas: canonical components of concatenations -/

theorem splitSlash_ne_nil (s : Str) : splitSlash s ≠ [] := splitOnChar_ne_nil '/' s

theorem relComps_append_slash (a b : Str) :
    relComps (a ++ '/' :: b) = relComps a ++ relComps b := by
  have hsplit : splitSlash ('/' :: b) = [] :: splitSlash b := by
    simp [splitSlash, splitOnChar]
  unfold relComps
  rw [splitSlash_append, hsplit]
  simp only [List.head?_cons, Option.getD_some, List.tail_cons, List.append_nil]
  rw [show ((splitSlash a).dropLast ++ (splitSlash a).getLast?.getD [] :: splitSlash b)
      = ((splitSlash a).dropLast ++ [(splitSlash a).getLast?.getD []]) ++ splitSlash b
      from by simp,
    dropLast_append_getLastD _ (splitSlash_ne_nil a), List.filter_append]

theorem splitSlash_last_of_endsSlash (s : Str) (h : endsSlash s = true) :
    (splitSlash s).getLast? = some [] := by
  have hne : s ≠ [] := by
    intro hnil; rw [hnil] at h; simp [endsSlash] at h
  have hlast : s.getLast? = some '/' := by simpa [endsSlash] using h
  obtain ⟨s₂, rfl⟩ : ∃ s₂, s = s₂ ++ ['/'] := by
    refine ⟨s.dropLast, ?_⟩
    have h₂ := List.dropLast_append_getLast hne
    have h₃ : s.getLast hne = '/' := by
      rw [List.getLast?_eq_getLast s hne] at hlast
      exact Option.some_inj.mp hlast
    rw [h₃] at h₂
    exact h₂.symm
  rw [splitSlash_append, show splitSlash ['/'] = [[], []] from by simp [splitSlash, splitOnChar]]
  simp only [List.head?_cons, Option.getD_some, List.tail_cons, List.append_nil]
  rw [show ((splitSlash s₂).dropLast ++ [(splitSlash s₂).getLast?.getD [], ([] : Str)])
      = (((splitSlash s₂).dropLast ++ [(splitSlash s₂).getLast?.getD []]) ++ [([] : Str)])
      from by simp]
  exact List.getLast?_concat _

theorem relComps_append_of_endsSlash (a b : Str) (h : endsSlash a = true) :
    relComps (a ++ b) = relComps a ++ relComps b := by
  have hlast := splitSlash_last_of_endsSlash a h
  have hb := splitSlash_ne_nil b
  have ha : splitSlash a = (splitSlash a).dropLast ++ [[]] := by
    have h₂ := dropLast_append_getLastD (splitSlash a) (splitSlash_ne_nil a)
    rw [hlast] at h₂
    exact h₂.symm
  have hfa : (splitSlash a).filter (fun c => decide (¬c = []))
      = (splitSlash a).dropLast.filter (fun c => decide (¬c = [])) := by
    conv_lhs => rw [ha]
    simp [List.filter_append]
  unfold relComps
  rw [splitSlash_append, hlast]
  cases hbs : splitSlash b with
  | nil => exact absurd hbs hb
  | cons p ps =>
    simp only [Option.getD_some, List.nil_append, List.head?_cons, List.tail_cons]
    rw [List.filter_append, hfa]

theorem relComps_ne_nil_of_not_endsSlash (s : Str) (h : endsSlash s = false) (hs : s ≠ []) :
    relComps s ≠ [] := by
  obtain ⟨s₂, c, rfl⟩ : ∃ s₂ c, s = s₂ ++ [c] := by
    refine ⟨s.dropLast, s.getLast hs, (List.dropLast_append_getLast hs).symm⟩
  have hc : ¬c = '/' := by
    intro hc
    rw [show endsSlash (s₂ ++ [c]) = true from by simp [endsSlash, hc]] at h
    cases h
  have hcs : splitSlash [c] = [[c]] := splitOnChar_of_not_mem _ _ (by simpa using Ne.symm hc)
  unfold relComps
  rw [splitSlash_append, hcs]
  intro hcontra
  have hmem : ((splitSlash s₂).getLast?.getD [] ++ [c]) ∈
      ((splitSlash s₂).dropLast ++
        ((splitSlash s₂).getLast?.getD [] ++ [[c]].head?.getD []) :: ([[c]] : List Str).tail).filter
        (fun c => decide (¬c = [])) := by
    rw [List.mem_filter]
    constructor
    · simp
    · simp
  rw [hcontra] at hmem
  cases hmem

/-! ## Lemmas: dot-free strings and their resolution -/

theorem dotFreeB_iff (s : Str) :
    dotFreeB s = true ↔ ∀ p ∈ splitSlash s, p ≠ ['.'] ∧ p ≠ ['.', '.'] := by
  unfold dotFreeB
  rw [List.all_eq_true]
  constructor
  · intro h p hp
    have := h p hp
    simp only [Bool.and_eq_true, decide_eq_true_eq] at this
    exact this
  · intro h p hp
    simp only [Bool.and_eq_true, decide_eq_true_eq]
    exact h p hp

theorem append_piece_ne_dots (u v : Str) (hu : u ≠ ['.'] ∧ u ≠ ['.', '.'])
    (hv : v ≠ ['.'] ∧ v ≠ ['.', '.']) :
    u ++ v ≠ ['.'] ∧ u ++ v ≠ ['.', '.'] := by
  constructor
  · intro hev
    cases u with
    | nil => exact hv.1 (by simpa using hev)
    | cons a u₂ =>
      cases u₂ with
      | nil =>
        rw [List.cons_append, List.nil_append] at hev
        have h1 : a = '.' := (List.cons.injEq .. ▸ hev).1
        have h2 : v = [] := (List.cons.injEq .. ▸ hev).2
        exact hu.1 (by rw [h1])
      | cons b u₃ => simp [List.cons_append] at hev
  · intro hev
    cases u with
    | nil => exact hv.2 (by simpa using hev)
    | cons a u₂ =>
      cases u₂ with
      | nil =>
        rw [List.cons_append, List.nil_append] at hev
        have h1 : a = '.' := (List.cons.injEq .. ▸ hev).1
        have h2 : v = ['.'] := (List.cons.injEq .. ▸ hev).2
        exact hv.1 h2
      | cons b u₃ =>
        cases u₃ with
        | nil =>
          rw [List.cons_append, List.cons_append, List.nil_append] at hev
          rw [List.cons.injEq, List.cons.injEq] at hev
          obtain ⟨h1, h2, h3⟩ := hev
          exact hu.2 (by rw [h1, h2])
        | cons d u₄ => simp [List.cons_append] at hev

theorem dotFreeB_append (a b : Str) (ha : dotFreeB a = true) (hb : dotFreeB b = true) :
    dotFreeB (a ++ b) = true := by
  rw [dotFreeB_iff] at ha hb ⊢
  intro p hp
  rw [splitSlash_append] at hp
  rcases List.mem_append.mp hp with hmem | hmem
  · exact ha p (List.mem_of_mem_dropLast hmem)
  · rcases List.mem_cons.mp hmem with heq | hmem₂
    · subst heq
      refine append_piece_ne_dots _ _ ?_ ?_
      · have hne := splitSlash_ne_nil a
        cases h : (splitSlash a).getLast? with
        | none => simp [List.getLast?_eq_none_iff] at h; exact absurd h hne
        | some q =>
          have : q ∈ splitSlash a := List.mem_of_getLast?_eq_some h
          simpa [h] using ha q this
      · have hne := splitSlash_ne_nil b
        cases h : (splitSlash b).head? with
        | none => simp [List.head?_eq_none_iff] at h; exact absurd h hne
        | some q =>
          have : q ∈ splitSlash b := List.mem_of_mem_head? (by simp [h])
          simpa [h] using hb q this
    · exact hb p ((List.tail_sublist _).mem hmem₂)

theorem dotFreeB_cons_slash (b : Str) (hb : dotFreeB b = true) :
    dotFreeB ('/' :: b) = true := by
  rw [dotFreeB_iff] at hb ⊢
  intro p hp
  rw [show splitSlash ('/' :: b) = [] :: splitSlash b from by simp [splitSlash, splitOnChar]] at hp
  rcases List.mem_cons.mp hp with heq | hmem
  · subst heq; exact ⟨by simp, by simp⟩
  · exact hb p hmem

theorem dotFreeB_of_ok (n : Str) (hn : okCompName n) : dotFreeB n = true := by
  obtain ⟨h1, h2, h3, h4⟩ := hn
  rw [dotFreeB_iff, show splitSlash n = [n] from splitOnChar_of_not_mem _ _ h4]
  intro p hp
  rcases List.mem_singleton.mp hp with rfl
  exact ⟨h2, h3⟩

theorem relComps_single (n : Str) (hn : okCompName n) : relComps n = [n] := by
  obtain ⟨h1, h2, h3, h4⟩ := hn
  unfold relComps
  rw [show splitSlash n = [n] from splitOnChar_of_not_mem _ _ h4]
  simp [h1]

theorem resolve_foldl_dotfree (pieces : List Str) (acc : List Str)
    (h : ∀ p ∈ pieces, p ≠ ['.'] ∧ p ≠ ['.', '.']) :
    pieces.foldl (fun acc c =>
      if c = [] ∨ c = ['.'] then acc
      else if c = ['.', '.'] then acc.dropLast else acc ++ [c]) acc
      = acc ++ pieces.filter fun c => decide (¬c = []) := by
  induction pieces generalizing acc with
  | nil => simp
  | cons p ps ih =>
    obtain ⟨h1, h2⟩ := h p (List.mem_cons_self p ps)
    rw [List.foldl_cons]
    by_cases hp : p = []
    · rw [if_pos (Or.inl hp), ih _ fun q hq => h q (List.mem_cons_of_mem p hq)]
      simp [hp]
    · rw [if_neg (by simp [hp, h1]), if_neg h2,
        ih _ fun q hq => h q (List.mem_cons_of_mem p hq)]
      simp [hp]

theorem strResolve_eq_relComps (s : Str) (h1 : s.head? = some '/') (h2 : dotFreeB s = true) :
    strResolve s = some (relComps s) := by
  unfold strResolve
  rw [if_pos h1]
  have h₃ := resolve_foldl_dotfree (splitSlash s) [] ((dotFreeB_iff s).mp h2)
  rw [h₃]
  simp [relComps]

theorem resolve_foldl_ok (pieces : List Str) (acc : List Str)
    (hacc : ∀ c ∈ acc, okCompName c) (hpieces : ∀ p ∈ pieces, '/' ∉ p) :
    ∀ c ∈ pieces.foldl (fun acc c =>
      if c = [] ∨ c = ['.'] then acc
      else if c = ['.', '.'] then acc.dropLast else acc ++ [c]) acc, okCompName c := by
  induction pieces generalizing acc with
  | nil => simpa using hacc
  | cons p ps ih =>
    rw [List.foldl_cons]
    by_cases hp : p = [] ∨ p = ['.']
    · rw [if_pos hp]
      exact ih acc hacc fun q hq => hpieces q (List.mem_cons_of_mem p hq)
    · rw [if_neg hp]
      by_cases hpp : p = ['.', '.']
      · rw [if_pos hpp]
        exact ih _ (fun c hc => hacc c (List.mem_of_mem_dropLast hc))
          fun q hq => hpieces q (List.mem_cons_of_mem p hq)
      · rw [if_neg hpp]
        refine ih _ ?_ fun q hq => hpieces q (List.mem_cons_of_mem p hq)
        intro c hc
        rcases List.mem_append.mp hc with hc₂ | hc₂
        · exact hacc c hc₂
        · rcases List.mem_singleton.mp hc₂ with rfl
          push_neg at hp
          exact ⟨hp.1, hp.2, hpp, hpieces c (List.mem_cons_self c ps)⟩

theorem strResolve_comps_ok (s : Str) (cs : List Str) (h : strResolve s = some cs) :
    ∀ c ∈ cs, okCompName c := by
  unfold strResolve at h
  by_cases habs : s.head? = some '/'
  · rw [if_pos habs, Option.some_inj] at h
    subst h
    exact resolve_foldl_ok _ [] (by simp) (not_mem_of_mem_splitOnChar '/' s)
  · rw [if_neg habs] at h
    cases h

/-! ## Lemmas: parsing and rendering of dot-free strings -/

theorem filter_keep_of_dotfree (s : Str) (h : dotFreeB s = true) :
    (splitSlash s).filter keepComp = relComps s := by
  unfold relComps
  apply List.filter_congr
  intro c hc
  obtain ⟨h1, h2⟩ := (dotFreeB_iff s).mp h c hc
  unfold keepComp
  simp [h1]

theorem map_piece_of_dotfree (s : Str) (h : dotFreeB s = true) :
    (relComps s).map pieceComp = (relComps s).map PComp.normal := by
  apply List.map_congr_left
  intro c hc
  have hc₂ : c ∈ (splitSlash s).filter fun c => decide (¬c = []) := hc
  have hmem : c ∈ splitSlash s := (List.mem_filter.mp hc₂).1
  obtain ⟨h1, h2⟩ := (dotFreeB_iff s).mp h c hmem
  unfold pieceComp
  rw [if_neg h2]

theorem parse_abs_dotfree (s : Str) (h1 : s.head? = some '/') (h2 : dotFreeB s = true) :
    parseComponents s = PComp.rootDir :: (relComps s).map PComp.normal := by
  rw [parse_of_root s h1, filter_keep_of_dotfree s h2, map_piece_of_dotfree s h2]

theorem take_two_shape (s : Str) (h : s.take 2 = ['.', '/']) : ∃ r, s = '.' :: '/' :: r := by
  cases s with
  | nil => simp at h
  | cons a s₂ =>
    cases s₂ with
    | nil => simp at h
    | cons b r =>
      refine ⟨r, ?_⟩
      have h₂ : a :: b :: [] = ['.', '/'] := by simpa [List.take] using h
      rw [List.cons.injEq, List.cons.injEq] at h₂
      rw [h₂.1, h₂.2.1]

theorem parse_rel_dotfree (s : Str) (h1 : ¬s.head? = some '/') (h2 : dotFreeB s = true) :
    parseComponents s = (relComps s).map PComp.normal := by
  have hdot : s ≠ ['.'] := by
    intro hs
    subst hs
    have hmem : ['.'] ∈ splitSlash ['.'] := by
      rw [show splitSlash ['.'] = [['.']] from splitOnChar_of_not_mem _ _ (by simp)]
      simp
    exact ((dotFreeB_iff _).mp h2 ['.'] hmem).1 rfl
  have htake : s.take 2 ≠ ['.', '/'] := by
    intro hs
    obtain ⟨r, rfl⟩ := take_two_shape s hs
    have hsplit : splitSlash ('.' :: '/' :: r) = ['.'] :: splitSlash r := by
      show splitOnChar '/' ('.' :: '/' :: r) = ['.'] :: splitOnChar '/' r
      simp [splitOnChar]
    have hmem : ['.'] ∈ splitSlash ('.' :: '/' :: r) := by
      rw [hsplit]; exact List.mem_cons_self _ _
    exact ((dotFreeB_iff _).mp h2 ['.'] hmem).1 rfl
  rw [parse_of_plain s h1 hdot htake, filter_keep_of_dotfree s h2, map_piece_of_dotfree s h2]

theorem relComps_ok_of_dotfree (s : Str) (h : dotFreeB s = true) :
    ∀ c ∈ relComps s, okCompName c := by
  intro c hc
  have hc₂ : c ∈ (splitSlash s).filter fun c => decide (¬c = []) := hc
  have hmem := (List.mem_filter.mp hc₂).1
  have hne : c ≠ [] := by simpa using (List.mem_filter.mp hc₂).2
  obtain ⟨hd1, hd2⟩ := (dotFreeB_iff s).mp h c hmem
  exact ⟨hne, hd1, hd2, not_mem_of_mem_splitOnChar '/' s c hmem⟩

theorem getLast?_map_normal (rc : List Str) :
    (rc.map PComp.normal).getLast? = rc.getLast?.map PComp.normal := by
  induction rc with
  | nil => rfl
  | cons a t ih =>
    cases t with
    | nil => rfl
    | cons b u =>
      rw [List.map_cons, getLast?_cons_ne_nil _ _ (by simp),
        getLast?_cons_ne_nil _ _ (by simp)]
      exact ih

theorem rustFileName_of_comps (s : Str) (h1 : s.head? = some '/') (h2 : dotFreeB s = true)
    (h3 : relComps s ≠ []) : rustFileName s = (relComps s).getLast? := by
  unfold rustFileName
  rw [parse_abs_dotfree s h1 h2, getLast?_cons_ne_nil _ _ (by simpa using h3),
    getLast?_map_normal]
  cases h : (relComps s).getLast? with
  | none => rw [List.getLast?_eq_none_iff] at h; exact absurd h h3
  | some c => rfl

theorem dropLast_map_comm {α β} (f : α → β) (l : List α) :
    (l.map f).dropLast = l.dropLast.map f := by
  induction l with
  | nil => rfl
  | cons a t ih =>
    cases t with
    | nil => rfl
    | cons b u =>
      rw [List.map_cons, dropLast_cons_ne_nil (f a) _ (by simp), ih,
        dropLast_cons_ne_nil a (b :: u) (by simp), List.map_cons]

theorem map_compStr_normal (rc : List Str) : (rc.map PComp.normal).map compStr = rc := by
  induction rc with
  | nil => rfl
  | cons a t ih => simp [compStr, ih]

theorem render_map_normal (rc : List Str) :
    renderComponents (rc.map PComp.normal) = joinSlash ((rc.map PComp.normal).map compStr) := by
  cases rc with
  | nil => rfl
  | cons c t => rfl

theorem rustParent_abs_dotfree (s : Str) (h1 : s.head? = some '/') (h2 : dotFreeB s = true)
    (h3 : relComps s ≠ []) :
    rustParent s = some ('/' :: joinSlash (relComps s).dropLast) := by
  unfold rustParent
  rw [parse_abs_dotfree s h1 h2]
  rw [if_neg (by simp), if_neg ?hne]
  case hne =>
    intro hcontra
    rw [List.cons.injEq] at hcontra
    exact h3 (by simpa using hcontra.2)
  rw [dropLast_cons_ne_nil _ _ (by simpa using h3)]
  rw [show renderComponents (PComp.rootDir :: ((relComps s).map PComp.normal).dropLast)
      = '/' :: joinSlash (((relComps s).map PComp.normal).dropLast.map compStr) from rfl]
  rw [dropLast_map_comm, map_compStr_normal]

theorem rustParent_rel_dotfree (s : Str) (h1 : ¬s.head? = some '/') (h2 : dotFreeB s = true)
    (h3 : relComps s ≠ []) :
    rustParent s = some (joinSlash (relComps s).dropLast) := by
  unfold rustParent
  rw [parse_rel_dotfree s h1 h2]
  rw [if_neg (by simpa using h3), if_neg ?hroot]
  case hroot =>
    intro hcontra
    cases hrc : relComps s with
    | nil => exact h3 hrc
    | cons c t => rw [hrc] at hcontra; simp at hcontra
  rw [dropLast_map_comm, render_map_normal, map_compStr_normal]

theorem relComps_abs_render (cs : List Str) (hok : ∀ c ∈ cs, c ≠ [] ∧ '/' ∉ c) :
    relComps ('/' :: joinSlash cs) = cs := by
  cases cs with
  | nil => rfl
  | cons c t =>
    have hsplit : splitSlash ('/' :: joinSlash (c :: t)) = [] :: (c :: t) := by
      show splitOnChar '/' ('/' :: joinSlash (c :: t)) = _
      rw [show splitOnChar '/' ('/' :: joinSlash (c :: t))
          = [] :: splitOnChar '/' (joinSlash (c :: t)) from by simp [splitOnChar]]
      rw [show splitOnChar '/' (joinSlash (c :: t)) = c :: t from
        splitOnChar_joinWithChar '/' (c :: t) (by simp) (fun p hp => (hok p hp).2)]
    unfold relComps
    rw [hsplit]
    have hrest : (c :: t).filter (fun c => decide (¬c = [])) = c :: t :=
      List.filter_eq_self.mpr (fun a ha => by simpa using (hok a ha).1)
    rw [List.filter_cons_of_neg (by simp), hrest]

theorem relComps_rel_render (cs : List Str) (hok : ∀ c ∈ cs, c ≠ [] ∧ '/' ∉ c) :
    relComps (joinSlash cs) = cs := by
  cases cs with
  | nil => rfl
  | cons c t =>
    unfold relComps
    rw [show splitSlash (joinSlash (c :: t)) = c :: t from
      splitOnChar_joinWithChar '/' (c :: t) (by simp) (fun p hp => (hok p hp).2)]
    exact List.filter_eq_self.mpr (fun a ha => by simpa using (hok a ha).1)

/-! ## Lemmas: the name-joining of the archive walk -/

theorem relComps_nameJoin (zb n : Str) (hn : okCompName n) :
    relComps (nameJoin zb n) = relComps zb ++ [n] := by
  unfold nameJoin
  by_cases h : endsSlash zb = true
  · rw [if_pos h, relComps_append_of_endsSlash _ _ h, relComps_single n hn]
  · rw [if_neg h, relComps_append_slash, relComps_single n hn]

theorem dotFreeB_nameJoin (zb n : Str) (hzb : dotFreeB zb = true) (hn : okCompName n) :
    dotFreeB (nameJoin zb n) = true := by
  unfold nameJoin
  by_cases h : endsSlash zb = true
  · rw [if_pos h]; exact dotFreeB_append _ _ hzb (dotFreeB_of_ok n hn)
  · rw [if_neg h]; exact dotFreeB_append _ _ hzb (dotFreeB_cons_slash _ (dotFreeB_of_ok n hn))

theorem endsSlash_append_right (a n : Str) (hn : n ≠ []) :
    endsSlash (a ++ n) = endsSlash n := by
  unfold endsSlash
  rw [List.getLast?_append_of_ne_nil _ hn]

theorem endsSlash_of_ok (n : Str) (hn : okCompName n) : endsSlash n = false := by
  unfold endsSlash
  cases h : n.getLast? with
  | none => rfl
  | some c =>
    have hc : c ∈ n := List.mem_of_getLast?_eq_some h
    simp only [Option.some.injEq, decide_eq_false_iff_not]
    rintro rfl
    exact hn.2.2.2 hc

theorem endsSlash_nameJoin (zb n : Str) (hn : okCompName n) :
    endsSlash (nameJoin zb n) = false := by
  unfold nameJoin
  by_cases h : endsSlash zb = true
  · rw [if_pos h, endsSlash_append_right _ _ hn.1, endsSlash_of_ok n hn]
  · rw [if_neg h, show zb ++ '/' :: n = (zb ++ ['/']) ++ n from by simp,
      endsSlash_append_right _ _ hn.1, endsSlash_of_ok n hn]

theorem head?_nameJoin (zb n : Str) (hzb : zb ≠ []) : (nameJoin zb n).head? = zb.head? := by
  unfold nameJoin
  by_cases h : endsSlash zb = true
  · rw [if_pos h]; exact head?_append_left zb n hzb
  · rw [if_neg h]; exact head?_append_left zb _ hzb

theorem RelSafe_nameJoin (zb n : Str) (hzb : RelSafe zb) (hn : okCompName n) :
    RelSafe (nameJoin zb n) := by
  obtain ⟨h1, h2, h3⟩ := hzb
  refine ⟨?_, ?_, dotFreeB_nameJoin zb n h3 hn⟩
  · unfold nameJoin
    by_cases h : endsSlash zb = true
    · rw [if_pos h]; simp [h1]
    · rw [if_neg h]; simp
  · rw [head?_nameJoin zb n h1]; exact h2

theorem relComps_foldl_nameJoin (r : List Str) (zb : Str) (hr : ∀ c ∈ r, okCompName c) :
    relComps (r.foldl nameJoin zb) = relComps zb ++ r := by
  induction r generalizing zb with
  | nil => simp
  | cons c t ih =>
    rw [List.foldl_cons, ih _ (fun q hq => hr q (List.mem_cons_of_mem c hq)),
      relComps_nameJoin zb c (hr c (List.mem_cons_self c t))]
    simp

theorem RelSafe_foldl_nameJoin (r : List Str) (zb : Str) (hzb : RelSafe zb)
    (hr : ∀ c ∈ r, okCompName c) : RelSafe (r.foldl nameJoin zb) := by
  induction r generalizing zb with
  | nil => exact hzb
  | cons c t ih =>
    exact ih _ (RelSafe_nameJoin zb c hzb (hr c (List.mem_cons_self c t)))
      (fun q hq => hr q (List.mem_cons_of_mem c hq))

theorem endsSlash_foldl_nameJoin (r : List Str) (zb : Str) (hne : r ≠ [])
    (hr : ∀ c ∈ r, okCompName c) : endsSlash (r.foldl nameJoin zb) = false := by
  induction r generalizing zb with
  | nil => exact absurd rfl hne
  | cons c t ih =>
    rw [List.foldl_cons]
    cases t with
    | nil => exact endsSlash_nameJoin zb c (hr c (List.mem_cons_self c []))
    | cons d u =>
      exact ih _ (by simp) (fun q hq => hr q (List.mem_cons_of_mem c hq))

theorem relComps_concat_slash (x : Str) : relComps (x ++ ['/']) = relComps x := by
  rw [show (x ++ ['/']) = x ++ '/' :: [] from rfl, relComps_append_slash,
    show relComps [] = [] from rfl]
  simp

theorem endsSlash_concat_slash (x : Str) : endsSlash (x ++ ['/']) = true := by
  unfold endsSlash
  rw [List.getLast?_concat]
  simp

theorem strResolve_rustJoin (a b : Str) (ha1 : a.head? = some '/') (ha2 : dotFreeB a = true)
    (hb1 : ¬b.head? = some '/') (hb2 : dotFreeB b = true) :
    strResolve (rustJoin a b) = some (relComps a ++ relComps b) := by
  have hane : a ≠ [] := by intro h; rw [h] at ha1; cases ha1
  unfold rustJoin
  rw [if_neg hb1, if_neg hane]
  by_cases h : endsSlash a = true
  · rw [if_pos h, strResolve_eq_relComps _ (by rw [head?_append_left a b hane]; exact ha1)
      (dotFreeB_append a b ha2 hb2), relComps_append_of_endsSlash a b h]
  · rw [if_neg h, strResolve_eq_relComps _ (by rw [head?_append_left a _ hane]; exact ha1)
      (dotFreeB_append a ('/' :: b) ha2 (dotFreeB_cons_slash b hb2)), relComps_append_slash]

/-! ## Lemmas: tree lookups and child updates -/

theorem lookupNode_dir_cons (cs : List (Str × FsTree)) (n : Str) (rest : List Str) :
    lookupNode (FsTree.dir cs) (n :: rest) =
      match lookupChild cs n with
      | some c => lookupNode c rest
      | none => none := rfl

theorem lookupChild_nil (k : Str) : lookupChild [] k = none := rfl

theorem lookupChild_cons (m : Str) (w : FsTree) (rest : List (Str × FsTree)) (k : Str) :
    lookupChild ((m, w) :: rest) k = if m = k then some w else lookupChild rest k := by
  unfold lookupChild
  by_cases h : m = k
  · rw [if_pos h, List.find?_cons_of_pos _ (by simpa using h)]
    rfl
  · rw [if_neg h, List.find?_cons_of_neg _ (by simpa using h)]

theorem lookupChild_assocSet_self (cs : List (Str × FsTree)) (n : Str) (v : FsTree) :
    lookupChild (assocSet cs n v) n = some v := by
  induction cs with
  | nil => rw [show assocSet [] n v = [(n, v)] from rfl, lookupChild_cons, if_pos rfl]
  | cons p rest ih =>
    obtain ⟨m, w⟩ := p
    unfold assocSet
    by_cases h : m = n
    · rw [if_pos h, lookupChild_cons, if_pos rfl]
    · rw [if_neg h, lookupChild_cons, if_neg h]
      exact ih

theorem lookupChild_assocSet_ne (cs : List (Str × FsTree)) (n : Str) (v : FsTree)
    (m : Str) (h : ¬m = n) :
    lookupChild (assocSet cs n v) m = lookupChild cs m := by
  induction cs with
  | nil =>
    rw [show assocSet [] n v = [(n, v)] from rfl, lookupChild_cons,
      if_neg (fun hc : n = m => h hc.symm)]
  | cons p rest ih =>
    obtain ⟨k, w⟩ := p
    unfold assocSet
    by_cases hk : k = n
    · rw [if_pos hk, lookupChild_cons, lookupChild_cons,
        if_neg (fun hc : n = m => h hc.symm), if_neg (by rw [hk]; exact fun hc => h hc.symm)]
    · rw [if_neg hk, lookupChild_cons, lookupChild_cons]
      by_cases hm : k = m
      · rw [if_pos hm, if_pos hm]
      · rw [if_neg hm, if_neg hm]
        exact ih

theorem assocSet_of_lookup (cs : List (Str × FsTree)) (n : Str) (v : FsTree)
    (h : lookupChild cs n = some v) : assocSet cs n v = cs := by
  induction cs with
  | nil => rw [lookupChild_nil] at h; cases h
  | cons p rest ih =>
    obtain ⟨m, w⟩ := p
    rw [lookupChild_cons] at h
    unfold assocSet
    by_cases hm : m = n
    · rw [if_pos hm]
      rw [if_pos hm] at h
      rw [← hm, Option.some_inj.mp h]
    · rw [if_neg hm]
      rw [if_neg hm] at h
      rw [ih h]

theorem lookupNode_append (fs : FsTree) (p q : List Str) :
    lookupNode fs (p ++ q) = (lookupNode fs p).bind fun t => lookupNode t q := by
  induction p generalizing fs with
  | nil => cases fs <;> rfl
  | cons n p ih =>
    cases fs with
    | file b => rfl
    | other => rfl
    | dir cs =>
      rw [List.cons_append, lookupNode_dir_cons, lookupNode_dir_cons]
      cases lookupChild cs n with
      | none => simp
      | some c => exact ih c

theorem lookup_strict_prefix (fs : FsTree) (p : List Str) (x : Str) (r : List Str)
    (n : FsTree) (h : lookupNode fs (p ++ x :: r) = some n) :
    ∃ cs, lookupNode fs p = some (FsTree.dir cs) := by
  rw [lookupNode_append] at h
  cases hp : lookupNode fs p with
  | none => rw [hp] at h; cases h
  | some t =>
    rw [hp] at h
    cases t with
    | file b =>
      rw [show (Option.bind (some (FsTree.file b)) fun t => lookupNode t (x :: r))
          = none from rfl] at h
      cases h
    | other =>
      rw [show (Option.bind (some FsTree.other) fun t => lookupNode t (x :: r))
          = none from rfl] at h
      cases h
    | dir cs => exact ⟨cs, rfl⟩

/-! ## Lemmas: the file-write operation -/

theorem writeFileAt_nil (fs : FsTree) (b : Bytes) : writeFileAt fs [] b = none := by
  cases fs <;> rfl

theorem writeFileAt_single (cs : List (Str × FsTree)) (n : Str) (b : Bytes) :
    writeFileAt (FsTree.dir cs) [n] b =
      match lookupChild cs n with
      | some (FsTree.dir _) => none
      | some FsTree.other => none
      | _ => some (FsTree.dir (assocSet cs n (FsTree.file b))) := rfl

theorem writeFileAt_cons₂ (cs : List (Str × FsTree)) (n m : Str) (rest : List Str)
    (b : Bytes) :
    writeFileAt (FsTree.dir cs) (n :: m :: rest) b =
      match lookupChild cs n with
      | some c => (writeFileAt c (m :: rest) b).map fun c' => FsTree.dir (assocSet cs n c')
      | none => none := rfl

theorem writeFileAt_not_dir (fs : FsTree) (n : Str) (rest : List Str) (b : Bytes)
    (h : ∀ cs, fs ≠ FsTree.dir cs) : writeFileAt fs (n :: rest) b = none := by
  cases fs with
  | dir cs => exact absurd rfl (h cs)
  | file b₀ => cases rest <;> rfl
  | other => cases rest <;> rfl

theorem writeFileAt_shape (q : List Str) : ∀ fs b fs', writeFileAt fs q b = some fs' →
    ∃ cs n rest c', q = n :: rest ∧ fs = FsTree.dir cs ∧
      fs' = FsTree.dir (assocSet cs n c') ∧
      ((rest = [] ∧ c' = FsTree.file b ∧
          ((lookupChild cs n = none) ∨ ∃ b₀, lookupChild cs n = some (FsTree.file b₀))) ∨
        (rest ≠ [] ∧ ∃ c, lookupChild cs n = some c ∧ writeFileAt c rest b = some c')) := by
  intro fs b fs' h
  cases q with
  | nil => rw [writeFileAt_nil] at h; cases h
  | cons n rest =>
    cases fs with
    | file b₀ => rw [writeFileAt_not_dir _ _ _ _ (by intro cs hcs; cases hcs)] at h; cases h
    | other => rw [writeFileAt_not_dir _ _ _ _ (by intro cs hcs; cases hcs)] at h; cases h
    | dir cs =>
      cases rest with
      | nil =>
        rw [writeFileAt_single] at h
        refine ⟨cs, n, [], FsTree.file b, rfl, rfl, ?_, ?_⟩
        · cases hc : lookupChild cs n with
          | none => rw [hc] at h; simpa using h.symm
          | some c =>
            cases c with
            | file b₀ => rw [hc] at h; simpa using h.symm
            | dir cs₂ => rw [hc] at h; cases h
            | other => rw [hc] at h; cases h
        · refine Or.inl ⟨rfl, rfl, ?_⟩
          cases hc : lookupChild cs n with
          | none => exact Or.inl rfl
          | some c =>
            cases c with
            | file b₀ => exact Or.inr ⟨b₀, rfl⟩
            | dir cs₂ => rw [hc] at h; cases h
            | other => rw [hc] at h; cases h
      | cons m rest₂ =>
        rw [writeFileAt_cons₂] at h
        cases hc : lookupChild cs n with
        | none => rw [hc] at h; cases h
        | some c =>
          rw [hc] at h
          have h₂ : (writeFileAt c (m :: rest₂) b).map
              (fun c' => FsTree.dir (assocSet cs n c')) = some fs' := h
          cases hw : writeFileAt c (m :: rest₂) b with
          | none => rw [hw] at h₂; cases h₂
          | some c' =>
            rw [hw] at h₂
            refine ⟨cs, n, m :: rest₂, c', rfl, rfl, by simpa using h₂.symm,
              Or.inr ⟨by simp, c, hc, hw⟩⟩

theorem writeFileAt_lookup_self (q : List Str) : ∀ fs b fs', writeFileAt fs q b = some fs' →
    lookupNode fs' q = some (FsTree.file b) := by
  induction q with
  | nil => intro fs b fs' h; rw [writeFileAt_nil] at h; cases h
  | cons n rest ih =>
    intro fs b fs' h
    obtain ⟨cs, n', rest', c', hq, hfs, hfs', hbranch⟩ := writeFileAt_shape (n :: rest) fs b fs' h
    rw [List.cons.injEq] at hq
    obtain ⟨rfl, rfl⟩ := hq
    subst hfs hfs'
    rw [lookupNode_dir_cons, lookupChild_assocSet_self]
    rcases hbranch with ⟨hrest, hc', hold⟩ | ⟨hne, c, hc, hw⟩
    · subst hrest hc'
      rfl
    · exact ih c b c' hw

theorem writeFileAt_val (q : List Str) : ∀ fs b fs', writeFileAt fs q b = some fs' →
    ∀ p, ¬(p <+: q) → lookupNode fs' p = lookupNode fs p := by
  induction q with
  | nil => intro fs b fs' h; rw [writeFileAt_nil] at h; cases h
  | cons n rest ih =>
    intro fs b fs' h p hp
    obtain ⟨cs, n', rest', c', hq, hfs, hfs', hbranch⟩ := writeFileAt_shape (n :: rest) fs b fs' h
    rw [List.cons.injEq] at hq
    obtain ⟨rfl, rfl⟩ := hq
    subst hfs hfs'
    cases p with
    | nil => exact absurd List.nil_prefix hp
    | cons m p₂ =>
      by_cases hm : m = n
      · subst hm
        have hp₂ : ¬(p₂ <+: rest) := fun hc => hp (List.cons_prefix_cons.mpr ⟨rfl, hc⟩)
        rw [lookupNode_dir_cons, lookupNode_dir_cons, lookupChild_assocSet_self]
        rcases hbranch with ⟨hrest, hc', hold⟩ | ⟨hne, c, hc, hw⟩
        · subst hrest hc'
          cases p₂ with
          | nil => exact absurd List.nil_prefix hp₂
          | cons x p₃ =>
            rcases hold with hnone | ⟨b₀, hsome⟩
            · rw [hnone]; rfl
            · rw [hsome]; rfl
        · rw [hc]
          exact ih c b c' hw p₂ hp₂
      · rw [lookupNode_dir_cons, lookupNode_dir_cons, lookupChild_assocSet_ne cs n c' m hm]

theorem writeFileAt_target_pre (q : List Str) : ∀ fs b fs', writeFileAt fs q b = some fs' →
    lookupNode fs q = none ∨ ∃ b₀, lookupNode fs q = some (FsTree.file b₀) := by
  induction q with
  | nil => intro fs b fs' h; rw [writeFileAt_nil] at h; cases h
  | cons n rest ih =>
    intro fs b fs' h
    obtain ⟨cs, n', rest', c', hq, hfs, hfs', hbranch⟩ := writeFileAt_shape (n :: rest) fs b fs' h
    rw [List.cons.injEq] at hq
    obtain ⟨rfl, rfl⟩ := hq
    subst hfs hfs'
    rw [lookupNode_dir_cons]
    rcases hbranch with ⟨hrest, hc', hold⟩ | ⟨hne, c, hc, hw⟩
    · subst hrest
      rcases hold with hnone | ⟨b₀, hsome⟩
      · rw [hnone]; exact Or.inl rfl
      · rw [hsome]; exact Or.inr ⟨b₀, rfl⟩
    · rw [hc]
      exact ih c b c' hw

theorem writeFileAt_prefix_dirs (q : List Str) : ∀ fs b fs', writeFileAt fs q b = some fs' →
    ∀ p, p <+: q → p ≠ q →
      (∃ cs₂, lookupNode fs p = some (FsTree.dir cs₂)) ∧
      (∃ cs₂, lookupNode fs' p = some (FsTree.dir cs₂)) := by
  induction q with
  | nil => intro fs b fs' h; rw [writeFileAt_nil] at h; cases h
  | cons n rest ih =>
    intro fs b fs' h p hpre hne
    obtain ⟨cs, n', rest', c', hq, hfs, hfs', hbranch⟩ := writeFileAt_shape (n :: rest) fs b fs' h
    rw [List.cons.injEq] at hq
    obtain ⟨rfl, rfl⟩ := hq
    subst hfs hfs'
    cases p with
    | nil => exact ⟨⟨cs, rfl⟩, ⟨assocSet cs n c', rfl⟩⟩
    | cons m p₂ =>
      obtain ⟨rfl, hp₂⟩ := List.cons_prefix_cons.mp hpre
      have hne₂ : p₂ ≠ rest := fun hc => hne (by rw [hc])
      rw [lookupNode_dir_cons, lookupNode_dir_cons, lookupChild_assocSet_self]
      rcases hbranch with ⟨hrest, hc', hold⟩ | ⟨hne₃, c, hc, hw⟩
      · subst hrest
        rw [List.prefix_nil] at hp₂
        exact absurd hp₂ hne₂
      · rw [hc]
        exact ih c b c' hw p₂ hp₂ hne₂

theorem writeFileAt_below_none (q : List Str) (fs : FsTree) (b : Bytes) (fs' : FsTree)
    (h : writeFileAt fs q b = some fs') (r : List Str) (hr : r ≠ []) :
    lookupNode fs (q ++ r) = none ∧ lookupNode fs' (q ++ r) = none := by
  obtain ⟨x, r₂, rfl⟩ : ∃ x r₂, r = x :: r₂ := by
    cases r with
    | nil => exact absurd rfl hr
    | cons x r₂ => exact ⟨x, r₂, rfl⟩
  constructor
  · rw [lookupNode_append]
    rcases writeFileAt_target_pre q fs b fs' h with hnone | ⟨b₀, hsome⟩
    · rw [hnone]; rfl
    · rw [hsome]; rfl
  · rw [lookupNode_append, writeFileAt_lookup_self q fs b fs' h]
    rfl

theorem kindAt_writeFileAt_self (q : List Str) (fs : FsTree) (b : Bytes) (fs' : FsTree)
    (h : writeFileAt fs q b = some fs') : kindAt fs' q = some (NodeKind.fileK b) := by
  unfold kindAt
  rw [writeFileAt_lookup_self q fs b fs' h]
  rfl

theorem kindAt_eq_of_lookup_eq (fs fs' : FsTree) (p : List Str)
    (h : lookupNode fs' p = lookupNode fs p) : kindAt fs' p = kindAt fs p := by
  unfold kindAt
  rw [h]

theorem writeFileAt_dir_pres (q : List Str) (fs : FsTree) (b : Bytes) (fs' : FsTree)
    (h : writeFileAt fs q b = some fs') (p : List Str)
    (hp : kindAt fs p = some NodeKind.dirK) : kindAt fs' p = some NodeKind.dirK := by
  by_cases hpre : p <+: q
  · by_cases heq : p = q
    · subst heq
      rcases writeFileAt_target_pre p fs b fs' h with hnone | ⟨b₀, hsome⟩
      · unfold kindAt at hp; rw [hnone] at hp; cases hp
      · unfold kindAt at hp; rw [hsome] at hp; cases hp
    · obtain ⟨hfs, hfs'⟩ := writeFileAt_prefix_dirs q fs b fs' h p hpre heq
      obtain ⟨cs₂, hcs⟩ := hfs'
      unfold kindAt
      rw [hcs]
      rfl
  · rw [kindAt_eq_of_lookup_eq fs fs' p (writeFileAt_val q fs b fs' h p hpre)]
    exact hp

theorem writeFileAt_file_pres (q : List Str) (fs : FsTree) (b : Bytes) (fs' : FsTree)
    (h : writeFileAt fs q b = some fs') (p : List Str) (b₀ : Bytes)
    (hp : kindAt fs p = some (NodeKind.fileK b₀)) :
    ∃ b', kindAt fs' p = some (NodeKind.fileK b') := by
  by_cases hpre : p <+: q
  · by_cases heq : p = q
    · subst heq
      exact ⟨b, kindAt_writeFileAt_self p fs b fs' h⟩
    · obtain ⟨hfs, hfs'⟩ := writeFileAt_prefix_dirs q fs b fs' h p hpre heq
      obtain ⟨cs₂, hcs⟩ := hfs
      unfold kindAt at hp
      rw [hcs] at hp
      cases hp
  · refine ⟨b₀, ?_⟩
    rw [kindAt_eq_of_lookup_eq fs fs' p (writeFileAt_val q fs b fs' h p hpre)]
    exact hp

theorem writeFileAt_rev_file (q : List Str) (fs : FsTree) (b : Bytes) (fs' : FsTree)
    (h : writeFileAt fs q b = some fs') (p : List Str) (c : Bytes) (hne : p ≠ q)
    (hp : kindAt fs' p = some (NodeKind.fileK c)) : kindAt fs p = some (NodeKind.fileK c) := by
  by_cases hpre : p <+: q
  · obtain ⟨hfs, hfs'⟩ := writeFileAt_prefix_dirs q fs b fs' h p hpre hne
    obtain ⟨cs₂, hcs⟩ := hfs'
    unfold kindAt at hp
    rw [hcs] at hp
    cases hp
  · rw [kindAt_eq_of_lookup_eq fs fs' p (writeFileAt_val q fs b fs' h p hpre)] at hp
    exact hp

theorem writeFileAt_isSome_of_file (q : List Str) : ∀ fs b b₀,
    lookupNode fs q = some (FsTree.file b₀) → q ≠ [] → (writeFileAt fs q b).isSome = true := by
  induction q with
  | nil => intro fs b b₀ h hq; exact absurd rfl hq
  | cons n rest ih =>
    intro fs b b₀ h _
    cases fs with
    | file b₁ => rw [show lookupNode (FsTree.file b₁) (n :: rest) = none from rfl] at h; cases h
    | other => rw [show lookupNode FsTree.other (n :: rest) = none from rfl] at h; cases h
    | dir cs =>
      rw [lookupNode_dir_cons] at h
      cases hc : lookupChild cs n with
      | none => rw [hc] at h; cases h
      | some c =>
        rw [hc] at h
        cases rest with
        | nil =>
          have hcf : c = FsTree.file b₀ := by
            have h₂ : lookupNode c [] = some (FsTree.file b₀) := h
            simpa [lookupNode] using h₂
          rw [writeFileAt_single, hc, hcf]
          rfl
        | cons m rest₂ =>
          have h₂ : lookupNode c (m :: rest₂) = some (FsTree.file b₀) := h
          have hsome := ih c b b₀ h₂ (by simp)
          rw [writeFileAt_cons₂, hc]
          show (Option.map (fun c' => FsTree.dir (assocSet cs n c'))
            (writeFileAt c (m :: rest₂) b)).isSome = true
          cases hw : writeFileAt c (m :: rest₂) b with
          | none => rw [hw] at hsome; cases hsome
          | some c₂ => rfl

/-! ## Lemmas: the directory-creation operation -/

theorem createDirAll_nil_dir (cs : List (Str × FsTree)) :
    createDirAll (FsTree.dir cs) [] = some (FsTree.dir cs) := rfl

theorem createDirAll_cons_dir (cs : List (Str × FsTree)) (n : Str) (rest : List Str) :
    createDirAll (FsTree.dir cs) (n :: rest) =
      match lookupChild cs n with
      | some c => (createDirAll c rest).map fun c' => FsTree.dir (assocSet cs n c')
      | none => (createDirAll (FsTree.dir []) rest).map fun c' => FsTree.dir (assocSet cs n c') :=
  rfl

theorem createDirAll_not_dir (fs : FsTree) (q : List Str)
    (h : ∀ cs, fs ≠ FsTree.dir cs) : createDirAll fs q = none := by
  cases fs with
  | dir cs => exact absurd rfl (h cs)
  | file b => cases q <;> rfl
  | other => cases q <;> rfl

theorem createDirAll_shape (q : List Str) : ∀ fs fs', createDirAll fs q = some fs' →
    (q = [] ∧ ∃ cs, fs = FsTree.dir cs ∧ fs' = fs) ∨
    (∃ cs n rest c' cold, q = n :: rest ∧ fs = FsTree.dir cs ∧
      fs' = FsTree.dir (assocSet cs n c') ∧ createDirAll cold rest = some c' ∧
      (lookupChild cs n = some cold ∨ (lookupChild cs n = none ∧ cold = FsTree.dir []))) := by
  intro fs fs' h
  cases fs with
  | file b => rw [createDirAll_not_dir _ _ (by intro cs hcs; cases hcs)] at h; cases h
  | other => rw [createDirAll_not_dir _ _ (by intro cs hcs; cases hcs)] at h; cases h
  | dir cs =>
    cases q with
    | nil =>
      rw [createDirAll_nil_dir] at h
      exact Or.inl ⟨rfl, cs, rfl, (Option.some_inj.mp h).symm⟩
    | cons n rest =>
      rw [createDirAll_cons_dir] at h
      cases hc : lookupChild cs n with
      | some c =>
        rw [hc] at h
        have h₂ : (createDirAll c rest).map (fun c' => FsTree.dir (assocSet cs n c'))
            = some fs' := h
        cases hw : createDirAll c rest with
        | none => rw [hw] at h₂; cases h₂
        | some c' =>
          rw [hw] at h₂
          exact Or.inr ⟨cs, n, rest, c', c, rfl, rfl, by simpa using h₂.symm, hw, Or.inl hc⟩
      | none =>
        rw [hc] at h
        have h₂ : (createDirAll (FsTree.dir []) rest).map
            (fun c' => FsTree.dir (assocSet cs n c')) = some fs' := h
        cases hw : createDirAll (FsTree.dir []) rest with
        | none => rw [hw] at h₂; cases h₂
        | some c' =>
          rw [hw] at h₂
          exact Or.inr ⟨cs, n, rest, c', FsTree.dir [], rfl, rfl, by simpa using h₂.symm, hw,
            Or.inr ⟨hc, rfl⟩⟩

theorem createDirAll_self_dir (q : List Str) : ∀ fs fs', createDirAll fs q = some fs' →
    ∃ cs₂, lookupNode fs' q = some (FsTree.dir cs₂) := by
  induction q with
  | nil =>
    intro fs fs' h
    rcases createDirAll_shape [] fs fs' h with ⟨_, cs, hfs, hfs'⟩ | ⟨_, _, _, _, _, hq, _⟩
    · subst hfs hfs'; exact ⟨cs, rfl⟩
    · cases hq
  | cons n rest ih =>
    intro fs fs' h
    rcases createDirAll_shape (n :: rest) fs fs' h with ⟨hq, _⟩ |
      ⟨cs, n', rest', c', cold, hq, hfs, hfs', hw, hold⟩
    · cases hq
    · rw [List.cons.injEq] at hq
      obtain ⟨rfl, rfl⟩ := hq
      subst hfs hfs'
      obtain ⟨cs₂, hcs₂⟩ := ih cold c' hw
      rw [lookupNode_dir_cons, lookupChild_assocSet_self]
      exact ⟨cs₂, hcs₂⟩

theorem createDirAll_val (q : List Str) : ∀ fs fs', createDirAll fs q = some fs' →
    ∀ p, ¬(p <+: q) → lookupNode fs' p = lookupNode fs p := by
  induction q with
  | nil =>
    intro fs fs' h p hp
    rcases createDirAll_shape [] fs fs' h with ⟨_, cs, hfs, hfs'⟩ | ⟨_, _, _, _, _, hq, _⟩
    · rw [hfs']
    · cases hq
  | cons n rest ih =>
    intro fs fs' h p hp
    rcases createDirAll_shape (n :: rest) fs fs' h with ⟨hq, _⟩ |
      ⟨cs, n', rest', c', cold, hq, hfs, hfs', hw, hold⟩
    · cases hq
    · rw [List.cons.injEq] at hq
      obtain ⟨rfl, rfl⟩ := hq
      subst hfs hfs'
      cases p with
      | nil => exact absurd List.nil_prefix hp
      | cons m p₂ =>
        by_cases hm : m = n
        · subst hm
          have hp₂ : ¬(p₂ <+: rest) := fun hc => hp (List.cons_prefix_cons.mpr ⟨rfl, hc⟩)
          rw [lookupNode_dir_cons, lookupNode_dir_cons, lookupChild_assocSet_self]
          rcases hold with hsome | ⟨hnone, hcold⟩
          · rw [hsome]
            show lookupNode c' p₂ = lookupNode cold p₂
            exact ih cold c' hw p₂ hp₂
          · rw [hnone]
            show lookupNode c' p₂ = none
            rw [ih cold c' hw p₂ hp₂, hcold]
            cases p₂ with
            | nil => exact absurd List.nil_prefix hp₂
            | cons x p₃ => rfl
        · rw [lookupNode_dir_cons, lookupNode_dir_cons, lookupChild_assocSet_ne cs n c' m hm]

theorem createDirAll_kind_pres (q : List Str) : ∀ fs fs', createDirAll fs q = some fs' →
    ∀ p k, kindAt fs p = some k → kindAt fs' p = some k := by
  induction q with
  | nil =>
    intro fs fs' h p k hk
    rcases createDirAll_shape [] fs fs' h with ⟨_, cs, hfs, hfs'⟩ | ⟨_, _, _, _, _, hq, _⟩
    · subst hfs hfs'; exact hk
    · cases hq
  | cons n rest ih =>
    intro fs fs' h p k hk
    rcases createDirAll_shape (n :: rest) fs fs' h with ⟨hq, _⟩ |
      ⟨cs, n', rest', c', cold, hq, hfs, hfs', hw, hold⟩
    · cases hq
    · rw [List.cons.injEq] at hq
      obtain ⟨rfl, rfl⟩ := hq
      subst hfs hfs'
      cases p with
      | nil => exact hk
      | cons m p₂ =>
        by_cases hm : m = n
        · subst hm
          unfold kindAt at hk ⊢
          rw [lookupNode_dir_cons, lookupChild_assocSet_self]
          rcases hold with hsome | ⟨hnone, hcold⟩
          · rw [lookupNode_dir_cons, hsome] at hk
            exact ih cold c' hw p₂ k hk
          · rw [lookupNode_dir_cons, hnone] at hk
            cases hk
        · unfold kindAt at hk ⊢
          rw [lookupNode_dir_cons, lookupChild_assocSet_ne cs n c' m hm,
            ← lookupNode_dir_cons]
          exact hk

theorem createDirAll_no_new_file (q : List Str) : ∀ fs fs', createDirAll fs q = some fs' →
    ∀ p c, kindAt fs' p = some (NodeKind.fileK c) → kindAt fs p = some (NodeKind.fileK c) := by
  induction q with
  | nil =>
    intro fs fs' h p c hk
    rcases createDirAll_shape [] fs fs' h with ⟨_, cs, hfs, hfs'⟩ | ⟨_, _, _, _, _, hq, _⟩
    · subst hfs hfs'; exact hk
    · cases hq
  | cons n rest ih =>
    intro fs fs' h p c hk
    rcases createDirAll_shape (n :: rest) fs fs' h with ⟨hq, _⟩ |
      ⟨cs, n', rest', c', cold, hq, hfs, hfs', hw, hold⟩
    · cases hq
    · rw [List.cons.injEq] at hq
      obtain ⟨rfl, rfl⟩ := hq
      subst hfs hfs'
      cases p with
      | nil => unfold kindAt at hk; rw [show lookupNode (FsTree.dir (assocSet cs n c')) []
          = some (FsTree.dir (assocSet cs n c')) from rfl] at hk; cases hk
      | cons m p₂ =>
        by_cases hm : m = n
        · subst hm
          unfold kindAt at hk ⊢
          rw [lookupNode_dir_cons, lookupChild_assocSet_self] at hk
          have hik := ih cold c' hw p₂ c hk
          rcases hold with hsome | ⟨hnone, hcold⟩
          · rw [lookupNode_dir_cons, hsome]
            exact hik
          · subst hcold
            unfold kindAt at hik
            exfalso
            cases p₂ with
            | nil => rw [show lookupNode (FsTree.dir []) [] = some (FsTree.dir []) from rfl]
                at hik; cases hik
            | cons x p₃ =>
              rw [show lookupNode (FsTree.dir []) (x :: p₃) = none from rfl] at hik
              cases hik
        · unfold kindAt at hk ⊢
          rw [lookupNode_dir_cons, lookupChild_assocSet_ne cs n c' m hm] at hk
          rw [lookupNode_dir_cons]
          exact hk

theorem createDirAll_noop (q : List Str) : ∀ fs d, lookupNode fs q = some (FsTree.dir d) →
    createDirAll fs q = some fs := by
  induction q with
  | nil =>
    intro fs d h
    have hfs : fs = FsTree.dir d := by simpa [lookupNode] using h
    subst hfs
    rfl
  | cons n rest ih =>
    intro fs d h
    cases fs with
    | file b => rw [show lookupNode (FsTree.file b) (n :: rest) = none from rfl] at h; cases h
    | other => rw [show lookupNode FsTree.other (n :: rest) = none from rfl] at h; cases h
    | dir cs =>
      rw [lookupNode_dir_cons] at h
      cases hc : lookupChild cs n with
      | none => rw [hc] at h; cases h
      | some c =>
        rw [hc] at h
        have h₂ : lookupNode c rest = some (FsTree.dir d) := h
        rw [createDirAll_cons_dir, hc]
        show Option.map (fun c' => FsTree.dir (assocSet cs n c')) (createDirAll c rest)
          = some (FsTree.dir cs)
        rw [ih c d h₂]
        rw [show Option.map (fun c' => FsTree.dir (assocSet cs n c')) (some c)
          = some (FsTree.dir (assocSet cs n c)) from rfl, assocSet_of_lookup cs n c hc]

/-! ## Lemmas: invariant preservation by single operations -/

theorem Inv_writeFileAt (fs₀ : FsTree) (srcs : List (List Str)) (fs fs' : FsTree)
    (q : List Str) (c : Bytes) (hw : writeFileAt fs q c = some fs')
    (hInv : Inv fs₀ srcs fs) (hsafe : SafeWrite fs₀ srcs q c) : Inv fs₀ srcs fs' := by
  intro p k hunder hk0
  have hk := hInv p k hunder hk0
  by_cases hpq : p = q
  · subst hpq
    rcases writeFileAt_target_pre p fs c fs' hw with hnone | ⟨b₁, hsome⟩
    · unfold kindAt at hk; rw [hnone] at hk; cases hk
    · unfold kindAt at hk
      rw [hsome] at hk
      have hkk : k = NodeKind.fileK b₁ := by simpa [kindOf] using hk.symm
      have hbc : b₁ = c := hsafe hunder b₁ (by rw [hk0, hkk])
      rw [hkk, hbc]
      exact kindAt_writeFileAt_self p fs c fs' hw
  · by_cases hpre : p <+: q
    · obtain ⟨⟨csa, hcsa⟩, ⟨csb, hcsb⟩⟩ := writeFileAt_prefix_dirs q fs c fs' hw p hpre hpq
      have hkd : k = NodeKind.dirK := by
        unfold kindAt at hk
        rw [hcsa] at hk
        simpa [kindOf] using hk.symm
      unfold kindAt
      rw [hcsb, hkd]
      rfl
    · by_cases hqp : q <+: p
      · obtain ⟨r, rfl⟩ := hqp
        have hr : r ≠ [] := by rintro rfl; exact hpq (by simp)
        obtain ⟨hn1, hn2⟩ := writeFileAt_below_none q fs c fs' hw r hr
        unfold kindAt at hk
        rw [hn1] at hk
        cases hk
      · rw [kindAt_eq_of_lookup_eq fs fs' p (writeFileAt_val q fs c fs' hw p hpre)]
        exact hk

theorem Inv_createDirAll (fs₀ : FsTree) (srcs : List (List Str)) (fs fs' : FsTree)
    (q : List Str) (hw : createDirAll fs q = some fs') (hInv : Inv fs₀ srcs fs) :
    Inv fs₀ srcs fs' := by
  intro p k hunder hk0
  exact createDirAll_kind_pres q fs fs' hw p k (hInv p k hunder hk0)

/-! ## Lemmas: well-formed trees are preserved by the operations -/

theorem wfChildren_nil : wfChildren [] = true := by simp [wfChildren]

theorem wfChildren_cons_iff (m : Str) (w : FsTree) (rest : List (Str × FsTree)) :
    wfChildren ((m, w) :: rest) = true ↔
      okCompName m ∧ wfTree w = true ∧ nameFresh m rest = true ∧ wfChildren rest = true := by
  cases w with
  | file b => simp [wfChildren, wfTree, and_assoc]
  | other => simp [wfChildren, wfTree, and_assoc]
  | dir ccs =>
    show wfChildren ((m, FsTree.dir ccs) :: rest) = true ↔
      okCompName m ∧ wfChildren ccs = true ∧ nameFresh m rest = true ∧ wfChildren rest = true
    rw [show wfChildren ((m, FsTree.dir ccs) :: rest)
        = (decide (okCompName m) && wfChildren ccs && nameFresh m rest && wfChildren rest)
      from by simp [wfChildren]]
    constructor
    · intro h
      simp only [Bool.and_eq_true, decide_eq_true_eq] at h
      exact ⟨h.1.1.1, h.1.1.2, h.1.2, h.2⟩
    · intro h
      simp only [Bool.and_eq_true, decide_eq_true_eq]
      exact ⟨⟨⟨h.1, h.2.1⟩, h.2.2.1⟩, h.2.2.2⟩

theorem nameFresh_assocSet (rest : List (Str × FsTree)) (k n : Str) (v : FsTree)
    (hk : ¬k = n) (h : nameFresh k rest = true) : nameFresh k (assocSet rest n v) = true := by
  induction rest with
  | nil =>
    show nameFresh k [(n, v)] = true
    unfold nameFresh
    rw [if_neg (fun hc : n = k => hk hc.symm)]
    rfl
  | cons p rest₂ ih =>
    obtain ⟨m, w⟩ := p
    unfold nameFresh at h
    by_cases hm : m = k
    · rw [if_pos hm] at h; cases h
    · rw [if_neg hm] at h
      unfold assocSet
      by_cases hmn : m = n
      · rw [if_pos hmn]
        unfold nameFresh
        rw [if_neg (fun hc : n = k => hk hc.symm)]
        exact h
      · rw [if_neg hmn]
        unfold nameFresh
        rw [if_neg hm]
        exact ih h

theorem wfChildren_assocSet (cs : List (Str × FsTree)) (n : Str) (v : FsTree)
    (h : wfChildren cs = true) (hn : okCompName n) (hv : wfTree v = true) :
    wfChildren (assocSet cs n v) = true := by
  induction cs with
  | nil =>
    show wfChildren [(n, v)] = true
    rw [wfChildren_cons_iff]
    exact ⟨hn, hv, rfl, wfChildren_nil⟩
  | cons p rest ih =>
    obtain ⟨m, w⟩ := p
    rw [wfChildren_cons_iff] at h
    obtain ⟨hm, hw, hfresh, hrest⟩ := h
    unfold assocSet
    by_cases hmn : m = n
    · rw [if_pos hmn]
      rw [wfChildren_cons_iff]
      exact ⟨hn, hv, by rw [← hmn]; exact hfresh, hrest⟩
    · rw [if_neg hmn]
      rw [wfChildren_cons_iff]
      exact ⟨hm, hw, nameFresh_assocSet rest m n v hmn hfresh, ih hrest⟩

theorem wfTree_lookupChild (cs : List (Str × FsTree)) (n : Str) (c : FsTree)
    (h : wfChildren cs = true) (hc : lookupChild cs n = some c) : wfTree c = true := by
  induction cs with
  | nil => rw [lookupChild_nil] at hc; cases hc
  | cons p rest ih =>
    obtain ⟨m, w⟩ := p
    rw [wfChildren_cons_iff] at h
    rw [lookupChild_cons] at hc
    by_cases hm : m = n
    · rw [if_pos hm] at hc
      rw [← Option.some_inj.mp hc]
      exact h.2.1
    · rw [if_neg hm] at hc
      exact ih h.2.2.2 hc

theorem wfTree_subtree (p : List Str) : ∀ fs t, wfTree fs = true →
    lookupNode fs p = some t → wfTree t = true := by
  induction p with
  | nil =>
    intro fs t hwf h
    have : fs = t := by simpa [lookupNode] using h
    rw [← this]
    exact hwf
  | cons n rest ih =>
    intro fs t hwf h
    cases fs with
    | file b => rw [show lookupNode (FsTree.file b) (n :: rest) = none from rfl] at h; cases h
    | other => rw [show lookupNode FsTree.other (n :: rest) = none from rfl] at h; cases h
    | dir cs =>
      rw [lookupNode_dir_cons] at h
      cases hc : lookupChild cs n with
      | none => rw [hc] at h; cases h
      | some c =>
        rw [hc] at h
        exact ih c t (wfTree_lookupChild cs n c hwf hc) h

theorem wfTree_writeFileAt (q : List Str) : ∀ fs b fs', wfTree fs = true →
    (∀ c ∈ q, okCompName c) → writeFileAt fs q b = some fs' → wfTree fs' = true := by
  induction q with
  | nil => intro fs b fs' _ _ h; rw [writeFileAt_nil] at h; cases h
  | cons n rest ih =>
    intro fs b fs' hwf hok h
    obtain ⟨cs, n', rest', c', hq, hfs, hfs', hbranch⟩ := writeFileAt_shape (n :: rest) fs b fs' h
    rw [List.cons.injEq] at hq
    obtain ⟨rfl, rfl⟩ := hq
    subst hfs hfs'
    have hcs : wfChildren cs = true := hwf
    have hn : okCompName n := hok n (List.mem_cons_self n rest)
    show wfChildren (assocSet cs n c') = true
    rcases hbranch with ⟨hrest, hc', hold⟩ | ⟨hne, c, hc, hw⟩
    · subst hc'
      exact wfChildren_assocSet cs n (FsTree.file b) hcs hn rfl
    · have hwc : wfTree c = true := wfTree_lookupChild cs n c hcs hc
      have hwc' : wfTree c' = true :=
        ih c b c' hwc (fun x hx => hok x (List.mem_cons_of_mem n hx)) hw
      exact wfChildren_assocSet cs n c' hcs hn hwc'

theorem wfTree_createDirAll (q : List Str) : ∀ fs fs', wfTree fs = true →
    (∀ c ∈ q, okCompName c) → createDirAll fs q = some fs' → wfTree fs' = true := by
  induction q with
  | nil =>
    intro fs fs' hwf _ h
    rcases createDirAll_shape [] fs fs' h with ⟨_, cs, hfs, hfs'⟩ | ⟨_, _, _, _, _, hq, _⟩
    · rw [hfs']; exact hwf
    · cases hq
  | cons n rest ih =>
    intro fs fs' hwf hok h
    rcases createDirAll_shape (n :: rest) fs fs' h with ⟨hq, _⟩ |
      ⟨cs, n', rest', c', cold, hq, hfs, hfs', hw, hold⟩
    · cases hq
    · rw [List.cons.injEq] at hq
      obtain ⟨rfl, rfl⟩ := hq
      subst hfs hfs'
      have hcs : wfChildren cs = true := hwf
      have hn : okCompName n := hok n (List.mem_cons_self n rest)
      have hwcold : wfTree cold = true := by
        rcases hold with hsome | ⟨hnone, hcold⟩
        · exact wfTree_lookupChild cs n cold hcs hsome
        · rw [hcold]; show wfChildren [] = true; exact wfChildren_nil
      have hwc' : wfTree c' = true :=
        ih cold c' hwcold (fun x hx => hok x (List.mem_cons_of_mem n hx)) hw
      show wfChildren (assocSet cs n c') = true
      exact wfChildren_assocSet cs n c' hcs hn hwc'

/-! ## Lemmas: the relative file listing of a subtree -/

theorem relFilesChildren_nil : relFilesChildren [] = [] := by simp [relFilesChildren]

theorem relFilesChildren_file (n : Str) (b : Bytes) (rest : List (Str × FsTree)) :
    relFilesChildren ((n, FsTree.file b) :: rest) = ([n], b) :: relFilesChildren rest := by
  simp [relFilesChildren]

theorem relFilesChildren_dir (n : Str) (cs rest : List (Str × FsTree)) :
    relFilesChildren ((n, FsTree.dir cs) :: rest) =
      (relFilesChildren cs).map (fun rb => (n :: rb.1, rb.2)) ++ relFilesChildren rest := by
  simp [relFilesChildren]

theorem relFilesChildren_other (n : Str) (rest : List (Str × FsTree)) :
    relFilesChildren ((n, FsTree.other) :: rest) = relFilesChildren rest := by
  simp [relFilesChildren]

theorem nameFresh_not_mem (cs : List (Str × FsTree)) (n : Str)
    (h : nameFresh n cs = true) : ∀ w, ¬((n, w) ∈ cs) := by
  induction cs with
  | nil => intro w hw; cases hw
  | cons p rest ih =>
    obtain ⟨m, w₂⟩ := p
    unfold nameFresh at h
    by_cases hm : m = n
    · rw [if_pos hm] at h; cases h
    · rw [if_neg hm] at h
      intro w hw
      rcases List.mem_cons.mp hw with heq | hmem
      · exact hm (by cases heq; rfl)
      · exact ih h w hmem

theorem relFilesChildren_shape (cs : List (Str × FsTree)) : ∀ r b,
    (r, b) ∈ relFilesChildren cs → ∃ m r₂, r = m :: r₂ ∧ ∃ w, (m, w) ∈ cs := by
  induction cs using relFilesChildren.induct with
  | case1 =>
    intro r b h
    rw [relFilesChildren_nil] at h
    cases h
  | case2 n b₂ rest ih =>
    intro r b h
    rw [relFilesChildren_file] at h
    rcases List.mem_cons.mp h with heq | hmem
    · rw [Prod.mk.injEq] at heq
      exact ⟨n, [], heq.1, FsTree.file b₂, List.mem_cons_self _ _⟩
    · obtain ⟨m, r₂, hr, w, hw⟩ := ih r b hmem
      exact ⟨m, r₂, hr, w, List.mem_cons_of_mem _ hw⟩
  | case3 n ccs rest ihc ihr =>
    intro r b h
    rw [relFilesChildren_dir] at h
    rcases List.mem_append.mp h with hmem | hmem
    · obtain ⟨rb, hrb, heq⟩ := List.mem_map.mp hmem
      rw [Prod.mk.injEq] at heq
      exact ⟨n, rb.1, heq.1.symm, FsTree.dir ccs, List.mem_cons_self _ _⟩
    · obtain ⟨m, r₂, hr, w, hw⟩ := ihr r b hmem
      exact ⟨m, r₂, hr, w, List.mem_cons_of_mem _ hw⟩
  | case4 n rest ih =>
    intro r b h
    rw [relFilesChildren_other] at h
    obtain ⟨m, r₂, hr, w, hw⟩ := ih r b h
    exact ⟨m, r₂, hr, w, List.mem_cons_of_mem _ hw⟩

theorem lookup_of_mem_relFilesChildren (cs : List (Str × FsTree))
    (hwf : wfChildren cs = true) : ∀ r b, (r, b) ∈ relFilesChildren cs →
    lookupNode (FsTree.dir cs) r = some (FsTree.file b) := by
  induction cs using relFilesChildren.induct with
  | case1 =>
    intro r b h
    rw [relFilesChildren_nil] at h
    cases h
  | case2 n b₂ rest ih =>
    rw [wfChildren_cons_iff] at hwf
    intro r b h
    rw [relFilesChildren_file] at h
    rcases List.mem_cons.mp h with heq | hmem
    · rw [Prod.mk.injEq] at heq
      rw [heq.1, lookupNode_dir_cons, lookupChild_cons, if_pos rfl, heq.2]
      rfl
    · obtain ⟨m, r₂, hr, w, hw⟩ := relFilesChildren_shape rest r b hmem
      have hmn : ¬n = m := by
        intro hc
        exact nameFresh_not_mem rest n hwf.2.2.1 w (hc ▸ hw)
      have hrest := ih hwf.2.2.2 r b hmem
      rw [hr, lookupNode_dir_cons, lookupChild_cons, if_neg hmn]
      rw [hr, lookupNode_dir_cons] at hrest
      exact hrest
  | case3 n ccs rest ihc ihr =>
    rw [wfChildren_cons_iff] at hwf
    intro r b h
    rw [relFilesChildren_dir] at h
    rcases List.mem_append.mp h with hmem | hmem
    · obtain ⟨rb, hrb, heq⟩ := List.mem_map.mp hmem
      rw [Prod.mk.injEq] at heq
      have hin := ihc hwf.2.1 rb.1 rb.2 (by simpa using hrb)
      rw [← heq.1, lookupNode_dir_cons, lookupChild_cons, if_pos rfl, heq.2] at *
      exact hin
    · obtain ⟨m, r₂, hr, w, hw⟩ := relFilesChildren_shape rest r b hmem
      have hmn : ¬n = m := by
        intro hc
        exact nameFresh_not_mem rest n hwf.2.2.1 w (hc ▸ hw)
      have hrest := ihr hwf.2.2.2 r b hmem
      rw [hr, lookupNode_dir_cons, lookupChild_cons, if_neg hmn]
      rw [hr, lookupNode_dir_cons] at hrest
      exact hrest
  | case4 n rest ih =>
    rw [wfChildren_cons_iff] at hwf
    intro r b h
    rw [relFilesChildren_other] at h
    obtain ⟨m, r₂, hr, w, hw⟩ := relFilesChildren_shape rest r b h
    have hmn : ¬n = m := by
      intro hc
      exact nameFresh_not_mem rest n hwf.2.2.1 w (hc ▸ hw)
    have hrest := ih hwf.2.2.2 r b h
    rw [hr, lookupNode_dir_cons, lookupChild_cons, if_neg hmn]
    rw [hr, lookupNode_dir_cons] at hrest
    exact hrest

theorem mem_relFilesChildren_of_lookup (cs : List (Str × FsTree)) : ∀ r b,
    lookupNode (FsTree.dir cs) r = some (FsTree.file b) → (r, b) ∈ relFilesChildren cs := by
  induction cs using relFilesChildren.induct with
  | case1 =>
    intro r b h
    cases r with
    | nil => cases h
    | cons n r₂ =>
      rw [lookupNode_dir_cons, lookupChild_nil] at h
      cases h
  | case2 n b₂ rest ih =>
    intro r b h
    rw [relFilesChildren_file]
    cases r with
    | nil => cases h
    | cons m r₂ =>
      rw [lookupNode_dir_cons, lookupChild_cons] at h
      by_cases hm : n = m
      · rw [if_pos hm] at h
        cases r₂ with
        | nil =>
          have hb : FsTree.file b₂ = FsTree.file b := by simpa [lookupNode] using h
          injection hb with hb2
          rw [← hm, ← hb2]
          exact List.mem_cons_self _ _
        | cons x r₃ =>
          cases (show (none : Option FsTree) = some (FsTree.file b) from h)
      · rw [if_neg hm] at h
        have h₂ : lookupNode (FsTree.dir rest) (m :: r₂) = some (FsTree.file b) := by
          rw [lookupNode_dir_cons]
          exact h
        exact List.mem_cons_of_mem _ (ih (m :: r₂) b h₂)
  | case3 n ccs rest ihc ihr =>
    intro r b h
    rw [relFilesChildren_dir]
    cases r with
    | nil => cases h
    | cons m r₂ =>
      rw [lookupNode_dir_cons, lookupChild_cons] at h
      by_cases hm : n = m
      · rw [if_pos hm] at h
        refine List.mem_append.mpr (Or.inl ?_)
        refine List.mem_map.mpr ⟨(r₂, b), ihc r₂ b h, ?_⟩
        rw [hm]
      · rw [if_neg hm] at h
        refine List.mem_append.mpr (Or.inr ?_)
        refine ihr (m :: r₂) b ?_
        rw [lookupNode_dir_cons]
        exact h
  | case4 n rest ih =>
    intro r b h
    rw [relFilesChildren_other]
    cases r with
    | nil => cases h
    | cons m r₂ =>
      rw [lookupNode_dir_cons, lookupChild_cons] at h
      by_cases hm : n = m
      · rw [if_pos hm] at h
        cases r₂ with
        | nil =>
          have hb : some FsTree.other = some (FsTree.file b) := h
          cases Option.some_inj.mp hb
        | cons x r₃ =>
          cases (show (none : Option FsTree) = some (FsTree.file b) from h)
      · rw [if_neg hm] at h
        refine ih (m :: r₂) b ?_
        rw [lookupNode_dir_cons]
        exact h

theorem relFilesChildren_comps_ok (cs : List (Str × FsTree))
    (hwf : wfChildren cs = true) : ∀ r b, (r, b) ∈ relFilesChildren cs →
    ∀ c ∈ r, okCompName c := by
  induction cs using relFilesChildren.induct with
  | case1 =>
    intro r b h
    rw [relFilesChildren_nil] at h
    cases h
  | case2 n b₂ rest ih =>
    rw [wfChildren_cons_iff] at hwf
    intro r b h
    rw [relFilesChildren_file] at h
    rcases List.mem_cons.mp h with heq | hmem
    · rw [Prod.mk.injEq] at heq
      rw [heq.1]
      intro c hc
      rcases List.mem_singleton.mp hc with rfl
      exact hwf.1
    · exact ih hwf.2.2.2 r b hmem
  | case3 n ccs rest ihc ihr =>
    rw [wfChildren_cons_iff] at hwf
    intro r b h
    rw [relFilesChildren_dir] at h
    rcases List.mem_append.mp h with hmem | hmem
    · obtain ⟨rb, hrb, heq⟩ := List.mem_map.mp hmem
      rw [Prod.mk.injEq] at heq
      rw [← heq.1]
      intro c hc
      rcases List.mem_cons.mp hc with rfl | hc₂
      · exact hwf.1
      · exact ihc hwf.2.1 rb.1 rb.2 (by simpa using hrb) c hc₂
    · exact ihr hwf.2.2.2 r b hmem
  | case4 n rest ih =>
    rw [wfChildren_cons_iff] at hwf
    intro r b h
    rw [relFilesChildren_other] at h
    exact ih hwf.2.2.2 r b h

/-! ## Lemmas: the honest build characterized -/

theorem statNode_clean (fs : FsTree) (s : Str) (hc : CleanSrc s) :
    statNode fs s = lookupNode fs (relComps s) := by
  obtain ⟨h1, h2, h3, h4⟩ := hc
  have hres : nodeAtStr fs s = lookupNode fs (relComps s) := by
    unfold nodeAtStr
    rw [strResolve_eq_relComps s h1 h2]
    rfl
  unfold statNode
  rw [hres]
  cases h : lookupNode fs (relComps s) with
  | none => rfl
  | some t =>
    cases t with
    | dir cs => rfl
    | file b => simp [h3]
    | other => simp [h3]

theorem add_file_to_zip_honest (fs : FsTree) (s tp : Str) (b : Bytes)
    (hstat : statNode fs s = some (FsTree.file b)) :
    add_file_to_zip honestEnv fs s tp =
      ((match rustParent tp with
        | some dir => if dir = [] then [] else [ZipEntry.mk (dir ++ ['/']) true []]
        | none => []) ++ [ZipEntry.mk tp false b], true) := by
  unfold add_file_to_zip
  rw [show honestEnv.readFails s = false from rfl, hstat]
  simp

theorem RelSafe_concat_slash (x : Str) (hx : RelSafe x) : RelSafe (x ++ ['/']) := by
  refine ⟨by simp, ?_, dotFreeB_append _ _ hx.2.2 (by decide)⟩
  rw [head?_append_left _ _ hx.1]
  exact hx.2.1

theorem adrChildren_honest_nil (base zb : Str) :
    adrChildren honestEnv [] base zb = ([], true) := by
  simp [adrChildren]

theorem adrChildren_honest_file (n : Str) (b : Bytes) (rest : List (Str × FsTree))
    (base zb : Str) :
    adrChildren honestEnv ((n, FsTree.file b) :: rest) base zb =
      (ZipEntry.mk (nameJoin zb n) false b :: (adrChildren honestEnv rest base zb).1,
       (adrChildren honestEnv rest base zb).2) := by
  simp [adrChildren, honestEnv, nameJoin]

theorem adrChildren_honest_dir (n : Str) (ccs rest : List (Str × FsTree)) (base zb : Str)
    (hinner : (adrChildren honestEnv ccs (rustJoin base n) (nameJoin zb n)).2 = true) :
    adrChildren honestEnv ((n, FsTree.dir ccs) :: rest) base zb =
      (ZipEntry.mk (nameJoin zb n ++ ['/']) true [] ::
        ((adrChildren honestEnv ccs (rustJoin base n) (nameJoin zb n)).1 ++
          (adrChildren honestEnv rest base zb).1),
       (adrChildren honestEnv rest base zb).2) := by
  simp only [adrChildren, nameJoin] at hinner ⊢
  rw [if_pos hinner]
  simp

theorem adrChildren_honest_other (n : Str) (rest : List (Str × FsTree)) (base zb : Str) :
    adrChildren honestEnv ((n, FsTree.other) :: rest) base zb =
      adrChildren honestEnv rest base zb := by
  simp [adrChildren]

theorem adrChildren_spec (cs : List (Str × FsTree)) : ∀ zb base,
    wfChildren cs = true → RelSafe zb →
    (adrChildren honestEnv cs base zb).2 = true ∧
    ((adrChildren honestEnv cs base zb).1.filter fun e => !e.isDir) =
      (relFilesChildren cs).map (fun rb => ZipEntry.mk (rb.1.foldl nameJoin zb) false rb.2) ∧
    ∀ e ∈ (adrChildren honestEnv cs base zb).1,
      RelSafe e.name ∧ e.isDir = endsSlash e.name ∧
      ∃ rp, rp ≠ [] ∧ relComps e.name = relComps zb ++ rp := by
  induction cs using relFilesChildren.induct with
  | case1 =>
    intro zb base hwf hzb
    rw [adrChildren_honest_nil, relFilesChildren_nil]
    exact ⟨rfl, rfl, by intro e he; cases he⟩
  | case2 n b rest ih =>
    intro zb base hwf hzb
    rw [wfChildren_cons_iff] at hwf
    obtain ⟨hok, _, hfresh, hrest⟩ := hwf
    obtain ⟨h2, hfile, hall⟩ := ih zb base hrest hzb
    rw [adrChildren_honest_file, relFilesChildren_file]
    refine ⟨h2, ?_, ?_⟩
    · rw [List.filter_cons_of_pos (by rfl), hfile, List.map_cons]
      rfl
    · intro e he
      rcases List.mem_cons.mp he with rfl | hmem
      · exact ⟨RelSafe_nameJoin zb n hzb hok,
          by rw [endsSlash_nameJoin zb n hok],
          [n], by simp, relComps_nameJoin zb n hok⟩
      · exact hall e hmem
  | case3 n ccs rest ihc ihr =>
    intro zb base hwf hzb
    rw [wfChildren_cons_iff] at hwf
    obtain ⟨hok, hwc, hfresh, hrest⟩ := hwf
    have hzb₂ : RelSafe (nameJoin zb n) := RelSafe_nameJoin zb n hzb hok
    obtain ⟨hi2, hifile, hiall⟩ := ihc (nameJoin zb n) (rustJoin base n) hwc hzb₂
    obtain ⟨h2, hfile, hall⟩ := ihr zb base hrest hzb
    rw [adrChildren_honest_dir n ccs rest base zb hi2, relFilesChildren_dir]
    refine ⟨h2, ?_, ?_⟩
    · rw [List.filter_cons_of_neg (by simp), List.filter_append, hifile, hfile,
        List.map_append, List.map_map]
      rfl
    · intro e he
      rcases List.mem_cons.mp he with rfl | hmem
      · refine ⟨RelSafe_concat_slash _ hzb₂, by rw [endsSlash_concat_slash],
          [n], by simp, ?_⟩
        rw [relComps_concat_slash, relComps_nameJoin zb n hok]
      · rcases List.mem_append.mp hmem with hmem₂ | hmem₂
        · obtain ⟨hsafe, hdir, rp, hrp, hcomp⟩ := hiall e hmem₂
          refine ⟨hsafe, hdir, n :: rp, by simp, ?_⟩
          rw [hcomp, relComps_nameJoin zb n hok]
          simp
        · exact hall e hmem₂
  | case4 n rest ih =>
    intro zb base hwf hzb
    rw [wfChildren_cons_iff] at hwf
    rw [adrChildren_honest_other, relFilesChildren_other]
    exact ih zb base hwf.2.2.2 hzb

theorem add_directory_honest (fs : FsTree) (t : CopyTask) (cs : List (Str × FsTree))
    (hstat : statNode fs t.source = some (FsTree.dir cs)) :
    add_directory honestEnv fs t.source t.target =
      (ZipEntry.mk (tdnOf t ++ ['/']) true [] ::
        (adrChildren honestEnv cs t.source (tdnOf t)).1,
       (adrChildren honestEnv cs t.source (tdnOf t)).2) := by
  unfold add_directory tdnOf
  rw [hstat]

theorem createStep_honest (fs : FsTree) (st : BuildSt) (task : CopyTask)
    (hname : (rustFileName task.source).isSome = true) :
    (st.panicked = false →
      (createStep honestEnv fs st task).panicked = false ∧
      (createStep honestEnv fs st task).entries = st.entries ++ taskEntries fs task) ∧
    (st.panicked = true → createStep honestEnv fs st task = st) := by
  constructor
  · intro hnp
    unfold createStep
    rw [if_neg (by rw [hnp]; exact fun hc => by cases hc)]
    by_cases hex : pathExists fs task.source = true
    · rw [if_neg (by rw [hex]; exact fun hc => by cases hc rfl),
        if_neg (show ¬honestEnv.metaFails task.source = true from by
          exact fun hc => by cases hc)]
      unfold pathExists at hex
      cases hstat : statNode fs task.source with
      | none => rw [hstat] at hex; cases hex
      | some meta =>
        cases meta with
        | file b =>
          unfold add_item_to_zip taskEntries
          rw [hstat]
          cases hn : rustFileName task.source with
          | none => rw [hn] at hname; cases hname
          | some filename => exact ⟨rfl, rfl⟩
        | dir cs =>
          unfold add_item_to_zip taskEntries
          rw [hstat]
          exact ⟨rfl, rfl⟩
        | other =>
          unfold add_item_to_zip taskEntries
          rw [hstat]
          exact ⟨rfl, by simp⟩
    · rw [if_pos (by simpa using hex)]
      refine ⟨hnp, ?_⟩
      unfold taskEntries
      have hstat : statNode fs task.source = none := by
        unfold pathExists at hex
        cases hs : statNode fs task.source with
        | none => rfl
        | some m => rw [hs] at hex; simp at hex
      rw [hstat]
      simp
  · intro hp
    unfold createStep
    rw [if_pos hp]

theorem createFold_honest (fs : FsTree) (tasks : List CopyTask) : ∀ st : BuildSt,
    st.panicked = false → (∀ t ∈ tasks, (rustFileName t.source).isSome = true) →
    (tasks.foldl (createStep honestEnv fs) st).panicked = false ∧
    (tasks.foldl (createStep honestEnv fs) st).entries
      = st.entries ++ tasks.flatMap (taskEntries fs) := by
  induction tasks with
  | nil => intro st hnp _; exact ⟨hnp, by simp⟩
  | cons t rest ih =>
    intro st hnp hnames
    rw [List.foldl_cons]
    obtain ⟨hstep, hent⟩ :=
      (createStep_honest fs st t (hnames t (List.mem_cons_self t rest))).1 hnp
    obtain ⟨hp₂, he₂⟩ := ih (createStep honestEnv fs st t) hstep
      (fun u hu => hnames u (List.mem_cons_of_mem t hu))
    refine ⟨hp₂, ?_⟩
    rw [he₂, hent, List.flatMap_cons, List.append_assoc]

theorem create_zip_honest (fs₀ : FsTree) (cfg : Config) (fs₁ : FsTree)
    (hstub : stubFs honestEnv fs₀ cfg = some fs₁)
    (hnames : ∀ t ∈ cfg.copy_tasks, (rustFileName t.source).isSome = true) :
    create_zip honestEnv fs₀ cfg = CreateResult.ok
      (((strResolve cfg.zip_path).bind fun p =>
          writeFileAt fs₁ p (zipBytes (cfg.copy_tasks.flatMap (taskEntries fs₁)))).getD fs₁)
      (cfg.copy_tasks.foldl (createStep honestEnv fs₁) ⟨[], [], false⟩).missing
      (cfg.copy_tasks.flatMap (taskEntries fs₁)) := by
  obtain ⟨hp, he⟩ := createFold_honest fs₁ cfg.copy_tasks ⟨[], [], false⟩ rfl hnames
  have he₂ : (cfg.copy_tasks.foldl (createStep honestEnv fs₁) ⟨[], [], false⟩).entries
      = cfg.copy_tasks.flatMap (taskEntries fs₁) := by rw [he]; rfl
  unfold create_zip
  rw [hstub]
  show (if (cfg.copy_tasks.foldl (createStep honestEnv fs₁) ⟨[], [], false⟩).panicked = true
      then CreateResult.aborted fs₁
        (cfg.copy_tasks.foldl (createStep honestEnv fs₁) ⟨[], [], false⟩).missing
      else if honestEnv.finishFails = true then CreateResult.fatal "finalize".toList fs₁
        (cfg.copy_tasks.foldl (createStep honestEnv fs₁) ⟨[], [], false⟩).missing
      else CreateResult.ok
        (((strResolve cfg.zip_path).bind fun p => writeFileAt fs₁ p
          (zipBytes (cfg.copy_tasks.foldl (createStep honestEnv fs₁)
            ⟨[], [], false⟩).entries)).getD fs₁)
        (cfg.copy_tasks.foldl (createStep honestEnv fs₁) ⟨[], [], false⟩).missing
        (cfg.copy_tasks.foldl (createStep honestEnv fs₁) ⟨[], [], false⟩).entries) = _
  rw [hp, he₂]
  rfl

/-! ## Lemmas: the output folder of the extractor -/

theorem dotFreeB_abs_render (cs : List Str) (hok : ∀ c ∈ cs, okCompName c) :
    dotFreeB ('/' :: joinSlash cs) = true := by
  cases cs with
  | nil => decide
  | cons c t =>
    rw [dotFreeB_iff]
    intro p hp
    rw [show splitSlash ('/' :: joinSlash (c :: t)) = [] :: (c :: t) from by
      show splitOnChar '/' ('/' :: joinSlash (c :: t)) = _
      rw [show splitOnChar '/' ('/' :: joinSlash (c :: t))
          = [] :: splitOnChar '/' (joinSlash (c :: t)) from by simp [splitOnChar]]
      rw [show splitOnChar '/' (joinSlash (c :: t)) = c :: t from
        splitOnChar_joinWithChar '/' (c :: t) (by simp)
          (fun q hq => (hok q hq).2.2.2)]] at hp
    rcases List.mem_cons.mp hp with rfl | hmem
    · exact ⟨by simp, by simp⟩
    · exact ⟨(hok p hmem).2.1, (hok p hmem).2.2.1⟩

theorem outFStr_spec (zp : Str) (hz : CleanSrc zp)
    (hstem : okCompName ((rustFileStem zp).getD [])) :
    (outFStr zp).head? = some '/' ∧ dotFreeB (outFStr zp) = true ∧
    relComps (outFStr zp) = (relComps zp).dropLast ++ [(rustFileStem zp).getD []] ∧
    endsSlash (outFStr zp) = false := by
  obtain ⟨h1, h2, h3, h4⟩ := hz
  have hinitok : ∀ c ∈ (relComps zp).dropLast, okCompName c :=
    fun c hc => relComps_ok_of_dotfree zp h2 c (List.mem_of_mem_dropLast hc)
  have hpar := rustParent_abs_dotfree zp h1 h2 h4
  have hprnt1 : ('/' :: joinSlash (relComps zp).dropLast).head? = some '/' := rfl
  have hprnt2 : dotFreeB ('/' :: joinSlash (relComps zp).dropLast) = true :=
    dotFreeB_abs_render _ hinitok
  have hprnt3 : relComps ('/' :: joinSlash (relComps zp).dropLast) = (relComps zp).dropLast :=
    relComps_abs_render _ (fun c hc => ⟨(hinitok c hc).1, (hinitok c hc).2.2.2⟩)
  set st := (rustFileStem zp).getD [] with hst
  have hstne : st ≠ [] := hstem.1
  have hsthead : ¬st.head? = some '/' := by
    cases hh : st.head? with
    | none => intro hc; cases hc
    | some c =>
      intro hc
      have hcm : c ∈ st := List.mem_of_mem_head? (by simp [hh])
      rw [Option.some_inj.mp hc] at hcm
      exact hstem.2.2.2 hcm
  have houtF : outFStr zp = rustJoin ('/' :: joinSlash (relComps zp).dropLast) st := by
    unfold outFStr
    rw [hpar]
    rfl
  have hres : strResolve (outFStr zp) = some ((relComps zp).dropLast ++ [st]) := by
    rw [houtF, strResolve_rustJoin _ _ hprnt1 hprnt2 hsthead (dotFreeB_of_ok st hstem),
      hprnt3, relComps_single st hstem]
  have habs : (outFStr zp).head? = some '/' := by
    rw [houtF]
    unfold rustJoin
    rw [if_neg hsthead, if_neg (by simp)]
    by_cases hes : endsSlash ('/' :: joinSlash (relComps zp).dropLast) = true
    · rw [if_pos hes, head?_append_left _ _ (by simp)]
      rfl
    · rw [if_neg hes, head?_append_left _ _ (by simp)]
      rfl
  have hdf : dotFreeB (outFStr zp) = true := by
    rw [houtF]
    unfold rustJoin
    rw [if_neg hsthead, if_neg (by simp)]
    by_cases hes : endsSlash ('/' :: joinSlash (relComps zp).dropLast) = true
    · rw [if_pos hes]
      exact dotFreeB_append _ _ hprnt2 (dotFreeB_of_ok st hstem)
    · rw [if_neg hes]
      exact dotFreeB_append _ _ hprnt2 (dotFreeB_cons_slash _ (dotFreeB_of_ok st hstem))
  refine ⟨habs, hdf, ?_, ?_⟩
  · have h₅ := strResolve_eq_relComps (outFStr zp) habs hdf
    rw [h₅] at hres
    exact Option.some_inj.mp hres
  · rw [houtF]
    unfold rustJoin
    rw [if_neg hsthead, if_neg (by simp)]
    by_cases hes : endsSlash ('/' :: joinSlash (relComps zp).dropLast) = true
    · rw [if_pos hes, endsSlash_append_right _ _ hstne, endsSlash_of_ok st hstem]
    · rw [if_neg hes, show ('/' :: joinSlash (relComps zp).dropLast) ++ '/' :: st
          = (('/' :: joinSlash (relComps zp).dropLast) ++ ['/']) ++ st from by simp,
        endsSlash_append_right _ _ hstne, endsSlash_of_ok st hstem]

/-! ## Lemmas: single extraction steps -/

theorem extractEntry_some_ops (outF : Str) (fs : FsTree) (e : ZipEntry) (fs' : FsTree)
    (h : extractEntry outF fs e = some fs') :
    ∃ p, strResolve (rustJoin outF e.name) = some p ∧
      ((endsSlash e.name = true ∧ createDirAll fs p = some fs') ∨
       (endsSlash e.name = false ∧ ∃ fsmk, createDirAll fs p.dropLast = some fsmk ∧
         writeFileAt fsmk p e.content = some fs')) := by
  have h₂ : (match strResolve (rustJoin outF e.name) with
      | none => none
      | some p =>
        if endsSlash e.name = true then createDirAll fs p
        else
          match createDirAll fs p.dropLast with
          | none => none
          | some fs₁ => writeFileAt fs₁ p e.content) = some fs' := h
  cases hres : strResolve (rustJoin outF e.name) with
  | none =>
    rw [hres] at h₂
    have h₃ : (none : Option FsTree) = some fs' := h₂
    cases h₃
  | some p =>
    rw [hres] at h₂
    have h₃ : (if endsSlash e.name = true then createDirAll fs p
        else
          match createDirAll fs p.dropLast with
          | none => none
          | some fs₁ => writeFileAt fs₁ p e.content) = some fs' := h₂
    refine ⟨p, rfl, ?_⟩
    by_cases hes : endsSlash e.name = true
    · rw [if_pos hes] at h₃
      exact Or.inl ⟨hes, h₃⟩
    · rw [if_neg hes] at h₃
      cases hmk : createDirAll fs p.dropLast with
      | none =>
        rw [hmk] at h₃
        have h₄ : (none : Option FsTree) = some fs' := h₃
        cases h₄
      | some fsmk =>
        rw [hmk] at h₃
        exact Or.inr ⟨by simpa using hes, fsmk, rfl, h₃⟩

theorem SafeWrite_of_not_under (fs₀ : FsTree) (srcs : List (List Str)) (q : List Str)
    (c : Bytes) (h : ¬underAny srcs q) : SafeWrite fs₀ srcs q c :=
  fun hu => absurd hu h

theorem Inv_extractEntry (fs₀ : FsTree) (srcs : List (List Str)) (outF : Str)
    (fs : FsTree) (e : ZipEntry) (fs' : FsTree) (h : extractEntry outF fs e = some fs')
    (hInv : Inv fs₀ srcs fs)
    (hsafe : ∀ p, strResolve (rustJoin outF e.name) = some p →
      SafeWrite fs₀ srcs p e.content) : Inv fs₀ srcs fs' := by
  obtain ⟨p, hres, hops⟩ := extractEntry_some_ops outF fs e fs' h
  rcases hops with ⟨_, hmk⟩ | ⟨_, fsmk, hmk, hwr⟩
  · exact Inv_createDirAll fs₀ srcs fs fs' p hmk hInv
  · exact Inv_writeFileAt fs₀ srcs fsmk fs' p e.content hwr
      (Inv_createDirAll fs₀ srcs fs fsmk p.dropLast hmk hInv) (hsafe p hres)

theorem extractEntry_dir_pres (outF : Str) (fs : FsTree) (e : ZipEntry) (fs' : FsTree)
    (h : extractEntry outF fs e = some fs') (p : List Str)
    (hd : kindAt fs p = some NodeKind.dirK) : kindAt fs' p = some NodeKind.dirK := by
  obtain ⟨q, hres, hops⟩ := extractEntry_some_ops outF fs e fs' h
  rcases hops with ⟨_, hmk⟩ | ⟨_, fsmk, hmk, hwr⟩
  · exact createDirAll_kind_pres q fs fs' hmk p _ hd
  · exact writeFileAt_dir_pres q fsmk e.content fs' hwr p
      (createDirAll_kind_pres q.dropLast fs fsmk hmk p _ hd)

theorem extractEntry_file_pres (outF : Str) (fs : FsTree) (e : ZipEntry) (fs' : FsTree)
    (h : extractEntry outF fs e = some fs') (p : List Str) (b : Bytes)
    (hd : kindAt fs p = some (NodeKind.fileK b)) :
    ∃ b', kindAt fs' p = some (NodeKind.fileK b') := by
  obtain ⟨q, hres, hops⟩ := extractEntry_some_ops outF fs e fs' h
  rcases hops with ⟨_, hmk⟩ | ⟨_, fsmk, hmk, hwr⟩
  · exact ⟨b, createDirAll_kind_pres q fs fs' hmk p _ hd⟩
  · exact writeFileAt_file_pres q fsmk e.content fs' hwr p b
      (createDirAll_kind_pres q.dropLast fs fsmk hmk p _ hd)

theorem extractEntry_rev_file (outF : Str) (fs : FsTree) (e : ZipEntry) (fs' : FsTree)
    (h : extractEntry outF fs e = some fs') (p : List Str) (c : Bytes)
    (hk : kindAt fs' p = some (NodeKind.fileK c)) :
    (endsSlash e.name = false ∧ strResolve (rustJoin outF e.name) = some p ∧
      e.content = c) ∨
    (kindAt fs p = some (NodeKind.fileK c) ∧
      (endsSlash e.name = true ∨ strResolve (rustJoin outF e.name) ≠ some p)) := by
  obtain ⟨q, hres, hops⟩ := extractEntry_some_ops outF fs e fs' h
  rcases hops with ⟨hes, hmk⟩ | ⟨hes, fsmk, hmk, hwr⟩
  · exact Or.inr ⟨createDirAll_no_new_file q fs fs' hmk p c hk, Or.inl hes⟩
  · by_cases hpq : p = q
    · subst hpq
      have hself := kindAt_writeFileAt_self p fsmk e.content fs' hwr
      rw [hself] at hk
      exact Or.inl ⟨hes, hres, (by simpa using hk)⟩
    · have h₂ := writeFileAt_rev_file q fsmk e.content fs' hwr p c hpq hk
      have h₃ := createDirAll_no_new_file q.dropLast fs fsmk hmk p c h₂
      refine Or.inr ⟨h₃, Or.inr ?_⟩
      rw [hres]
      intro hc
      exact hpq (Option.some_inj.mp hc).symm

theorem extractEntry_wf (outF : Str) (fs : FsTree) (e : ZipEntry) (fs' : FsTree)
    (h : extractEntry outF fs e = some fs') (hwf : wfTree fs = true) :
    wfTree fs' = true := by
  obtain ⟨q, hres, hops⟩ := extractEntry_some_ops outF fs e fs' h
  have hqok : ∀ c ∈ q, okCompName c := strResolve_comps_ok _ q hres
  rcases hops with ⟨_, hmk⟩ | ⟨_, fsmk, hmk, hwr⟩
  · exact wfTree_createDirAll q fs fs' hwf hqok hmk
  · exact wfTree_writeFileAt q fsmk e.content fs' (wfTree_createDirAll q.dropLast fs fsmk hwf
      (fun c hc => hqok c (List.mem_of_mem_dropLast hc)) hmk) hqok hwr

/-! ## Lemmas: the extraction loop -/

theorem exStep_error (outF : Str) (es : List ZipEntry) (f : FsTree) :
    es.foldl (exStep outF) (Except.error f) = Except.error f := by
  induction es with
  | nil => rfl
  | cons e es ih => rw [List.foldl_cons]; exact ih

theorem exStep_ok (outF : Str) (fs : FsTree) (e : ZipEntry) :
    exStep outF (Except.ok fs) e =
      match extractEntry outF fs e with
      | none => Except.error fs
      | some f' => Except.ok f' := rfl

theorem extractFold_pres₂ (outF : Str) (P : FsTree → Prop) (es : List ZipEntry)
    (hstep : ∀ fs e fs', e ∈ es → extractEntry outF fs e = some fs' → P fs → P fs') :
    ∀ fs f, P fs →
    (es.foldl (exStep outF) (Except.ok fs) = Except.ok f ∨
     es.foldl (exStep outF) (Except.ok fs) = Except.error f) → P f := by
  induction es with
  | nil =>
    intro fs f hP hr
    rcases hr with hr | hr
    · injection hr with h₂; rw [← h₂]; exact hP
    · cases hr
  | cons e₀ es ih =>
    intro fs f hP hr
    rw [List.foldl_cons, exStep_ok] at hr
    cases hee : extractEntry outF fs e₀ with
    | none =>
      rw [hee] at hr
      rw [exStep_error] at hr
      rcases hr with hr | hr
      · cases hr
      · injection hr with h₂; rw [← h₂]; exact hP
    | some f' =>
      rw [hee] at hr
      exact ih (fun fs₂ e₂ fs₂' he₂ => hstep fs₂ e₂ fs₂' (List.mem_cons_of_mem _ he₂)) f' f
        (hstep fs e₀ f' (List.mem_cons_self _ _) hee hP) hr

theorem extractFold_pres (outF : Str) (P : FsTree → Prop) (es : List ZipEntry)
    (hstep : ∀ fs e fs', e ∈ es → extractEntry outF fs e = some fs' → P fs → P fs') :
    ∀ fs fsE, es.foldl (exStep outF) (Except.ok fs) = Except.ok fsE → P fs → P fsE :=
  fun fs fsE h hP => extractFold_pres₂ outF P es hstep fs fsE hP (Or.inl h)

theorem extractFold_inv (fs₀ : FsTree) (srcs : List (List Str)) (outF : Str)
    (es : List ZipEntry)
    (hsafe : ∀ e ∈ es, ∀ p, strResolve (rustJoin outF e.name) = some p →
      SafeWrite fs₀ srcs p e.content) :
    ∀ fs f, Inv fs₀ srcs fs →
    (es.foldl (exStep outF) (Except.ok fs) = Except.ok f ∨
     es.foldl (exStep outF) (Except.ok fs) = Except.error f) → Inv fs₀ srcs f :=
  extractFold_pres₂ outF (Inv fs₀ srcs) es
    (fun fs e fs' he hee hP =>
      Inv_extractEntry fs₀ srcs outF fs e fs' hee hP (hsafe e he))

theorem extractFold_wf (outF : Str) (es : List ZipEntry) :
    ∀ fs f, wfTree fs = true →
    (es.foldl (exStep outF) (Except.ok fs) = Except.ok f ∨
     es.foldl (exStep outF) (Except.ok fs) = Except.error f) → wfTree f = true :=
  extractFold_pres₂ outF (fun g => wfTree g = true) es
    (fun fs e fs' _ hee hP => extractEntry_wf outF fs e fs' hee hP)

theorem extractFold_dir (outF : Str) (es : List ZipEntry) : ∀ fs fsE,
    es.foldl (exStep outF) (Except.ok fs) = Except.ok fsE →
    ∀ e ∈ es, endsSlash e.name = true →
    ∀ p, strResolve (rustJoin outF e.name) = some p →
    kindAt fsE p = some NodeKind.dirK := by
  induction es with
  | nil => intro fs fsE h e he; cases he
  | cons e₀ es ih =>
    intro fs fsE h e he hes p hres
    rw [List.foldl_cons, exStep_ok] at h
    cases hee : extractEntry outF fs e₀ with
    | none => rw [hee, exStep_error] at h; cases h
    | some f' =>
      rw [hee] at h
      rcases List.mem_cons.mp he with rfl | hmem
      · obtain ⟨q, hres₂, hops⟩ := extractEntry_some_ops outF fs e f' hee
        rw [hres] at hres₂
        have hq : q = p := (Option.some_inj.mp hres₂).symm
        rcases hops with ⟨_, hmk⟩ | ⟨hesf, _⟩
        · subst hq
          obtain ⟨cs₂, hcs⟩ := createDirAll_self_dir q fs f' hmk
          have hkd : kindAt f' q = some NodeKind.dirK := by unfold kindAt; rw [hcs]; rfl
          exact extractFold_pres outF (fun g => kindAt g q = some NodeKind.dirK) es
            (fun fs₂ e₂ fs₂' _ hee₂ hP => extractEntry_dir_pres outF fs₂ e₂ fs₂' hee₂ q hP)
            f' fsE h hkd
        · rw [hesf] at hes; cases hes
      · exact ih f' fsE h e hmem hes p hres

theorem extractFold_file_present (outF : Str) (es : List ZipEntry) : ∀ fs fsE,
    es.foldl (exStep outF) (Except.ok fs) = Except.ok fsE →
    ∀ e ∈ es, endsSlash e.name = false →
    ∀ p, strResolve (rustJoin outF e.name) = some p →
    ∃ b', kindAt fsE p = some (NodeKind.fileK b') := by
  induction es with
  | nil => intro fs fsE h e he; cases he
  | cons e₀ es ih =>
    intro fs fsE h e he hes p hres
    rw [List.foldl_cons, exStep_ok] at h
    cases hee : extractEntry outF fs e₀ with
    | none => rw [hee, exStep_error] at h; cases h
    | some f' =>
      rw [hee] at h
      rcases List.mem_cons.mp he with rfl | hmem
      · obtain ⟨q, hres₂, hops⟩ := extractEntry_some_ops outF fs e f' hee
        rw [hres] at hres₂
        have hq : q = p := (Option.some_inj.mp hres₂).symm
        rcases hops with ⟨hesf, _⟩ | ⟨_, fsmk, hmk, hwr⟩
        · rw [hesf] at hes; cases hes
        · subst hq
          have hkf : kindAt f' q = some (NodeKind.fileK e.content) :=
            kindAt_writeFileAt_self q fsmk e.content f' hwr
          exact extractFold_pres outF (fun g => ∃ b', kindAt g q = some (NodeKind.fileK b'))
            es (fun fs₂ e₂ fs₂' _ hee₂ hP => by
              obtain ⟨b₁, hb₁⟩ := hP
              exact extractEntry_file_pres outF fs₂ e₂ fs₂' hee₂ q b₁ hb₁)
            f' fsE h ⟨e.content, hkf⟩
      · exact ih f' fsE h e hmem hes p hres

theorem extractFold_file_prov (outF : Str) (es : List ZipEntry) : ∀ fs fsE,
    es.foldl (exStep outF) (Except.ok fs) = Except.ok fsE →
    ∀ p c, kindAt fsE p = some (NodeKind.fileK c) →
      (∃ e ∈ es, endsSlash e.name = false ∧
        strResolve (rustJoin outF e.name) = some p ∧ e.content = c) ∨
      ((∀ e ∈ es, endsSlash e.name = false → ¬strResolve (rustJoin outF e.name) = some p) ∧
        kindAt fs p = some (NodeKind.fileK c)) := by
  induction es with
  | nil =>
    intro fs fsE h p c hk
    injection h with h₂
    exact Or.inr ⟨fun e he => absurd he (List.not_mem_nil e), by rw [h₂]; exact hk⟩
  | cons e₀ es ih =>
    intro fs fsE h p c hk
    rw [List.foldl_cons, exStep_ok] at h
    cases hee : extractEntry outF fs e₀ with
    | none => rw [hee, exStep_error] at h; cases h
    | some f' =>
      rw [hee] at h
      rcases ih f' fsE h p c hk with ⟨e, he, hx⟩ | ⟨hnone, hkf⟩
      · exact Or.inl ⟨e, List.mem_cons_of_mem _ he, hx⟩
      · rcases extractEntry_rev_file outF fs e₀ f' hee p c hkf with ⟨ha, hb, hc2⟩ |
          ⟨hkfs, hd⟩
        · exact Or.inl ⟨e₀, List.mem_cons_self _ _, ha, hb, hc2⟩
        · refine Or.inr ⟨?_, hkfs⟩
          intro e he hesf
          rcases List.mem_cons.mp he with rfl | hmem
          · rcases hd with hd | hd
            · rw [hesf] at hd; cases hd
            · exact hd
          · exact hnone e hmem hesf

/-! ## Lemmas: the extractor assembled -/

theorem extract_zip_def (fs₂ : FsTree) (zp : Str) (archive : List ZipEntry) :
    extract_zip_to_folder fs₂ zp archive =
      (if !(pathExists fs₂ zp && pathIsFile fs₂ zp) then ExtractResult.exfail fs₂
       else
         match (if pathExists fs₂ (outFStr zp) then some fs₂
                else (strResolve (outFStr zp)).bind (createDirAll fs₂)) with
         | none => ExtractResult.exfail fs₂
         | some fs₁ =>
           match archive.foldl (exStep (outFStr zp)) (Except.ok fs₁) with
           | Except.error f => ExtractResult.exfail f
           | Except.ok f => ExtractResult.exok f (outFStr zp)) := rfl

theorem extract_zip_cases (fs₂ : FsTree) (zp : Str) (archive : List ZipEntry) :
    (∃ f, extract_zip_to_folder fs₂ zp archive = ExtractResult.exfail f ∧
      (f = fs₂ ∨
       ∃ fs₁, (fs₁ = fs₂ ∨ ∃ pS, strResolve (outFStr zp) = some pS ∧
           createDirAll fs₂ pS = some fs₁) ∧
         archive.foldl (exStep (outFStr zp)) (Except.ok fs₁) = Except.error f)) ∨
    (∃ fsE, extract_zip_to_folder fs₂ zp archive = ExtractResult.exok fsE (outFStr zp) ∧
      ∃ fs₁, (fs₁ = fs₂ ∨ ∃ pS, strResolve (outFStr zp) = some pS ∧
          createDirAll fs₂ pS = some fs₁) ∧
        archive.foldl (exStep (outFStr zp)) (Except.ok fs₁) = Except.ok fsE) := by
  have hdef := extract_zip_def fs₂ zp archive
  by_cases hpre : (!(pathExists fs₂ zp && pathIsFile fs₂ zp)) = true
  · rw [if_pos hpre] at hdef
    exact Or.inl ⟨fs₂, hdef, Or.inl rfl⟩
  · rw [if_neg hpre] at hdef
    cases hstart : (if pathExists fs₂ (outFStr zp) then some fs₂
        else (strResolve (outFStr zp)).bind (createDirAll fs₂)) with
    | none =>
      rw [hstart] at hdef
      exact Or.inl ⟨fs₂, hdef, Or.inl rfl⟩
    | some fs₁ =>
      rw [hstart] at hdef
      have hprov : fs₁ = fs₂ ∨ ∃ pS, strResolve (outFStr zp) = some pS ∧
          createDirAll fs₂ pS = some fs₁ := by
        by_cases hex : pathExists fs₂ (outFStr zp) = true
        · rw [if_pos hex] at hstart
          exact Or.inl (Option.some_inj.mp hstart).symm
        · rw [if_neg hex] at hstart
          cases hres : strResolve (outFStr zp) with
          | none => rw [hres] at hstart; cases hstart
          | some pS =>
            rw [hres] at hstart
            exact Or.inr ⟨pS, rfl, hstart⟩
      have hdef₂ : extract_zip_to_folder fs₂ zp archive =
          (match archive.foldl (exStep (outFStr zp)) (Except.ok fs₁) with
           | Except.error f => ExtractResult.exfail f
           | Except.ok f => ExtractResult.exok f (outFStr zp)) := hdef
      cases hrun : archive.foldl (exStep (outFStr zp)) (Except.ok fs₁) with
      | error f =>
        rw [hrun] at hdef₂
        exact Or.inl ⟨f, hdef₂, Or.inr ⟨fs₁, hprov, hrun⟩⟩
      | ok f =>
        rw [hrun] at hdef₂
        exact Or.inr ⟨f, hdef₂, fs₁, hprov, hrun⟩

theorem extract_inv_wf (fs₀ : FsTree) (srcs : List (List Str)) (fs₂ : FsTree) (zp : Str)
    (archive : List ZipEntry)
    (hsafe : ∀ e ∈ archive, ∀ p, strResolve (rustJoin (outFStr zp) e.name) = some p →
      SafeWrite fs₀ srcs p e.content)
    (hInv : Inv fs₀ srcs fs₂) (hwf : wfTree fs₂ = true) :
    (∀ f, extract_zip_to_folder fs₂ zp archive = ExtractResult.exfail f →
      Inv fs₀ srcs f ∧ wfTree f = true) ∧
    (∀ f outF, extract_zip_to_folder fs₂ zp archive = ExtractResult.exok f outF →
      Inv fs₀ srcs f ∧ wfTree f = true ∧ outF = outFStr zp ∧
      ∃ fs₁, archive.foldl (exStep (outFStr zp)) (Except.ok fs₁) = Except.ok f) := by
  have hstart : ∀ fs₁, (fs₁ = fs₂ ∨ ∃ pS, strResolve (outFStr zp) = some pS ∧
      createDirAll fs₂ pS = some fs₁) → Inv fs₀ srcs fs₁ ∧ wfTree fs₁ = true := by
    intro fs₁ h
    rcases h with rfl | ⟨pS, hres, hmk⟩
    · exact ⟨hInv, hwf⟩
    · exact ⟨Inv_createDirAll fs₀ srcs fs₂ fs₁ pS hmk hInv,
        wfTree_createDirAll pS fs₂ fs₁ hwf (strResolve_comps_ok _ pS hres) hmk⟩
  rcases extract_zip_cases fs₂ zp archive with
    ⟨f, heq, hff⟩ | ⟨fsE, heq, fs₁, hprov, hrun⟩
  · constructor
    · intro f₂ heq₂
      rw [heq] at heq₂
      injection heq₂ with h₂
      subst h₂
      rcases hff with rfl | ⟨fs₁, hprov, hrun⟩
      · exact ⟨hInv, hwf⟩
      · obtain ⟨hInv₁, hwf₁⟩ := hstart fs₁ hprov
        exact ⟨extractFold_inv fs₀ srcs (outFStr zp) archive hsafe fs₁ f hInv₁
            (Or.inr hrun),
          extractFold_wf (outFStr zp) archive fs₁ f hwf₁ (Or.inr hrun)⟩
    · intro f₂ outF heq₂
      rw [heq] at heq₂
      cases heq₂
  · constructor
    · intro f₂ heq₂
      rw [heq] at heq₂
      cases heq₂
    · intro f₂ outF heq₂
      rw [heq] at heq₂
      injection heq₂ with h₂ h₃
      subst h₂ h₃
      obtain ⟨hInv₁, hwf₁⟩ := hstart fs₁ hprov
      exact ⟨extractFold_inv fs₀ srcs (outFStr zp) archive hsafe fs₁ fsE hInv₁ (Or.inl hrun),
        extractFold_wf (outFStr zp) archive fs₁ fsE hwf₁ (Or.inl hrun), rfl, fs₁, hrun⟩

/-! ## Lemmas: separation of the staging area from the sources -/

theorem not_prefix_of_comparable (srcs : List (List Str)) (p q u : List Str)
    (hu : u ∈ srcs) (hq : q <+: u ∨ u <+: q) (hp : SInc srcs p) : ¬(p <+: q) := by
  intro hc
  rcases hq with hq | hq
  · exact (hp u hu).2 (hc.trans hq)
  · rcases List.prefix_or_prefix_of_prefix hc hq with h | h
    · exact (hp u hu).2 h
    · exact (hp u hu).1 h

theorem SInc_staging (srcs : List (List Str)) (S : List Str)
    (hS : ∀ u ∈ srcs, ¬u <+: S ∧ ¬S <+: u) (x : List Str) : SInc srcs (S ++ x) := by
  intro u hu
  constructor
  · intro hc
    rcases List.prefix_or_prefix_of_prefix hc (List.prefix_append S x) with h | h
    · exact (hS u hu).1 h
    · exact (hS u hu).2 h
  · intro hc
    exact (hS u hu).2 ((List.prefix_append S x).trans hc)

/-! ## Lemmas: path-string classification of the stat wrappers -/

theorem statNode_of_resolve (fs : FsTree) (s : Str) (P : List Str)
    (hres : strResolve s = some P) (hend : endsSlash s = false) :
    statNode fs s = lookupNode fs P := by
  have hn : nodeAtStr fs s = lookupNode fs P := by
    unfold nodeAtStr
    rw [hres]
    rfl
  unfold statNode
  rw [hn]
  cases h : lookupNode fs P with
  | none => rfl
  | some t =>
    cases t with
    | dir cs => rfl
    | file b => simp [hend]
    | other => simp [hend]

theorem pathExists_eq (fs : FsTree) (s : Str) (P : List Str)
    (hstat : statNode fs s = lookupNode fs P) :
    pathExists fs s = (lookupNode fs P).isSome := by
  unfold pathExists
  rw [hstat]

theorem pathIsFile_iff (fs : FsTree) (s : Str) (P : List Str)
    (hstat : statNode fs s = lookupNode fs P) :
    pathIsFile fs s = true ↔ ∃ b, lookupNode fs P = some (FsTree.file b) := by
  unfold pathIsFile
  rw [hstat]
  cases h : lookupNode fs P with
  | none => simp
  | some t =>
    cases t with
    | file b => simp
    | dir cs => simp
    | other => simp

theorem pathIsDir_iff (fs : FsTree) (s : Str) (P : List Str)
    (hstat : statNode fs s = lookupNode fs P) :
    pathIsDir fs s = true ↔ ∃ cs, lookupNode fs P = some (FsTree.dir cs) := by
  unfold pathIsDir
  rw [hstat]
  cases h : lookupNode fs P with
  | none => simp
  | some t =>
    cases t with
    | file b => simp
    | dir cs => simp
    | other => simp

/-! ## Lemmas: kinds and lookups -/

theorem kindAt_append_of_lookup (fs : FsTree) (P r : List Str) (node : FsTree)
    (h : lookupNode fs P = some node) : kindAt fs (P ++ r) = kindAt node r := by
  unfold kindAt
  rw [lookupNode_append, h]
  rfl

theorem ancestor_dir (fs : FsTree) (u : List Str) (x : Str) (r : List Str)
    (k : NodeKind) (h : kindAt fs (u ++ x :: r) = some k) :
    ∃ cs, lookupNode fs u = some (FsTree.dir cs) := by
  unfold kindAt at h
  cases hl : lookupNode fs (u ++ x :: r) with
  | none => rw [hl] at h; cases h
  | some n => exact lookup_strict_prefix fs u x r n hl

theorem lookup_of_kind_file (fs : FsTree) (p : List Str) (b : Bytes)
    (h : kindAt fs p = some (NodeKind.fileK b)) :
    lookupNode fs p = some (FsTree.file b) := by
  unfold kindAt at h
  cases hl : lookupNode fs p with
  | none => rw [hl] at h; cases h
  | some t =>
    rw [hl] at h
    cases t with
    | file b₂ =>
      have hb : b₂ = b := by simpa [kindOf] using h
      rw [hb]
    | dir cs => simp [kindOf] at h
    | other => simp [kindOf] at h

theorem lookup_of_kind_dir (fs : FsTree) (p : List Str)
    (h : kindAt fs p = some NodeKind.dirK) :
    ∃ cs, lookupNode fs p = some (FsTree.dir cs) := by
  unfold kindAt at h
  cases hl : lookupNode fs p with
  | none => rw [hl] at h; cases h
  | some t =>
    rw [hl] at h
    cases t with
    | file b₂ => simp [kindOf] at h
    | dir cs => exact ⟨cs, rfl⟩
    | other => simp [kindOf] at h

theorem kindAt_of_lookup_dir (fs : FsTree) (p : List Str) (cs : List (Str × FsTree))
    (h : lookupNode fs p = some (FsTree.dir cs)) : kindAt fs p = some NodeKind.dirK := by
  unfold kindAt
  rw [h]
  rfl

theorem kindAt_of_lookup_file (fs : FsTree) (p : List Str) (b : Bytes)
    (h : lookupNode fs p = some (FsTree.file b)) :
    kindAt fs p = some (NodeKind.fileK b) := by
  unfold kindAt
  rw [h]
  rfl

theorem readFile_of_kind (fs : FsTree) (p : List Str) (b : Bytes)
    (h : kindAt fs p = some (NodeKind.fileK b)) : readFile fs p = some b := by
  unfold readFile
  rw [lookup_of_kind_file fs p b h]

/-! ## Lemmas: more path-string facts -/

theorem relComps_ne_nil_of_head (s : Str) (hh : ¬s.head? = some '/') (hne : s ≠ []) :
    relComps s ≠ [] := by
  cases s with
  | nil => exact absurd rfl hne
  | cons c t =>
    have hc : ¬c = '/' := by
      intro h
      exact hh (by rw [h]; rfl)
    cases hsp : splitOnChar '/' t with
    | nil => exact absurd hsp (splitOnChar_ne_nil '/' t)
    | cons h₀ t₀ =>
      have hsp₂ : splitSlash (c :: t) = (c :: h₀) :: t₀ := by
        show splitOnChar '/' (c :: t) = _
        rw [show splitOnChar '/' (c :: t)
            = (if c = '/' then [] :: splitOnChar '/' t
               else match splitOnChar '/' t with
                    | [] => [[c]]
                    | h :: t' => (c :: h) :: t') from rfl, if_neg hc, hsp]
      unfold relComps
      rw [hsp₂, List.filter_cons_of_pos (by simp)]
      simp

theorem dotFreeB_concat_slash (x : Str) (hx : dotFreeB x = true) :
    dotFreeB (x ++ ['/']) = true :=
  dotFreeB_append x ['/'] hx (by decide)

theorem dotFreeB_rel_render (cs : List Str) (hok : ∀ c ∈ cs, okCompName c) :
    dotFreeB (joinSlash cs) = true := by
  cases cs with
  | nil => decide
  | cons c t =>
    rw [dotFreeB_iff]
    intro p hp
    rw [show splitSlash (joinSlash (c :: t)) = c :: t from
      splitOnChar_joinWithChar '/' (c :: t) (by simp)
        (fun q hq => (hok q hq).2.2.2)] at hp
    exact ⟨(hok p hp).2.1, (hok p hp).2.2.1⟩

theorem endsSlash_rustJoin (a b : Str) (ha : a ≠ []) (hb1 : ¬b.head? = some '/')
    (hbne : b ≠ []) : endsSlash (rustJoin a b) = endsSlash b := by
  unfold rustJoin
  rw [if_neg hb1, if_neg ha]
  by_cases h : endsSlash a = true
  · rw [if_pos h, endsSlash_append_right a b hbne]
  · rw [if_neg h, show a ++ '/' :: b = (a ++ ['/']) ++ b from by simp,
      endsSlash_append_right _ _ hbne]

theorem rustJoin_abs_facts (a b : Str) (ha1 : a.head? = some '/') (ha2 : dotFreeB a = true)
    (hb1 : ¬b.head? = some '/') (hb2 : dotFreeB b = true) :
    (rustJoin a b).head? = some '/' ∧ dotFreeB (rustJoin a b) = true ∧
    relComps (rustJoin a b) = relComps a ++ relComps b := by
  have hane : a ≠ [] := by
    intro h
    rw [h] at ha1
    cases ha1
  have habs : (rustJoin a b).head? = some '/' := by
    unfold rustJoin
    rw [if_neg hb1, if_neg hane]
    by_cases h : endsSlash a = true
    · rw [if_pos h, head?_append_left a b hane]; exact ha1
    · rw [if_neg h, head?_append_left a _ hane]; exact ha1
  have hdf : dotFreeB (rustJoin a b) = true := by
    unfold rustJoin
    rw [if_neg hb1, if_neg hane]
    by_cases h : endsSlash a = true
    · rw [if_pos h]; exact dotFreeB_append a b ha2 hb2
    · rw [if_neg h]; exact dotFreeB_append a _ ha2 (dotFreeB_cons_slash b hb2)
  have hres := strResolve_rustJoin a b ha1 ha2 hb1 hb2
  rw [strResolve_eq_relComps _ habs hdf] at hres
  exact ⟨habs, hdf, Option.some_inj.mp hres⟩

/-! ## Lemmas: uniqueness and provenance of staged contents -/

theorem archive_file_unique (es : List ZipEntry)
    (hH4 : ((es.filter fun e => !e.isDir).map fun e => relComps e.name).Nodup)
    (e e' : ZipEntry) (he : e ∈ es) (he' : e' ∈ es)
    (hd : e.isDir = false) (hd' : e'.isDir = false)
    (hn : relComps e.name = relComps e'.name) : e = e' := by
  have hm : e ∈ es.filter fun e => !e.isDir :=
    List.mem_filter.mpr ⟨he, by rw [hd]; rfl⟩
  have hm' : e' ∈ es.filter fun e => !e.isDir :=
    List.mem_filter.mpr ⟨he', by rw [hd']; rfl⟩
  exact List.inj_on_of_nodup_map hH4 hm hm' hn

theorem staged_content_unique (outF : Str) (es : List ZipEntry) (fs₁ fsE : FsTree)
    (hfold : es.foldl (exStep outF) (Except.ok fs₁) = Except.ok fsE)
    (houtF1 : outF.head? = some '/') (houtF2 : dotFreeB outF = true)
    (hNames : ∀ e ∈ es, RelSafe e.name)
    (hIsDir : ∀ e ∈ es, e.isDir = endsSlash e.name)
    (hH4 : ((es.filter fun e => !e.isDir).map fun e => relComps e.name).Nodup)
    (rel : List Str) (c b₀ : Bytes)
    (hstaged : kindAt fsE (relComps outF ++ rel) = some (NodeKind.fileK c))
    (hent : ∃ e ∈ es, e.isDir = false ∧ relComps e.name = rel ∧ e.content = b₀) :
    b₀ = c := by
  obtain ⟨e', he', hd', hn', hc'⟩ := hent
  have hres' : strResolve (rustJoin outF e'.name) = some (relComps outF ++ rel) := by
    obtain ⟨hne, hhd, hdf⟩ := hNames e' he'
    rw [strResolve_rustJoin outF e'.name houtF1 houtF2 hhd hdf, hn']
  rcases extractFold_file_prov outF es fs₁ fsE hfold (relComps outF ++ rel) c hstaged with
    ⟨e, he, hesl, hres, hcont⟩ | ⟨hnone, _⟩
  · have hd : e.isDir = false := by
      rw [hIsDir e he]
      exact hesl
    have hn : relComps e.name = rel := by
      obtain ⟨hne, hhd, hdf⟩ := hNames e he
      rw [strResolve_rustJoin outF e.name houtF1 houtF2 hhd hdf] at hres
      exact List.append_cancel_left (Option.some_inj.mp hres)
    have heq : e = e' := archive_file_unique es hH4 e e' he he' hd hd' (by rw [hn, hn'])
    rw [← hc', ← heq]
    exact hcont
  · exact absurd hres' (hnone e' he' (by rw [← hIsDir e' he']; exact hd'))

theorem staged_dir_kind (outF : Str) (es : List ZipEntry) (fs₁ fsE : FsTree)
    (hfold : es.foldl (exStep outF) (Except.ok fs₁) = Except.ok fsE)
    (houtF1 : outF.head? = some '/') (houtF2 : dotFreeB outF = true)
    (hNames : ∀ e ∈ es, RelSafe e.name)
    (hIsDir : ∀ e ∈ es, e.isDir = endsSlash e.name)
    (rel : List Str)
    (hent : ∃ e ∈ es, e.isDir = true ∧ relComps e.name = rel) :
    kindAt fsE (relComps outF ++ rel) = some NodeKind.dirK := by
  obtain ⟨e, he, hd, hn⟩ := hent
  obtain ⟨hne, hhd, hdf⟩ := hNames e he
  exact extractFold_dir outF es fs₁ fsE hfold e he
    (by rw [← hIsDir e he]; exact hd)
    (relComps outF ++ rel)
    (by rw [strResolve_rustJoin outF e.name houtF1 houtF2 hhd hdf, hn])

/-! ## Lemmas: the sync-task construction on clean tasks -/

theorem cleanSrc_fileName (s : Str) (hs : CleanSrc s) :
    ∃ n, rustFileName s = some n ∧ okCompName n := by
  obtain ⟨h1, h2, h3, h4⟩ := hs
  cases hg : (relComps s).getLast? with
  | none => exact absurd (List.getLast?_eq_none_iff.mp hg) h4
  | some n =>
    refine ⟨n, ?_, ?_⟩
    · rw [rustFileName_of_comps s h1 h2 h4, hg]
    · exact relComps_ok_of_dotfree s h2 n (List.mem_of_getLast?_eq_some hg)

theorem create_sync_task_clean (t : CopyTask) (hs : CleanSrc t.source)
    (ht : CleanTgt t.target) :
    (create_sync_task t).extract_path = t.source ∧
    RelSafe (create_sync_task t).zip_path ∧
    endsSlash (create_sync_task t).zip_path = false ∧
    ((t.target = [] ∧
       relComps (create_sync_task t).zip_path = [(rustFileName t.source).getD []]) ∨
     (t.target ≠ [] ∧ endsSlash t.target = false ∧
       (create_sync_task t).zip_path = t.target) ∨
     (t.target ≠ [] ∧ endsSlash t.target = true ∧
       relComps (create_sync_task t).zip_path
         = relComps t.target ++ [(rustFileName t.source).getD []])) := by
  obtain ⟨n, hn, hnok⟩ := cleanSrc_fileName t.source hs
  obtain ⟨hs1, hs2, hs3, hs4⟩ := hs
  obtain ⟨ht1, ht2⟩ := ht
  obtain ⟨hnhd, hnend⟩ := okCompName_slash_free n hnok
  by_cases htgt : t.target = []
  · have hg : get_last_path_component t.source = some n := by
      rw [get_last_of_not_endsSlash t.source hs3, hn]
    unfold create_sync_task
    simp only [if_pos htgt, hs3, Bool.false_eq_true, if_false, hg, Option.getD_some]
    rw [if_neg hnhd, if_neg (by simp [hnend])]
    refine ⟨trivial, ⟨hnok.1, hnhd, dotFreeB_of_ok n hnok⟩, hnend, Or.inl ⟨htgt, ?_⟩⟩
    rw [relComps_single n hnok, hn]
    rfl
  · unfold create_sync_task
    simp only [if_neg htgt]
    rw [if_neg ht1]
    by_cases hte : endsSlash t.target = true
    · rw [if_pos (show endsSlash t.target = true ∧ ¬endsSlash t.source = true from
        ⟨hte, by simp [hs3]⟩), hn]
      have hane : t.target ++ n ≠ [] := by simp [htgt]
      refine ⟨trivial, ⟨hane, ?_, dotFreeB_append _ _ ht2 (dotFreeB_of_ok n hnok)⟩, ?_,
        Or.inr (Or.inr ⟨htgt, hte, ?_⟩)⟩
      · rw [head?_append_left _ _ htgt]
        exact ht1
      · rw [endsSlash_append_right _ _ hnok.1]
        exact hnend
      · rw [relComps_append_of_endsSlash _ _ hte, relComps_single n hnok]
        rfl
    · rw [if_neg (fun hc => hte hc.1)]
      have hte' : endsSlash t.target = false := by
        cases h : endsSlash t.target with
        | false => rfl
        | true => exact absurd h hte
      exact ⟨trivial, ⟨htgt, ht1, ht2⟩, hte', Or.inr (Or.inl ⟨htgt, hte', rfl⟩)⟩

/-! ## Lemmas: the recursive merge copy of the syncer -/

theorem copyMergeChildren_nil (fs : FsTree) (dest : List Str) :
    copyMergeChildren [] fs dest = some fs := by
  simp [copyMergeChildren]

theorem copyMergeChildren_file (n : Str) (b : Bytes) (rest : List (Str × FsTree))
    (fs : FsTree) (dest : List Str) :
    copyMergeChildren ((n, FsTree.file b) :: rest) fs dest =
      (match writeFileAt fs (dest ++ [n]) b with
       | none => none
       | some fs₁ => copyMergeChildren rest fs₁ dest) := by
  simp [copyMergeChildren]

theorem copyMergeChildren_dir (n : Str) (ccs rest : List (Str × FsTree))
    (fs : FsTree) (dest : List Str) :
    copyMergeChildren ((n, FsTree.dir ccs) :: rest) fs dest =
      (match createDirAll fs (dest ++ [n]) with
       | none => none
       | some fs₁ =>
         match copyMergeChildren ccs fs₁ (dest ++ [n]) with
         | none => none
         | some fs₂ => copyMergeChildren rest fs₂ dest) := by
  simp [copyMergeChildren]

theorem copyMergeChildren_other (n : Str) (rest : List (Str × FsTree))
    (fs : FsTree) (dest : List Str) :
    copyMergeChildren ((n, FsTree.other) :: rest) fs dest =
      copyMergeChildren rest fs dest := by
  simp [copyMergeChildren]

theorem copyMerge_safe (fs₀ : FsTree) (srcs : List (List Str))
    (cs : List (Str × FsTree)) :
    ∀ fs dest fs', copyMergeChildren cs fs dest = some fs' →
    Inv fs₀ srcs fs →
    (∀ r c, (r, c) ∈ relFilesChildren cs → SafeWrite fs₀ srcs (dest ++ r) c) →
    (∃ u ∈ srcs, u <+: dest) →
    Inv fs₀ srcs fs' ∧ ∀ p, SInc srcs p → lookupNode fs' p = lookupNode fs p := by
  induction cs using relFilesChildren.induct with
  | case1 =>
    intro fs dest fs' h hInv hsafe hdest
    rw [copyMergeChildren_nil] at h
    injection h with h₂
    subst h₂
    exact ⟨hInv, fun p hp => rfl⟩
  | case2 n b rest ih =>
    intro fs dest fs' h hInv hsafe hdest
    rw [copyMergeChildren_file] at h
    cases hw : writeFileAt fs (dest ++ [n]) b with
    | none => rw [hw] at h; cases h
    | some fs₁ =>
      rw [hw] at h
      obtain ⟨u, hu, hud⟩ := hdest
      have hcomp : dest ++ [n] <+: u ∨ u <+: dest ++ [n] :=
        Or.inr (hud.trans (List.prefix_append dest [n]))
      have hsafe₁ : SafeWrite fs₀ srcs (dest ++ [n]) b :=
        hsafe [n] b (by rw [relFilesChildren_file]; exact List.mem_cons_self _ _)
      have hInv₁ : Inv fs₀ srcs fs₁ := Inv_writeFileAt fs₀ srcs fs fs₁ _ b hw hInv hsafe₁
      obtain ⟨hInv', hstab'⟩ := ih fs₁ dest fs' h hInv₁
        (fun r c hrc => hsafe r c
          (by rw [relFilesChildren_file]; exact List.mem_cons_of_mem _ hrc))
        ⟨u, hu, hud⟩
      refine ⟨hInv', fun p hp => ?_⟩
      rw [hstab' p hp]
      exact writeFileAt_val _ fs b fs₁ hw p
        (not_prefix_of_comparable srcs p _ u hu hcomp hp)
  | case3 n ccs rest ihc ihr =>
    intro fs dest fs' h hInv hsafe hdest
    rw [copyMergeChildren_dir] at h
    cases hmk : createDirAll fs (dest ++ [n]) with
    | none => rw [hmk] at h; cases h
    | some fs₁ =>
      rw [hmk] at h
      have h₂ : (match copyMergeChildren ccs fs₁ (dest ++ [n]) with
          | none => none
          | some fs₂ => copyMergeChildren rest fs₂ dest) = some fs' := h
      cases hcm : copyMergeChildren ccs fs₁ (dest ++ [n]) with
      | none => rw [hcm] at h₂; cases h₂
      | some fs₂ =>
        rw [hcm] at h₂
        obtain ⟨u, hu, hud⟩ := hdest
        have hcomp : dest ++ [n] <+: u ∨ u <+: dest ++ [n] :=
          Or.inr (hud.trans (List.prefix_append dest [n]))
        have hInv₁ : Inv fs₀ srcs fs₁ := Inv_createDirAll fs₀ srcs fs fs₁ _ hmk hInv
        have hsafeC : ∀ r c, (r, c) ∈ relFilesChildren ccs →
            SafeWrite fs₀ srcs ((dest ++ [n]) ++ r) c := by
          intro r c hrc
          have hmem : (n :: r, c) ∈ relFilesChildren ((n, FsTree.dir ccs) :: rest) := by
            rw [relFilesChildren_dir]
            exact List.mem_append_left _ (List.mem_map.mpr ⟨(r, c), hrc, rfl⟩)
          have hsw := hsafe (n :: r) c hmem
          rw [show dest ++ [n] ++ r = dest ++ n :: r from by simp]
          exact hsw
        obtain ⟨hInvC, hstabC⟩ := ihc fs₁ (dest ++ [n]) fs₂ hcm hInv₁ hsafeC
          ⟨u, hu, hud.trans (List.prefix_append dest [n])⟩
        obtain ⟨hInvR, hstabR⟩ := ihr fs₂ dest fs' h₂ hInvC
          (fun r c hrc => hsafe r c
            (by rw [relFilesChildren_dir]; exact List.mem_append_right _ hrc))
          ⟨u, hu, hud⟩
        refine ⟨hInvR, fun p hp => ?_⟩
        rw [hstabR p hp, hstabC p hp]
        exact createDirAll_val _ fs fs₁ hmk p
          (not_prefix_of_comparable srcs p _ u hu hcomp hp)
  | case4 n rest ih =>
    intro fs dest fs' h hInv hsafe hdest
    rw [copyMergeChildren_other] at h
    exact ih fs dest fs' h hInv
      (fun r c hrc => hsafe r c (by rw [relFilesChildren_other]; exact hrc)) hdest

/-! ## Lemmas: safety of one sync task -/

theorem syncOne_safe (fs₀ : FsTree) (srcs : List (List Str)) (outF : Str)
    (es : List ZipEntry) (fs₁ fsE : FsTree)
    (hfold : es.foldl (exStep outF) (Except.ok fs₁) = Except.ok fsE)
    (hwfE : wfTree fsE = true)
    (houtF1 : outF.head? = some '/') (houtF2 : dotFreeB outF = true)
    (hS : ∀ u ∈ srcs, ¬u <+: relComps outF ∧ ¬relComps outF <+: u)
    (hNames : ∀ e ∈ es, RelSafe e.name)
    (hIsDir : ∀ e ∈ es, e.isDir = endsSlash e.name)
    (hH4 : ((es.filter fun e => !e.isDir).map fun e => relComps e.name).Nodup)
    (st : SyncTask)
    (hsrc : CleanSrc st.extract_path)
    (hu : relComps st.extract_path ∈ srcs)
    (hz1 : RelSafe st.zip_path) (hz2 : endsSlash st.zip_path = false)
    (hfileC : ∀ b₀, kindAt fs₀ (relComps st.extract_path) = some (NodeKind.fileK b₀) →
      (∃ e ∈ es, e.isDir = false ∧ relComps e.name = relComps st.zip_path ∧
        e.content = b₀) ∨
      (∃ e ∈ es, e.isDir = true ∧ relComps e.name = relComps st.zip_path))
    (hdirC : ∀ cs₀, lookupNode fs₀ (relComps st.extract_path) = some (FsTree.dir cs₀) →
      (∃ e ∈ es, e.isDir = true ∧ relComps e.name = relComps st.zip_path) ∧
      (∀ r b₀, (r, b₀) ∈ relFilesChildren cs₀ →
        ∃ e ∈ es, e.isDir = false ∧
          relComps e.name = relComps st.zip_path ++ r ∧ e.content = b₀))
    (fs : FsTree) (hInv : Inv fs₀ srcs fs)
    (hstab : ∀ p, SInc srcs p → lookupNode fs p = lookupNode fsE p) :
    ∀ fs', syncOne outF fs st = some fs' →
      Inv fs₀ srcs fs' ∧ ∀ p, SInc srcs p → lookupNode fs' p = lookupNode fs p := by
  intro fs' h
  obtain ⟨hzne, hzhd, hzdf⟩ := hz1
  have houtFne : outF ≠ [] := by
    intro hc
    rw [hc] at houtF1
    cases houtF1
  obtain ⟨hs1, hs2, hs3, hs4⟩ := hsrc
  have hjres : strResolve (rustJoin outF st.zip_path) =
      some (relComps outF ++ relComps st.zip_path) :=
    strResolve_rustJoin outF st.zip_path houtF1 houtF2 hzhd hzdf
  have hjend : endsSlash (rustJoin outF st.zip_path) = false := by
    rw [endsSlash_rustJoin outF st.zip_path houtFne hzhd hzne]
    exact hz2
  have hstatZ : statNode fs (rustJoin outF st.zip_path) =
      lookupNode fs (relComps outF ++ relComps st.zip_path) :=
    statNode_of_resolve fs _ _ hjres hjend
  have hstatS : statNode fs st.extract_path = lookupNode fs (relComps st.extract_path) :=
    statNode_clean fs st.extract_path ⟨hs1, hs2, hs3, hs4⟩
  have hressrc : strResolve st.extract_path = some (relComps st.extract_path) :=
    strResolve_eq_relComps st.extract_path hs1 hs2
  have hSstag : ∀ x, SInc srcs (relComps outF ++ x) := SInc_staging srcs (relComps outF) hS
  have hstagval : lookupNode fs (relComps outF ++ relComps st.zip_path)
      = lookupNode fsE (relComps outF ++ relComps st.zip_path) :=
    hstab _ (hSstag _)
  have hsrcok : ∀ c ∈ relComps st.extract_path, okCompName c :=
    relComps_ok_of_dotfree st.extract_path hs2
  have hdropok : ∀ c ∈ (relComps st.extract_path).dropLast, okCompName c :=
    fun c hc => hsrcok c (List.mem_of_mem_dropLast hc)
  have hnotdrop : ¬(relComps outF ++ relComps st.zip_path <+:
      (relComps st.extract_path).dropLast) := by
    intro hc
    exact (hS _ hu).2
      ((List.prefix_append _ _).trans (hc.trans (List.dropLast_prefix _)))
  have hnotu : ¬(relComps outF ++ relComps st.zip_path <+: relComps st.extract_path) := by
    intro hc
    exact (hS _ hu).2 ((List.prefix_append _ _).trans hc)
  simp only [syncOne] at h
  by_cases hex : pathExists fs (rustJoin outF st.zip_path) = true
  · rw [if_neg (by simp [hex])] at h
    by_cases hisf : pathIsFile fs (rustJoin outF st.zip_path) = true
    · -- the staged path is a file
      rw [if_pos hisf] at h
      obtain ⟨c, hcval⟩ := (pathIsFile_iff fs _ _ hstatZ).mp hisf
      have hcE : lookupNode fsE (relComps outF ++ relComps st.zip_path)
          = some (FsTree.file c) := by
        rw [← hstagval]
        exact hcval
      have hkE : kindAt fsE (relComps outF ++ relComps st.zip_path)
          = some (NodeKind.fileK c) := kindAt_of_lookup_file _ _ _ hcE
      by_cases hsd : (pathExists fs st.extract_path && pathIsDir fs st.extract_path) = true
      · -- the original location is an existing directory: the syncer appends
        -- the staged file name and writes inside the source directory
        rw [if_pos hsd] at h
        have hsd' := hsd
        simp only [Bool.and_eq_true] at hsd'
        obtain ⟨csx, hcsx⟩ := (pathIsDir_iff fs _ _ hstatS).mp hsd'.2
        have hrelne : relComps st.zip_path ≠ [] :=
          relComps_ne_nil_of_head st.zip_path hzhd hzne
        obtain ⟨hjh, hjdf, hjrelc⟩ :=
          rustJoin_abs_facts outF st.zip_path houtF1 houtF2 hzhd hzdf
        cases hlast : (relComps st.zip_path).getLast? with
        | none => exact absurd (List.getLast?_eq_none_iff.mp hlast) hrelne
        | some n' =>
        have hn'ok : okCompName n' :=
          relComps_ok_of_dotfree st.zip_path hzdf n' (List.mem_of_getLast?_eq_some hlast)
        obtain ⟨hn'hd, hn'end⟩ := okCompName_slash_free n' hn'ok
        have hfnZ : rustFileName (rustJoin outF st.zip_path) = some n' := by
          rw [rustFileName_of_comps _ hjh hjdf (by rw [hjrelc]; simp [hrelne]), hjrelc,
            List.getLast?_append_of_ne_nil _ hrelne, hlast]
        rw [hfnZ] at h
        have h₂ : (match (match rustParent (rustJoin st.extract_path n') with
            | some parent => if parent = [] then some fs
              else (strResolve parent).bind (createDirAll fs)
            | none => some fs) with
          | none => none
          | some fs₁ =>
            match nodeAtStr fs₁ (rustJoin outF st.zip_path) with
            | some (FsTree.file b) =>
              (strResolve (rustJoin st.extract_path n')).bind fun dp =>
                writeFileAt fs₁ dp b
            | _ => none) = some fs' := h
        obtain ⟨hep1, hep2, hep3⟩ := rustJoin_abs_facts st.extract_path n' hs1 hs2 hn'hd
          (dotFreeB_of_ok n' hn'ok)
        have hepcomps : relComps (rustJoin st.extract_path n')
            = relComps st.extract_path ++ [n'] := by
          rw [hep3, relComps_single n' hn'ok]
        have hepres : strResolve (rustJoin st.extract_path n')
            = some (relComps st.extract_path ++ [n']) := by
          rw [strResolve_eq_relComps _ hep1 hep2, hepcomps]
        have hpar : rustParent (rustJoin st.extract_path n')
            = some ('/' :: joinSlash (relComps st.extract_path)) := by
          rw [rustParent_abs_dotfree _ hep1 hep2 (by rw [hepcomps]; simp), hepcomps,
            List.dropLast_concat]
        rw [hpar] at h₂
        have h₃ : (match (if ('/' :: joinSlash (relComps st.extract_path) : Str) = []
              then some fs
              else (strResolve ('/' :: joinSlash (relComps st.extract_path))).bind
                (createDirAll fs)) with
          | none => none
          | some fs₁ =>
            match nodeAtStr fs₁ (rustJoin outF st.zip_path) with
            | some (FsTree.file b) =>
              (strResolve (rustJoin st.extract_path n')).bind fun dp =>
                writeFileAt fs₁ dp b
            | _ => none) = some fs' := h₂
        rw [if_neg (by simp)] at h₃
        have hresP : strResolve ('/' :: joinSlash (relComps st.extract_path))
            = some (relComps st.extract_path) := by
          rw [strResolve_eq_relComps ('/' :: joinSlash (relComps st.extract_path)) rfl
              (dotFreeB_abs_render _ hsrcok),
            relComps_abs_render _ (fun q hq => ⟨(hsrcok q hq).1, (hsrcok q hq).2.2.2⟩)]
        rw [hresP] at h₃
        have h₄ : (match createDirAll fs (relComps st.extract_path) with
          | none => none
          | some fs₁ =>
            match nodeAtStr fs₁ (rustJoin outF st.zip_path) with
            | some (FsTree.file b) =>
              (strResolve (rustJoin st.extract_path n')).bind fun dp =>
                writeFileAt fs₁ dp b
            | _ => none) = some fs' := h₃
        rw [createDirAll_noop _ fs csx hcsx] at h₄
        have h₅ : (match nodeAtStr fs (rustJoin outF st.zip_path) with
          | some (FsTree.file b) =>
            (strResolve (rustJoin st.extract_path n')).bind fun dp =>
              writeFileAt fs dp b
          | _ => none) = some fs' := h₄
        rw [show nodeAtStr fs (rustJoin outF st.zip_path)
            = lookupNode fs (relComps outF ++ relComps st.zip_path) from by
              unfold nodeAtStr
              rw [hjres]
              rfl, hcval] at h₅
        have h₆ : ((strResolve (rustJoin st.extract_path n')).bind fun dp =>
            writeFileAt fs dp c) = some fs' := h₅
        rw [hepres] at h₆
        have h₇ : writeFileAt fs (relComps st.extract_path ++ [n']) c = some fs' := h₆
        have hsafeW : SafeWrite fs₀ srcs (relComps st.extract_path ++ [n']) c := by
          intro hund b₀ hb₀
          obtain ⟨cs₀, hcs₀⟩ := ancestor_dir fs₀ (relComps st.extract_path) n' [] _
            (by rw [show relComps st.extract_path ++ [n']
                = relComps st.extract_path ++ n' :: [] from rfl] at hb₀; exact hb₀)
          have hdk := staged_dir_kind outF es fs₁ fsE hfold houtF1 houtF2 hNames hIsDir
            (relComps st.zip_path) (hdirC cs₀ hcs₀).1
          exact absurd (hkE.symm.trans hdk) (by simp)
        refine ⟨Inv_writeFileAt fs₀ srcs fs fs' _ c h₇ hInv hsafeW, fun p hp => ?_⟩
        exact writeFileAt_val _ fs c fs' h₇ p
          (not_prefix_of_comparable srcs p _ _ hu
            (Or.inr (List.prefix_append _ _)) hp)
      · -- the destination is the extract path itself
        rw [if_neg hsd] at h
        have h₂ : (match (match rustParent st.extract_path with
            | some parent => if parent = [] then some fs
              else (strResolve parent).bind (createDirAll fs)
            | none => some fs) with
          | none => none
          | some fs₁ =>
            match nodeAtStr fs₁ (rustJoin outF st.zip_path) with
            | some (FsTree.file b) =>
              (strResolve st.extract_path).bind fun dp => writeFileAt fs₁ dp b
            | _ => none) = some fs' := h
        rw [rustParent_abs_dotfree st.extract_path hs1 hs2 hs4] at h₂
        have h₃ : (match (if ('/' :: joinSlash (relComps st.extract_path).dropLast : Str)
              = [] then some fs
              else (strResolve
                ('/' :: joinSlash (relComps st.extract_path).dropLast)).bind
                (createDirAll fs)) with
          | none => none
          | some fs₁ =>
            match nodeAtStr fs₁ (rustJoin outF st.zip_path) with
            | some (FsTree.file b) =>
              (strResolve st.extract_path).bind fun dp => writeFileAt fs₁ dp b
            | _ => none) = some fs' := h₂
        rw [if_neg (by simp)] at h₃
        have hresP : strResolve ('/' :: joinSlash (relComps st.extract_path).dropLast)
            = some ((relComps st.extract_path).dropLast) := by
          rw [strResolve_eq_relComps
              ('/' :: joinSlash (relComps st.extract_path).dropLast) rfl
              (dotFreeB_abs_render _ hdropok),
            relComps_abs_render _ (fun q hq => ⟨(hdropok q hq).1, (hdropok q hq).2.2.2⟩)]
        rw [hresP] at h₃
        have h₄ : (match createDirAll fs ((relComps st.extract_path).dropLast) with
          | none => none
          | some fs₁ =>
            match nodeAtStr fs₁ (rustJoin outF st.zip_path) with
            | some (FsTree.file b) =>
              (strResolve st.extract_path).bind fun dp => writeFileAt fs₁ dp b
            | _ => none) = some fs' := h₃
        cases hmk : createDirAll fs ((relComps st.extract_path).dropLast) with
        | none => rw [hmk] at h₄; cases h₄
        | some fsm =>
        rw [hmk] at h₄
        have h₅ : (match nodeAtStr fsm (rustJoin outF st.zip_path) with
          | some (FsTree.file b) =>
            (strResolve st.extract_path).bind fun dp => writeFileAt fsm dp b
          | _ => none) = some fs' := h₄
        rw [show nodeAtStr fsm (rustJoin outF st.zip_path)
            = lookupNode fsm (relComps outF ++ relComps st.zip_path) from by
              unfold nodeAtStr
              rw [hjres]
              rfl,
          createDirAll_val _ fs fsm hmk _ hnotdrop, hcval] at h₅
        have h₆ : ((strResolve st.extract_path).bind fun dp =>
            writeFileAt fsm dp c) = some fs' := h₅
        rw [hressrc] at h₆
        have h₇ : writeFileAt fsm (relComps st.extract_path) c = some fs' := h₆
        have hsafeW : SafeWrite fs₀ srcs (relComps st.extract_path) c := by
          intro hund b₀ hb₀
          rcases hfileC b₀ hb₀ with hfe | hde
          · exact staged_content_unique outF es fs₁ fsE hfold houtF1 houtF2 hNames
              hIsDir hH4 (relComps st.zip_path) c b₀ hkE hfe
          · have hdk := staged_dir_kind outF es fs₁ fsE hfold houtF1 houtF2 hNames
              hIsDir (relComps st.zip_path) hde
            exact absurd (hkE.symm.trans hdk) (by simp)
        have hInvM : Inv fs₀ srcs fsm := Inv_createDirAll fs₀ srcs fs fsm _ hmk hInv
        refine ⟨Inv_writeFileAt fs₀ srcs fsm fs' _ c h₇ hInvM hsafeW, fun p hp => ?_⟩
        rw [writeFileAt_val _ fsm c fs' h₇ p
          (not_prefix_of_comparable srcs p _ _ hu (Or.inl List.prefix_rfl) hp)]
        exact createDirAll_val _ fs fsm hmk p
          (not_prefix_of_comparable srcs p _ _ hu
            (Or.inl (List.dropLast_prefix _)) hp)
    · rw [if_neg hisf] at h
      by_cases hisd : pathIsDir fs (rustJoin outF st.zip_path) = true
      · -- the staged path is a directory: merge it into the source location
        rw [if_pos hisd] at h
        obtain ⟨cs_st, hstg⟩ := (pathIsDir_iff fs _ _ hstatZ).mp hisd
        rw [hressrc] at h
        have h₂ : (match createDirAll fs (relComps st.extract_path) with
          | none => none
          | some fs₁ =>
            match nodeAtStr fs₁ (rustJoin outF st.zip_path) with
            | some (FsTree.dir cs) => copyMergeChildren cs fs₁ (relComps st.extract_path)
            | _ => none) = some fs' := h
        cases hmk : createDirAll fs (relComps st.extract_path) with
        | none => rw [hmk] at h₂; cases h₂
        | some fsm =>
        rw [hmk] at h₂
        have h₃ : (match nodeAtStr fsm (rustJoin outF st.zip_path) with
          | some (FsTree.dir cs) => copyMergeChildren cs fsm (relComps st.extract_path)
          | _ => none) = some fs' := h₂
        rw [show nodeAtStr fsm (rustJoin outF st.zip_path)
            = lookupNode fsm (relComps outF ++ relComps st.zip_path) from by
              unfold nodeAtStr
              rw [hjres]
              rfl,
          createDirAll_val _ fs fsm hmk _ hnotu, hstg] at h₃
        have h₄ : copyMergeChildren cs_st fsm (relComps st.extract_path) = some fs' := h₃
        have hstgE : lookupNode fsE (relComps outF ++ relComps st.zip_path)
            = some (FsTree.dir cs_st) := by
          rw [← hstagval]
          exact hstg
        have hwfst : wfChildren cs_st = true :=
          wfTree_subtree _ fsE (FsTree.dir cs_st) hwfE hstgE
        have hInvM : Inv fs₀ srcs fsm := Inv_createDirAll fs₀ srcs fs fsm _ hmk hInv
        have hsafeM : ∀ r c', (r, c') ∈ relFilesChildren cs_st →
            SafeWrite fs₀ srcs (relComps st.extract_path ++ r) c' := by
          intro r c' hrc hund b₀ hb₀
          obtain ⟨m, r₂, hr, w, hw⟩ := relFilesChildren_shape cs_st r c' hrc
          subst hr
          obtain ⟨cs₀, hcs₀⟩ := ancestor_dir fs₀ (relComps st.extract_path) m r₂ _ hb₀
          have hfs₀sub : lookupNode fs₀ (relComps st.extract_path ++ m :: r₂)
              = some (FsTree.file b₀) := lookup_of_kind_file _ _ _ hb₀
          have hsub₂ : lookupNode (FsTree.dir cs₀) (m :: r₂) = some (FsTree.file b₀) := by
            rw [lookupNode_append, hcs₀] at hfs₀sub
            exact hfs₀sub
          have hmem₀ : (m :: r₂, b₀) ∈ relFilesChildren cs₀ :=
            mem_relFilesChildren_of_lookup cs₀ (m :: r₂) b₀ hsub₂
          have hentry := (hdirC cs₀ hcs₀).2 (m :: r₂) b₀ hmem₀
          have hlk : lookupNode (FsTree.dir cs_st) (m :: r₂) = some (FsTree.file c') :=
            lookup_of_mem_relFilesChildren cs_st hwfst (m :: r₂) c' hrc
          have hkE₂ : kindAt fsE
              (relComps outF ++ (relComps st.zip_path ++ m :: r₂))
              = some (NodeKind.fileK c') := by
            rw [← List.append_assoc,
              kindAt_append_of_lookup fsE _ _ _ hstgE]
            exact kindAt_of_lookup_file _ _ _ hlk
          exact staged_content_unique outF es fs₁ fsE hfold houtF1 houtF2 hNames hIsDir
            hH4 (relComps st.zip_path ++ m :: r₂) c' b₀ hkE₂ hentry
        obtain ⟨hInv', hstab'⟩ := copyMerge_safe fs₀ srcs cs_st fsm
          (relComps st.extract_path) fs' h₄ hInvM hsafeM ⟨_, hu, List.prefix_rfl⟩
        refine ⟨hInv', fun p hp => ?_⟩
        rw [hstab' p hp]
        exact createDirAll_val _ fs fsm hmk p
          (not_prefix_of_comparable srcs p _ _ hu (Or.inl List.prefix_rfl) hp)
      · rw [if_neg hisd] at h
        injection h with h₂
        subst h₂
        exact ⟨hInv, fun p hp => rfl⟩
  · have hex' : pathExists fs (rustJoin outF st.zip_path) = false := by
      cases hpe : pathExists fs (rustJoin outF st.zip_path) with
      | false => rfl
      | true => exact absurd hpe hex
    rw [if_pos (by rw [hex']; rfl)] at h
    injection h with h₂
    subst h₂
    exact ⟨hInv, fun p hp => rfl⟩

/-! ## Lemmas: the sync loop -/

theorem sync_fold_stuck (outF : Str) (sts : List SyncTask) : ∀ fs : FsTree,
    sts.foldl
      (fun (stacc : FsTree × Bool) t =>
        if stacc.2 then
          match syncOne outF stacc.1 t with
          | some f => (f, true)
          | none => (stacc.1, false)
        else stacc) (fs, false) = (fs, false) := by
  induction sts with
  | nil =>
    intro fs
    rfl
  | cons st rest ih =>
    intro fs
    rw [List.foldl_cons]
    exact ih fs

theorem sync_fold_safe (fs₀ : FsTree) (srcs : List (List Str)) (outF : Str)
    (es : List ZipEntry) (fs₁ fsE : FsTree)
    (hfold : es.foldl (exStep outF) (Except.ok fs₁) = Except.ok fsE)
    (hwfE : wfTree fsE = true)
    (houtF1 : outF.head? = some '/') (houtF2 : dotFreeB outF = true)
    (hS : ∀ u ∈ srcs, ¬u <+: relComps outF ∧ ¬relComps outF <+: u)
    (hNames : ∀ e ∈ es, RelSafe e.name)
    (hIsDir : ∀ e ∈ es, e.isDir = endsSlash e.name)
    (hH4 : ((es.filter fun e => !e.isDir).map fun e => relComps e.name).Nodup)
    (sts : List SyncTask) :
    ∀ (fs : FsTree) (ok : Bool), Inv fs₀ srcs fs →
    (∀ p, SInc srcs p → lookupNode fs p = lookupNode fsE p) →
    (∀ st ∈ sts, CleanSrc st.extract_path ∧ relComps st.extract_path ∈ srcs ∧
      RelSafe st.zip_path ∧ endsSlash st.zip_path = false ∧
      (∀ b₀, kindAt fs₀ (relComps st.extract_path) = some (NodeKind.fileK b₀) →
        (∃ e ∈ es, e.isDir = false ∧ relComps e.name = relComps st.zip_path ∧
          e.content = b₀) ∨
        (∃ e ∈ es, e.isDir = true ∧ relComps e.name = relComps st.zip_path)) ∧
      (∀ cs₀, lookupNode fs₀ (relComps st.extract_path) = some (FsTree.dir cs₀) →
        (∃ e ∈ es, e.isDir = true ∧ relComps e.name = relComps st.zip_path) ∧
        (∀ r b₀, (r, b₀) ∈ relFilesChildren cs₀ →
          ∃ e ∈ es, e.isDir = false ∧
            relComps e.name = relComps st.zip_path ++ r ∧ e.content = b₀))) →
    Inv fs₀ srcs ((sts.foldl
      (fun (stacc : FsTree × Bool) t =>
        if stacc.2 then
          match syncOne outF stacc.1 t with
          | some f => (f, true)
          | none => (stacc.1, false)
        else stacc) (fs, ok)).1) := by
  induction sts with
  | nil =>
    intro fs ok hInv hstab hall
    exact hInv
  | cons st rest ih =>
    intro fs ok hInv hstab hall
    rw [List.foldl_cons]
    by_cases hok : ok = true
    · subst hok
      cases hso : syncOne outF fs st with
      | some fs₂ =>
        obtain ⟨h1, h2, h3, h4, h5, h6⟩ := hall st (List.mem_cons_self _ _)
        obtain ⟨hInv₂, hstab₂⟩ := syncOne_safe fs₀ srcs outF es fs₁ fsE hfold hwfE
          houtF1 houtF2 hS hNames hIsDir hH4 st h1 h2 h3 h4 h5 h6 fs hInv hstab fs₂ hso
        show Inv fs₀ srcs ((List.foldl _ ((fs₂, true) : FsTree × Bool) rest).1)
        exact ih fs₂ true hInv₂
          (fun p hp => by rw [hstab₂ p hp]; exact hstab p hp)
          (fun t ht => hall t (List.mem_cons_of_mem _ ht))
      | none =>
        show Inv fs₀ srcs ((List.foldl _ ((fs, false) : FsTree × Bool) rest).1)
        rw [sync_fold_stuck outF rest fs]
        exact hInv
    · have hok' : ok = false := by
        cases ok with
        | false => rfl
        | true => exact absurd rfl hok
      subst hok'
      show Inv fs₀ srcs ((List.foldl _ ((fs, false) : FsTree × Bool) rest).1)
      rw [sync_fold_stuck outF rest fs]
      exact hInv

theorem sync_files_inv (fs₀ : FsTree) (srcs : List (List Str)) (outF : Str)
    (es : List ZipEntry) (fs₁ fsE : FsTree)
    (hfold : es.foldl (exStep outF) (Except.ok fs₁) = Except.ok fsE)
    (hwfE : wfTree fsE = true)
    (houtF1 : outF.head? = some '/') (houtF2 : dotFreeB outF = true)
    (hS : ∀ u ∈ srcs, ¬u <+: relComps outF ∧ ¬relComps outF <+: u)
    (hNames : ∀ e ∈ es, RelSafe e.name)
    (hIsDir : ∀ e ∈ es, e.isDir = endsSlash e.name)
    (hH4 : ((es.filter fun e => !e.isDir).map fun e => relComps e.name).Nodup)
    (sts : List SyncTask)
    (hInvE : Inv fs₀ srcs fsE)
    (hall : ∀ st ∈ sts, CleanSrc st.extract_path ∧ relComps st.extract_path ∈ srcs ∧
      RelSafe st.zip_path ∧ endsSlash st.zip_path = false ∧
      (∀ b₀, kindAt fs₀ (relComps st.extract_path) = some (NodeKind.fileK b₀) →
        (∃ e ∈ es, e.isDir = false ∧ relComps e.name = relComps st.zip_path ∧
          e.content = b₀) ∨
        (∃ e ∈ es, e.isDir = true ∧ relComps e.name = relComps st.zip_path)) ∧
      (∀ cs₀, lookupNode fs₀ (relComps st.extract_path) = some (FsTree.dir cs₀) →
        (∃ e ∈ es, e.isDir = true ∧ relComps e.name = relComps st.zip_path) ∧
        (∀ r b₀, (r, b₀) ∈ relFilesChildren cs₀ →
          ∃ e ∈ es, e.isDir = false ∧
            relComps e.name = relComps st.zip_path ++ r ∧ e.content = b₀))) :
    Inv fs₀ srcs (sync_files fsE outF sts).1 := by
  unfold sync_files
  exact sync_fold_safe fs₀ srcs outF es fs₁ fsE hfold hwfE houtF1 houtF2 hS hNames
    hIsDir hH4 sts fsE true hInvE (fun p hp => rfl) hall

/-! ## Lemmas: rendered relative paths -/

theorem joinSlash_head_ok (cs : List Str) (hne : cs ≠ []) (hok : ∀ c ∈ cs, okCompName c) :
    ¬(joinSlash cs).head? = some '/' := by
  cases cs with
  | nil => exact absurd rfl hne
  | cons c t =>
    have hcm : c ∈ c :: t := List.mem_cons_self c t
    unfold joinSlash
    rw [joinWithChar_head '/' c t (hok c hcm).1]
    intro hh
    have ha : '/' ∈ c := List.mem_of_mem_head? (by simp [hh])
    exact (hok c hcm).2.2.2 ha

theorem rel_render_relsafe (cs : List Str) (hne : cs ≠ []) (hok : ∀ c ∈ cs, okCompName c) :
    RelSafe (joinSlash cs) ∧ relComps (joinSlash cs) = cs := by
  refine ⟨⟨?_, joinSlash_head_ok cs hne hok, dotFreeB_rel_render cs hok⟩,
    relComps_rel_render cs (fun c hc => ⟨(hok c hc).1, (hok c hc).2.2.2⟩)⟩
  cases cs with
  | nil => exact absurd rfl hne
  | cons c t =>
    intro hc
    have hh := joinWithChar_head '/' c t (hok c (List.mem_cons_self c t)).1
    have hc₂ : joinWithChar '/' (c :: t) = [] := hc
    rw [hc₂] at hh
    cases hcc : c with
    | nil => exact (hok c (List.mem_cons_self c t)).1 hcc
    | cons a b =>
      rw [hcc] at hh
      cases hh

theorem dirEntry_facts (dl : List Str) (hok : ∀ c ∈ dl, okCompName c) :
    ∀ e ∈ (if (joinSlash dl : Str) = [] then ([] : List ZipEntry)
           else [ZipEntry.mk (joinSlash dl ++ ['/']) true []]),
      RelSafe e.name ∧ e.isDir = endsSlash e.name ∧ relComps e.name = dl := by
  intro e he
  by_cases hd : (joinSlash dl : Str) = []
  · rw [if_pos hd] at he
    cases he
  · rw [if_neg hd] at he
    rcases List.mem_singleton.mp he with rfl
    have hdl : dl ≠ [] := by
      intro hc
      subst hc
      exact hd rfl
    obtain ⟨hrs, hrc⟩ := rel_render_relsafe dl hdl hok
    refine ⟨RelSafe_concat_slash _ hrs, ?_, ?_⟩
    · show true = endsSlash (joinSlash dl ++ ['/'])
      rw [endsSlash_concat_slash]
    · show relComps (joinSlash dl ++ ['/']) = dl
      rw [relComps_concat_slash, hrc]

/-! ## Lemmas: the entries one task contributes, against the sync task -/

theorem taskEntries_spec (fs₀ fsB : FsTree) (t : CopyTask)
    (hwf : wfTree fs₀ = true)
    (hs : CleanSrc t.source) (ht : CleanTgt t.target)
    (hdirT : kindAt fs₀ (relComps t.source) = some NodeKind.dirK →
      endsSlash t.target = false)
    (hval : statNode fsB t.source = lookupNode fs₀ (relComps t.source)) :
    (∀ e ∈ taskEntries fsB t, RelSafe e.name ∧ e.isDir = endsSlash e.name) ∧
    (∀ b₀, kindAt fs₀ (relComps t.source) = some (NodeKind.fileK b₀) →
      (∃ e ∈ taskEntries fsB t, e.isDir = false ∧
         relComps e.name = relComps (create_sync_task t).zip_path ∧ e.content = b₀) ∨
      (∃ e ∈ taskEntries fsB t, e.isDir = true ∧
         relComps e.name = relComps (create_sync_task t).zip_path)) ∧
    (∀ cs₀, lookupNode fs₀ (relComps t.source) = some (FsTree.dir cs₀) →
      (∃ e ∈ taskEntries fsB t, e.isDir = true ∧
         relComps e.name = relComps (create_sync_task t).zip_path) ∧
      (∀ r b₀, (r, b₀) ∈ relFilesChildren cs₀ →
        ∃ e ∈ taskEntries fsB t, e.isDir = false ∧
          relComps e.name = relComps (create_sync_task t).zip_path ++ r ∧
          e.content = b₀)) := by
  obtain ⟨n, hn, hnok⟩ := cleanSrc_fileName t.source hs
  obtain ⟨hnhd, hnend⟩ := okCompName_slash_free n hnok
  obtain ⟨hcst_ep, hcst_rs, hcst_es, hcst⟩ := create_sync_task_clean t hs ht
  obtain ⟨hs1, hs2, hs3, hs4⟩ := hs
  obtain ⟨ht1, ht2⟩ := ht
  cases hlk : lookupNode fs₀ (relComps t.source) with
  | none =>
    have hte : taskEntries fsB t = [] := by
      unfold taskEntries
      rw [hval, hlk]
    rw [hte]
    refine ⟨fun e he => absurd he (List.not_mem_nil e), fun b₀ hb₀ => ?_,
      fun cs₀ hcs₀ => absurd hcs₀ (by simp)⟩
    have hlf := lookup_of_kind_file fs₀ _ b₀ hb₀
    rw [hlk] at hlf
    exact absurd hlf (by simp)
  | some node =>
    cases node with
    | other =>
      have hte : taskEntries fsB t = [] := by
        unfold taskEntries
        rw [hval, hlk]
      rw [hte]
      refine ⟨fun e he => absurd he (List.not_mem_nil e), fun b₀ hb₀ => ?_,
        fun cs₀ hcs₀ => absurd hcs₀ (by simp)⟩
      have hlf := lookup_of_kind_file fs₀ _ b₀ hb₀
      rw [hlk] at hlf
      exact absurd hlf (by simp)
    | file b =>
      have hstatB : statNode fsB t.source = some (FsTree.file b) := by rw [hval, hlk]
      have hte : taskEntries fsB t = (add_file_to_zip honestEnv fsB t.source
          (get_target_file_path ((rustFileName t.source).getD []) t)).1 := by
        unfold taskEntries
        rw [hstatB]
      have hte₂ : taskEntries fsB t = (add_file_to_zip honestEnv fsB t.source
          (get_target_file_path n t)).1 := by
        rw [hte, hn]
        rfl
      have hafz := add_file_to_zip_honest fsB t.source (get_target_file_path n t) b hstatB
      have hbinj : ∀ b₀, kindAt fs₀ (relComps t.source) = some (NodeKind.fileK b₀) →
          b = b₀ := by
        intro b₀ hb₀
        have hlf := lookup_of_kind_file fs₀ _ b₀ hb₀
        rw [hlk] at hlf
        injection hlf with h1
        injection h1 with h2
      by_cases htgt : t.target = []
      · -- target empty: the archive path is the bare file name
        rcases hcst with ⟨htg0, hzrel⟩ | ⟨htgne, hteF, hzeq⟩ | ⟨htgne, hteT, hzrel⟩
        · have hzrel₂ : relComps (create_sync_task t).zip_path = [n] := by
            rw [hzrel, hn]
            rfl
          have htp : get_target_file_path n t = n := by
            unfold get_target_file_path
            rw [if_pos htgt]
          have hpn := rustParent_rel_dotfree n hnhd (dotFreeB_of_ok n hnok)
            (by rw [relComps_single n hnok]; simp)
          rw [relComps_single n hnok] at hpn
          have hpn₂ : rustParent n = some ([] : Str) := by
            rw [hpn]
            rfl
          rw [htp, hpn₂] at hafz
          have hafz₂ : add_file_to_zip honestEnv fsB t.source n =
              ((if ([] : Str) = [] then ([] : List ZipEntry)
                else [ZipEntry.mk (([] : Str) ++ ['/']) true []]) ++
               [ZipEntry.mk n false b], true) := hafz
          rw [if_pos rfl] at hafz₂
          have hE : taskEntries fsB t = [ZipEntry.mk n false b] := by
            rw [hte₂, htp, hafz₂]
            rfl
          rw [hE]
          refine ⟨?_, fun b₀ hb₀ => ?_, fun cs₀ hcs₀ => absurd hcs₀ (by simp)⟩
          · intro e he
            rcases List.mem_singleton.mp he with rfl
            exact ⟨⟨hnok.1, hnhd, dotFreeB_of_ok n hnok⟩, hnend.symm⟩
          · refine Or.inl ⟨ZipEntry.mk n false b, List.mem_singleton_self _, rfl, ?_, ?_⟩
            · show relComps n = _
              rw [relComps_single n hnok, hzrel₂]
            · exact hbinj b₀ hb₀
        · exact absurd htgt htgne
        · exact absurd htgt htgne
      · have htgtne : relComps t.target ≠ [] := relComps_ne_nil_of_head t.target ht1 htgt
        have htgtok : ∀ c ∈ relComps t.target, okCompName c :=
          relComps_ok_of_dotfree t.target ht2
        by_cases hteB : endsSlash t.target = true
        · -- target with trailing separator: archive path target ++ name
          rcases hcst with ⟨htg0, hzrel⟩ | ⟨htgne, hteF, hzeq⟩ | ⟨htgne, hteT, hzrel⟩
          · exact absurd htg0 htgt
          · rw [hteB] at hteF
            cases hteF
          · have hzrel₂ : relComps (create_sync_task t).zip_path
                = relComps t.target ++ [n] := by
              rw [hzrel, hn]
              rfl
            have htp : get_target_file_path n t = t.target ++ n := by
              unfold get_target_file_path
              rw [if_neg htgt, if_pos hteB]
            have htpcomps : relComps (t.target ++ n) = relComps t.target ++ [n] := by
              rw [relComps_append_of_endsSlash _ _ hteB, relComps_single n hnok]
            obtain ⟨hrsJ, hrcJ⟩ := rel_render_relsafe (relComps t.target) htgtne htgtok
            have hpar : rustParent (t.target ++ n)
                = some (joinSlash (relComps t.target)) := by
              rw [rustParent_rel_dotfree _ (by rw [head?_append_left _ _ htgt]; exact ht1)
                (dotFreeB_append _ _ ht2 (dotFreeB_of_ok n hnok))
                (by rw [htpcomps]; simp), htpcomps, List.dropLast_concat]
            rw [htp, hpar] at hafz
            have hafz₂ : add_file_to_zip honestEnv fsB t.source (t.target ++ n) =
                ((if (joinSlash (relComps t.target) : Str) = []
                  then ([] : List ZipEntry)
                  else [ZipEntry.mk (joinSlash (relComps t.target) ++ ['/']) true []]) ++
                 [ZipEntry.mk (t.target ++ n) false b], true) := hafz
            rw [if_neg hrsJ.1] at hafz₂
            have hE : taskEntries fsB t =
                [ZipEntry.mk (joinSlash (relComps t.target) ++ ['/']) true [],
                 ZipEntry.mk (t.target ++ n) false b] := by
              rw [hte₂, htp, hafz₂]
              rfl
            rw [hE]
            refine ⟨?_, fun b₀ hb₀ => ?_,
              fun cs₀ hcs₀ => absurd hcs₀ (by simp)⟩
            · intro e he
              rcases List.mem_cons.mp he with rfl | he₂
              · exact ⟨RelSafe_concat_slash _ hrsJ, (endsSlash_concat_slash _).symm⟩
              · rcases List.mem_singleton.mp he₂ with rfl
                refine ⟨⟨by simp [htgt], ?_, dotFreeB_append _ _ ht2
                  (dotFreeB_of_ok n hnok)⟩, ?_⟩
                · rw [head?_append_left _ _ htgt]
                  exact ht1
                · rw [endsSlash_append_right _ _ hnok.1, hnend]
            · refine Or.inl ⟨ZipEntry.mk (t.target ++ n) false b,
                List.mem_cons_of_mem _ (List.mem_singleton_self _), rfl, ?_, hbinj b₀ hb₀⟩
              show relComps (t.target ++ n) = _
              rw [htpcomps, hzrel₂]
        · have hteB' : endsSlash t.target = false := by
            cases hx : endsSlash t.target with
            | false => rfl
            | true => exact absurd hx hteB
          rcases hcst with ⟨htg0, hzrel⟩ | ⟨htgne, hteF, hzeq⟩ | ⟨htgne, hteT, hzrel⟩
          · exact absurd htg0 htgt
          · by_cases hext : (rustExtension t.target).isNone = true
            · -- extensionless target: the file goes to target/name while the
              -- syncer reads target itself; the parent directory entry saves it
              have htp : get_target_file_path n t = t.target ++ '/' :: n := by
                unfold get_target_file_path
                rw [if_neg htgt, if_neg (by simp [hteB']), if_pos hext]
              have htpcomps : relComps (t.target ++ '/' :: n)
                  = relComps t.target ++ [n] := by
                rw [relComps_append_slash, relComps_single n hnok]
              obtain ⟨hrsJ, hrcJ⟩ := rel_render_relsafe (relComps t.target) htgtne htgtok
              have hpar : rustParent (t.target ++ '/' :: n)
                  = some (joinSlash (relComps t.target)) := by
                rw [rustParent_rel_dotfree _
                  (by rw [head?_append_left _ _ htgt]; exact ht1)
                  (dotFreeB_append _ _ ht2 (dotFreeB_cons_slash n (dotFreeB_of_ok n hnok)))
                  (by rw [htpcomps]; simp), htpcomps, List.dropLast_concat]
              rw [htp, hpar] at hafz
              have hafz₂ : add_file_to_zip honestEnv fsB t.source (t.target ++ '/' :: n) =
                  ((if (joinSlash (relComps t.target) : Str) = []
                    then ([] : List ZipEntry)
                    else [ZipEntry.mk (joinSlash (relComps t.target) ++ ['/']) true []]) ++
                   [ZipEntry.mk (t.target ++ '/' :: n) false b], true) := hafz
              rw [if_neg hrsJ.1] at hafz₂
              have hE : taskEntries fsB t =
                  [ZipEntry.mk (joinSlash (relComps t.target) ++ ['/']) true [],
                   ZipEntry.mk (t.target ++ '/' :: n) false b] := by
                rw [hte₂, htp, hafz₂]
                rfl
              rw [hE]
              refine ⟨?_, fun b₀ hb₀ => ?_,
                fun cs₀ hcs₀ => absurd hcs₀ (by simp)⟩
              · intro e he
                rcases List.mem_cons.mp he with rfl | he₂
                · exact ⟨RelSafe_concat_slash _ hrsJ, (endsSlash_concat_slash _).symm⟩
                · rcases List.mem_singleton.mp he₂ with rfl
                  refine ⟨⟨by simp, ?_, dotFreeB_append _ _ ht2
                    (dotFreeB_cons_slash n (dotFreeB_of_ok n hnok))⟩, ?_⟩
                  · rw [head?_append_left _ _ htgt]
                    exact ht1
                  · rw [show t.target ++ '/' :: n = (t.target ++ ['/']) ++ n from by simp,
                      endsSlash_append_right _ _ hnok.1, hnend]
              · refine Or.inr ⟨ZipEntry.mk (joinSlash (relComps t.target) ++ ['/'])
                  true [], List.mem_cons_self _ _, rfl, ?_⟩
                show relComps (joinSlash (relComps t.target) ++ ['/']) = _
                rw [relComps_concat_slash, hrcJ, hzeq]
            · -- target with an extension: the archive path is the target itself
              have htp : get_target_file_path n t = t.target := by
                unfold get_target_file_path
                rw [if_neg htgt, if_neg (by simp [hteB']), if_neg hext]
              have hdlok : ∀ c ∈ (relComps t.target).dropLast, okCompName c :=
                fun c hc => htgtok c (List.mem_of_mem_dropLast hc)
              have hpar : rustParent t.target
                  = some (joinSlash (relComps t.target).dropLast) :=
                rustParent_rel_dotfree t.target ht1 ht2 htgtne
              rw [htp, hpar] at hafz
              have hafz₂ : add_file_to_zip honestEnv fsB t.source t.target =
                  ((if (joinSlash (relComps t.target).dropLast : Str) = []
                    then ([] : List ZipEntry)
                    else [ZipEntry.mk (joinSlash (relComps t.target).dropLast ++ ['/'])
                      true []]) ++ [ZipEntry.mk t.target false b], true) := hafz
              have hE : taskEntries fsB t =
                  (if (joinSlash (relComps t.target).dropLast : Str) = []
                   then ([] : List ZipEntry)
                   else [ZipEntry.mk (joinSlash (relComps t.target).dropLast ++ ['/'])
                     true []]) ++ [ZipEntry.mk t.target false b] := by
                rw [hte₂, htp, hafz₂]
              rw [hE]
              refine ⟨?_, fun b₀ hb₀ => ?_,
                fun cs₀ hcs₀ => absurd hcs₀ (by simp)⟩
              · intro e he
                rcases List.mem_append.mp he with he₂ | he₂
                · obtain ⟨hx1, hx2, _⟩ := dirEntry_facts _ hdlok e he₂
                  exact ⟨hx1, hx2⟩
                · rcases List.mem_singleton.mp he₂ with rfl
                  exact ⟨⟨htgt, ht1, ht2⟩, hteB'.symm⟩
              · refine Or.inl ⟨ZipEntry.mk t.target false b,
                  List.mem_append_right _ (List.mem_singleton_self _), rfl, ?_,
                  hbinj b₀ hb₀⟩
                show relComps t.target = _
                rw [hzeq]
          · rw [hteB'] at hteT
            cases hteT
    | dir cs₀' =>
      have hstatB : statNode fsB t.source = some (FsTree.dir cs₀') := by rw [hval, hlk]
      have hkdir : kindAt fs₀ (relComps t.source) = some NodeKind.dirK :=
        kindAt_of_lookup_dir fs₀ _ cs₀' hlk
      have hteS : endsSlash t.target = false := hdirT hkdir
      have hwfc : wfChildren cs₀' = true :=
        wfTree_subtree _ fs₀ (FsTree.dir cs₀') hwf hlk
      have hE : taskEntries fsB t = ZipEntry.mk (tdnOf t ++ ['/']) true [] ::
          (adrChildren honestEnv cs₀' t.source (tdnOf t)).1 := by
        unfold taskEntries
        rw [hstatB, add_directory_honest fsB t cs₀' hstatB]
      have htdnfacts : RelSafe (tdnOf t) ∧
          relComps (tdnOf t) = relComps (create_sync_task t).zip_path := by
        by_cases htgt : t.target = []
        · rcases hcst with ⟨htg0, hzrel⟩ | ⟨htgne, hteF, hzeq⟩ | ⟨htgne, hteT, hzrel⟩
          · have htdn : tdnOf t = n := by
              unfold tdnOf
              rw [if_pos htgt, hn]
              rfl
            have hzrel₂ : relComps (create_sync_task t).zip_path = [n] := by
              rw [hzrel, hn]
              rfl
            rw [htdn, hzrel₂]
            exact ⟨⟨hnok.1, hnhd, dotFreeB_of_ok n hnok⟩, relComps_single n hnok⟩
          · exact absurd htgt htgne
          · exact absurd htgt htgne
        · have htdn : tdnOf t = t.target := by
            unfold tdnOf
            rw [if_neg htgt]
          rcases hcst with ⟨htg0, hzrel⟩ | ⟨htgne, hteF, hzeq⟩ | ⟨htgne, hteT, hzrel⟩
          · exact absurd htg0 htgt
          · rw [htdn, hzeq]
            exact ⟨⟨htgt, ht1, ht2⟩, rfl⟩
          · rw [hteS] at hteT
            cases hteT
      obtain ⟨htdnrs, htdncomps⟩ := htdnfacts
      obtain ⟨hsucc, hfilter, hall⟩ :=
        adrChildren_spec cs₀' (tdnOf t) t.source hwfc htdnrs
      rw [hE]
      refine ⟨?_, fun b₀ hb₀ => ?_, fun cs₀ hcs₀ => ?_⟩
      · intro e he
        rcases List.mem_cons.mp he with rfl | he₂
        · exact ⟨RelSafe_concat_slash _ htdnrs, (endsSlash_concat_slash _).symm⟩
        · exact ⟨(hall e he₂).1, (hall e he₂).2.1⟩
      · have hlf := lookup_of_kind_file fs₀ _ b₀ hb₀
        rw [hlk] at hlf
        exact absurd hlf (by simp)
      · have hcseq : cs₀' = cs₀ := by
          injection hcs₀ with h1
          injection h1 with h2
        subst hcseq
        constructor
        · refine ⟨ZipEntry.mk (tdnOf t ++ ['/']) true [], List.mem_cons_self _ _,
            rfl, ?_⟩
          show relComps (tdnOf t ++ ['/']) = _
          rw [relComps_concat_slash, htdncomps]
        · intro r b₀ hrb
          have hrok : ∀ c ∈ r, okCompName c :=
            relFilesChildren_comps_ok cs₀' hwfc r b₀ hrb
          have hmem_map : ZipEntry.mk (r.foldl nameJoin (tdnOf t)) false b₀ ∈
              (relFilesChildren cs₀').map
                (fun rb => ZipEntry.mk (rb.1.foldl nameJoin (tdnOf t)) false rb.2) :=
            List.mem_map.mpr ⟨(r, b₀), hrb, rfl⟩
          rw [← hfilter] at hmem_map
          refine ⟨ZipEntry.mk (r.foldl nameJoin (tdnOf t)) false b₀,
            List.mem_cons_of_mem _ (List.mem_of_mem_filter hmem_map), rfl, ?_, rfl⟩
          show relComps (r.foldl nameJoin (tdnOf t)) = _
          rw [relComps_foldl_nameJoin r (tdnOf t) hrok, htdncomps]

/-! ## Lemmas: the files covered by a task -/

theorem coveredFiles_kindAt (fs : FsTree) (t : CopyTask) (hwf : wfTree fs = true)
    (hs : CleanSrc t.source) : ∀ pb ∈ coveredFiles fs t,
    kindAt fs pb.1 = some (NodeKind.fileK pb.2) ∧ relComps t.source <+: pb.1 := by
  intro pb hpb
  obtain ⟨hs1, hs2, hs3, hs4⟩ := hs
  have hres : strResolve t.source = some (relComps t.source) :=
    strResolve_eq_relComps t.source hs1 hs2
  unfold coveredFiles at hpb
  rw [hres] at hpb
  have hpb₂ : pb ∈ (match lookupNode fs (relComps t.source) with
    | some n => (relFiles n).map
        fun (rb : List Str × Bytes) => (relComps t.source ++ rb.1, rb.2)
    | none => ([] : List (List Str × Bytes))) := hpb
  cases hlk : lookupNode fs (relComps t.source) with
  | none =>
    rw [hlk] at hpb₂
    exact absurd hpb₂ (List.not_mem_nil pb)
  | some node =>
    rw [hlk] at hpb₂
    have hpb₃ : pb ∈ (relFiles node).map
        fun (rb : List Str × Bytes) => (relComps t.source ++ rb.1, rb.2) := hpb₂
    obtain ⟨rb, hrb, heq⟩ := List.mem_map.mp hpb₃
    subst heq
    cases node with
    | file b =>
      have hrb₂ : rb ∈ [(([] : List Str), b)] := hrb
      rcases List.mem_singleton.mp hrb₂ with rfl
      refine ⟨?_, List.prefix_append _ _⟩
      show kindAt fs (relComps t.source ++ []) = some (NodeKind.fileK b)
      rw [List.append_nil]
      exact kindAt_of_lookup_file fs _ b hlk
    | dir cs =>
      have hrb₂ : rb ∈ relFilesChildren cs := hrb
      have hwfc : wfChildren cs = true := wfTree_subtree _ fs (FsTree.dir cs) hwf hlk
      have hlkr := lookup_of_mem_relFilesChildren cs hwfc rb.1 rb.2 hrb₂
      refine ⟨?_, List.prefix_append _ _⟩
      rw [kindAt_append_of_lookup fs _ _ _ hlk]
      exact kindAt_of_lookup_file _ _ _ hlkr
    | other =>
      have hrb₂ : rb ∈ ([] : List (List Str × Bytes)) := hrb
      exact absurd hrb₂ (List.not_mem_nil rb)

/-- C1 (amended round trip): for a well-formed filesystem, a clean absolute
archive path whose stem is a plain component, and tasks with clean absolute
sources and clean relative targets that are present as files or directories,
whose sources are prefix-incomparable with the archive path and with the
staging folder, where no directory task has a trailing-separator target, and
where the built archive's file entries name pairwise-distinct canonical
paths, the full pipeline (build, extract, reverse-sync) reproduces every
originally-present file's bytes at its original source path. -/
theorem C1_round_trip (fs₀ : FsTree) (cfg : Config)
    (hwf : wfTree fs₀ = true)
    (hzp : CleanSrc cfg.zip_path)
    (hstem : okCompName ((rustFileStem cfg.zip_path).getD []))
    (htasks : ∀ t ∈ cfg.copy_tasks,
      CleanSrc t.source ∧ CleanTgt t.target ∧
      kindAt fs₀ (relComps t.source) ≠ none ∧
      kindAt fs₀ (relComps t.source) ≠ some NodeKind.otherK ∧
      (kindAt fs₀ (relComps t.source) = some NodeKind.dirK →
        endsSlash t.target = false) ∧
      (¬relComps t.source <+: relComps cfg.zip_path ∧
       ¬relComps cfg.zip_path <+: relComps t.source) ∧
      (¬relComps t.source <+: Scomps cfg ∧ ¬Scomps cfg <+: relComps t.source))
    (hH4 : (((builtArchive honestEnv fs₀ cfg).filter fun e => !e.isDir).map
        fun e => relComps e.name).Nodup) :
    ∀ t ∈ cfg.copy_tasks, ∀ pb ∈ coveredFiles fs₀ t,
      readFile (runPipeline honestEnv fs₀ cfg) pb.1 = some pb.2 := by
  intro t ht pb hpb
  obtain ⟨hcs, hct, hpres1, hpres2, hdirTt, hsepZt, hsepSt⟩ := htasks t ht
  obtain ⟨hkpb, hpre⟩ := coveredFiles_kindAt fs₀ t hwf hcs pb hpb
  have husrc : relComps t.source ∈ cfg.copy_tasks.map fun t' => relComps t'.source :=
    List.mem_map.mpr ⟨t, ht, rfl⟩
  have hfinal : Inv fs₀ (cfg.copy_tasks.map fun t' => relComps t'.source)
      (runPipeline honestEnv fs₀ cfg) := by
    unfold runPipeline
    cases hstub : stubFs honestEnv fs₀ cfg with
    | none =>
      have hcz : create_zip honestEnv fs₀ cfg
          = CreateResult.fatal "stream creation".toList fs₀ [] := by
        unfold create_zip
        rw [hstub]
      rw [hcz]
      exact fun p k hund hk => hk
    | some fsB =>
      obtain ⟨hz1, hz2, hz3, hz4⟩ := hzp
      have hresZ : strResolve cfg.zip_path = some (relComps cfg.zip_path) :=
        strResolve_eq_relComps _ hz1 hz2
      have hZok : ∀ c ∈ relComps cfg.zip_path, okCompName c :=
        relComps_ok_of_dotfree _ hz2
      have hstub₂ : (strResolve cfg.zip_path).bind
          (fun p => writeFileAt fs₀ p []) = some fsB := hstub
      rw [hresZ] at hstub₂
      have hstub₃ : writeFileAt fs₀ (relComps cfg.zip_path) [] = some fsB := hstub₂
      have hvalB : ∀ p, ¬(p <+: relComps cfg.zip_path) →
          lookupNode fsB p = lookupNode fs₀ p :=
        writeFileAt_val _ fs₀ [] fsB hstub₃
      have hwfB : wfTree fsB = true :=
        wfTree_writeFileAt _ fs₀ [] fsB hwf hZok hstub₃
      have hInvB : Inv fs₀ (cfg.copy_tasks.map fun t' => relComps t'.source) fsB := by
        intro p k hund hk
        obtain ⟨u, hu, hup⟩ := hund
        obtain ⟨t'', ht'', hueq⟩ := List.mem_map.mp hu
        have hnp : ¬(p <+: relComps cfg.zip_path) := by
          intro hc
          exact (htasks t'' ht'').2.2.2.2.2.1.1 (hueq ▸ (hup.trans hc))
        rw [kindAt_eq_of_lookup_eq fs₀ fsB p (hvalB p hnp)]
        exact hk
      have hstatB : ∀ t' ∈ cfg.copy_tasks,
          statNode fsB t'.source = lookupNode fs₀ (relComps t'.source) := by
        intro t' ht'
        rw [statNode_clean fsB t'.source (htasks t' ht').1]
        exact hvalB _ (htasks t' ht').2.2.2.2.2.1.1
      have hnames : ∀ t' ∈ cfg.copy_tasks, (rustFileName t'.source).isSome = true := by
        intro t' ht'
        obtain ⟨n', hn', _⟩ := cleanSrc_fileName t'.source (htasks t' ht').1
        rw [hn']
        rfl
      have hcz := create_zip_honest fs₀ cfg fsB hstub hnames
      rw [hcz]
      have hba : builtArchive honestEnv fs₀ cfg
          = cfg.copy_tasks.flatMap (taskEntries fsB) := by
        unfold builtArchive
        rw [hcz]
      rw [hba] at hH4
      have hnm : ∀ e ∈ cfg.copy_tasks.flatMap (taskEntries fsB),
          RelSafe e.name ∧ e.isDir = endsSlash e.name := by
        intro e he
        obtain ⟨t'', ht'', he'⟩ := List.mem_flatMap.mp he
        obtain ⟨hcs'', hct'', _, _, hdirT'', _, _⟩ := htasks t'' ht''
        exact (taskEntries_spec fs₀ fsB t'' hwf hcs'' hct'' hdirT''
          (hstatB t'' ht'')).1 e he'
      obtain ⟨ho1, ho2, ho3, ho4⟩ := outFStr_spec cfg.zip_path ⟨hz1, hz2, hz3, hz4⟩ hstem
      have hoS : relComps (outFStr cfg.zip_path) = Scomps cfg := ho3
      have hS : ∀ u ∈ cfg.copy_tasks.map fun t' => relComps t'.source,
          ¬u <+: relComps (outFStr cfg.zip_path) ∧
          ¬relComps (outFStr cfg.zip_path) <+: u := by
        intro u hu
        obtain ⟨t'', ht'', hueq⟩ := List.mem_map.mp hu
        rw [hoS, ← hueq]
        exact (htasks t'' ht'').2.2.2.2.2.2
      set ES := cfg.copy_tasks.flatMap (taskEntries fsB) with hES
      set FSZ := ((strResolve cfg.zip_path).bind
        fun p => writeFileAt fsB p (zipBytes ES)).getD fsB with hFSZ
      have hInvZ : Inv fs₀ (cfg.copy_tasks.map fun t' => relComps t'.source) FSZ := by
        rw [hFSZ, hresZ]
        show Inv fs₀ (cfg.copy_tasks.map fun t' => relComps t'.source)
          ((writeFileAt fsB (relComps cfg.zip_path) (zipBytes ES)).getD fsB)
        cases hwz : writeFileAt fsB (relComps cfg.zip_path) (zipBytes ES) with
        | none => exact hInvB
        | some fsW =>
          show Inv fs₀ _ fsW
          intro p k hund hk
          obtain ⟨u, hu, hup⟩ := hund
          obtain ⟨t'', ht'', hueq⟩ := List.mem_map.mp hu
          have hnp : ¬(p <+: relComps cfg.zip_path) := by
            intro hc
            exact (htasks t'' ht'').2.2.2.2.2.1.1 (hueq ▸ (hup.trans hc))
          rw [kindAt_eq_of_lookup_eq fsB fsW p
            (writeFileAt_val _ fsB (zipBytes ES) fsW hwz p hnp)]
          exact hInvB p k ⟨u, hu, hup⟩ hk
      have hwfZ : wfTree FSZ = true := by
        rw [hFSZ, hresZ]
        show wfTree ((writeFileAt fsB (relComps cfg.zip_path) (zipBytes ES)).getD fsB)
          = true
        cases hwz : writeFileAt fsB (relComps cfg.zip_path) (zipBytes ES) with
        | none => exact hwfB
        | some fsW =>
          show wfTree fsW = true
          exact wfTree_writeFileAt _ fsB (zipBytes ES) fsW hwfB hZok hwz
      have hsafeE : ∀ e ∈ ES, ∀ p,
          strResolve (rustJoin (outFStr cfg.zip_path) e.name) = some p →
          SafeWrite fs₀ (cfg.copy_tasks.map fun t' => relComps t'.source) p e.content := by
        intro e he p hresE
        obtain ⟨⟨hene, hehd, hedf⟩, _⟩ := hnm e he
        rw [strResolve_rustJoin _ _ ho1 ho2 hehd hedf] at hresE
        have hp : p = relComps (outFStr cfg.zip_path) ++ relComps e.name :=
          (Option.some_inj.mp hresE).symm
        subst hp
        apply SafeWrite_of_not_under
        intro hund
        obtain ⟨u, hu, hup⟩ := hund
        rcases List.prefix_or_prefix_of_prefix hup
          (List.prefix_append (relComps (outFStr cfg.zip_path)) (relComps e.name)) with
          hc | hc
        · exact (hS u hu).1 hc
        · exact (hS u hu).2 hc
      obtain ⟨hfail, hok⟩ := extract_inv_wf fs₀
        (cfg.copy_tasks.map fun t' => relComps t'.source) FSZ cfg.zip_path ES
        hsafeE hInvZ hwfZ
      show Inv fs₀ (cfg.copy_tasks.map fun t' => relComps t'.source)
        (match extract_zip_to_folder FSZ cfg.zip_path ES with
         | ExtractResult.exfail f₂ => f₂
         | ExtractResult.exok f₂ outf =>
           (sync_files f₂ outf (create_sync_tasks_from_config cfg)).1)
      cases hres : extract_zip_to_folder FSZ cfg.zip_path ES with
      | exfail f₂ => exact (hfail f₂ hres).1
      | exok f₂ outf =>
        obtain ⟨hInvE, hwfE, houteq, fs₁', hfoldE⟩ := hok f₂ outf hres
        subst houteq
        apply sync_files_inv fs₀ (cfg.copy_tasks.map fun t' => relComps t'.source)
          (outFStr cfg.zip_path) ES fs₁' f₂ hfoldE hwfE ho1 ho2 hS
          (fun e he => (hnm e he).1) (fun e he => (hnm e he).2) hH4
          (create_sync_tasks_from_config cfg) hInvE
        intro st hst
        obtain ⟨t', ht', hsteq⟩ := List.mem_map.mp hst
        subst hsteq
        obtain ⟨hcs', hct', _, _, hdirT', _, _⟩ := htasks t' ht'
        obtain ⟨hep, hrs, hes, _⟩ := create_sync_task_clean t' hcs' hct'
        obtain ⟨hspec1, hspec2, hspec3⟩ :=
          taskEntries_spec fs₀ fsB t' hwf hcs' hct' hdirT' (hstatB t' ht')
        have hmem' : relComps (create_sync_task t').extract_path ∈
            cfg.copy_tasks.map fun t'' => relComps t''.source := by
          rw [hep]
          exact List.mem_map.mpr ⟨t', ht', rfl⟩
        refine ⟨by rw [hep]; exact hcs', hmem', hrs, hes, ?_, ?_⟩
        · intro b₀ hb₀
          rw [hep] at hb₀
          rcases hspec2 b₀ hb₀ with ⟨e, he, hh⟩ | ⟨e, he, hh⟩
          · exact Or.inl ⟨e, List.mem_flatMap.mpr ⟨t', ht', he⟩, hh⟩
          · exact Or.inr ⟨e, List.mem_flatMap.mpr ⟨t', ht', he⟩, hh⟩
        · intro cs₀ hcs₀
          rw [hep] at hcs₀
          obtain ⟨⟨e, he, hh⟩, hwalk⟩ := hspec3 cs₀ hcs₀
          refine ⟨⟨e, List.mem_flatMap.mpr ⟨t', ht', he⟩, hh⟩, ?_⟩
          intro r b₀ hrb
          obtain ⟨e₂, he₂, hh₂⟩ := hwalk r b₀ hrb
          exact ⟨e₂, List.mem_flatMap.mpr ⟨t', ht', he₂⟩, hh₂⟩
  exact readFile_of_kind _ _ _
    (hfinal pb.1 (NodeKind.fileK pb.2) ⟨relComps t.source, husrc, hpre⟩ hkpb)

/-- C1 counterexample: with both sources present as readable files, the two
tasks collide on the archive path `s.txt`; after build, extract and
reverse-sync, the file at `/a` holds `/b`'s bytes instead of its own. -/
theorem C1_counterexample :
    (∀ t ∈ c1cfg.copy_tasks, pathIsFile c1fs t.source = true) ∧
    ([['a']], ([1] : Bytes)) ∈ coveredFiles c1fs
      ⟨['/', 'a'], [], ['s', '.', 't', 'x', 't']⟩ ∧
    readFile c1fs [['a']] = some [1] ∧
    readFile (runPipeline honestEnv c1fs c1cfg) [['a']] = some [2] := by
  decide

/-- C1 witness: two clean present file tasks mapped to distinct archive paths
satisfy every hypothesis of the amended round trip, and both files keep their
bytes through the pipeline. -/
theorem C1_round_trip_witness :
    readFile (runPipeline honestEnv c1wfs c1wcfg) [['a']] = some [1] ∧
    readFile (runPipeline honestEnv c1wfs c1wcfg) [['b']] = some [2] := by
  have h := C1_round_trip c1wfs c1wcfg
    (by simp [c1wfs, wfTree, wfChildren, nameFresh, okCompName])
    (by decide) (by decide) (by decide) (by decide)
  exact ⟨h ⟨['/', 'a'], [], ['x', '.', 't', 'x', 't']⟩ (List.mem_cons_self _ _)
      ([['a']], [1]) (by decide),
    h ⟨['/', 'b'], [], ['y', '.', 't', 'x', 't']⟩
      (List.mem_cons_of_mem _ (List.mem_cons_self _ _))
      ([['b']], [2]) (by decide)⟩

end ZipSync
